import Mathlib

/-!
Verification of the signing and XML codec core of the `n8n-nodes-mega`
repository (`src/nodes/Mega/GenericFunctions.ts` and the presigned-URL
handlers). All JavaScript strings are modelled as Lean `String` / `List Char`
(one entry per Unicode scalar value, which agrees with UTF-16 code units on
the ASCII inputs the theorems quantify over). `Buffer`/hash values produced
by node's `crypto` are modelled abstractly: the hash and HMAC functions are
explicit parameters of the embedded signers.
-/

namespace MegaS4

/-! ## JavaScript string primitives -/

/-- The characters `String.prototype.trim` removes: ASCII whitespace,
line terminators, NBSP and the BOM. -/
def jsWhitespace (c : Char) : Bool :=
  c = ' ' || c = '\t' || c = '\n' || c = '\r' ||
  c = Char.ofNat 11 || c = Char.ofNat 12 || c = Char.ofNat 160 || c = Char.ofNat 65279

/-- `String.prototype.trim` on a character list. -/
def jsTrimList (s : List Char) : List Char :=
  ((s.dropWhile jsWhitespace).reverse.dropWhile jsWhitespace).reverse

/-- `String.prototype.trim`. -/
def jsTrim (s : String) : String := ⟨jsTrimList s.data⟩

/-- Fueled global replace. `replaceAllF pat repl fuel s` scans `s` left to
right; at each position a match of `pat` is replaced by `repl` and scanning
resumes after the matched portion (the replacement is not rescanned), the
semantics of JavaScript `String.prototype.replace` with a global literal
pattern. One unit of fuel is spent per examined position, so `s.length`
fuel always suffices. -/
def replaceAllF (pat repl : List Char) : Nat → List Char → List Char
  | _, [] => []
  | 0, s => s
  | fuel + 1, c :: s =>
    if pat ≠ [] ∧ pat.isPrefixOf (c :: s) then
      repl ++ replaceAllF pat repl fuel ((c :: s).drop pat.length)
    else
      c :: replaceAllF pat repl fuel s

/-- The fuel argument of `replaceAllF` is irrelevant once it covers the
length of the input. -/
theorem replaceAllF_fuel {pat repl : List Char} :
    ∀ {fuel fuel' : Nat} {s : List Char}, s.length ≤ fuel → s.length ≤ fuel' →
      replaceAllF pat repl fuel s = replaceAllF pat repl fuel' s := by
  intro fuel
  induction fuel with
  | zero =>
    intro fuel' s hs hs'
    have : s = [] := List.eq_nil_of_length_eq_zero (Nat.le_zero.mp hs)
    subst this
    cases fuel' <;> rfl
  | succ n ih =>
    intro fuel' s hs hs'
    cases s with
    | nil => cases fuel' <;> rfl
    | cons c s =>
      cases fuel' with
      | zero => exact absurd hs' (by simp)
      | succ m =>
        simp only [replaceAllF]
        by_cases h : pat ≠ [] ∧ pat.isPrefixOf (c :: s)
        · simp only [if_pos h]
          congr 1
          apply ih
          · calc ((c :: s).drop pat.length).length ≤ (c :: s).length - pat.length := by
                  simp [List.length_drop]
              _ ≤ s.length + 1 - 1 := by
                  have : 1 ≤ pat.length := by
                    cases pat with
                    | nil => exact absurd rfl h.1
                    | cons _ _ => simp
                  simp only [List.length_cons]
                  omega
              _ ≤ n := by
                  simpa using Nat.le_of_succ_le_succ (by simpa using hs)
          · have hp : 1 ≤ pat.length := by
              cases pat with
              | nil => exact absurd rfl h.1
              | cons _ _ => simp
            calc ((c :: s).drop pat.length).length = (c :: s).length - pat.length := by
                  simp [List.length_drop]
              _ ≤ s.length := by simp only [List.length_cons]; omega
              _ ≤ m := by simpa using Nat.le_of_succ_le_succ (by simpa using hs')
        · simp only [if_neg h]
          congr 1
          exact ih (Nat.le_of_succ_le_succ (by simpa using hs))
            (Nat.le_of_succ_le_succ (by simpa using hs'))

/-- Global replace with the fuel fixed to the input length. -/
def replaceAll (pat repl s : List Char) : List Char :=
  replaceAllF pat repl s.length s

@[simp] theorem replaceAll_nil (pat repl : List Char) : replaceAll pat repl [] = [] := rfl

/-- Unfolding equation for `replaceAll` on a nonempty input. -/
theorem replaceAll_cons (pat repl : List Char) (c : Char) (s : List Char) :
    replaceAll pat repl (c :: s) =
      if pat ≠ [] ∧ pat.isPrefixOf (c :: s) then
        repl ++ replaceAll pat repl ((c :: s).drop pat.length)
      else
        c :: replaceAll pat repl s := by
  show replaceAllF pat repl (s.length + 1) (c :: s) = _
  simp only [replaceAllF]
  by_cases h : pat ≠ [] ∧ pat.isPrefixOf (c :: s)
  · simp only [if_pos h]
    congr 1
    have hp : 1 ≤ pat.length := by
      cases pat with
      | nil => exact absurd rfl h.1
      | cons _ _ => simp
    exact replaceAllF_fuel
      (by simp only [List.length_drop, List.length_cons]; omega) (Nat.le_refl _)
  · simp only [if_neg h]
    rfl

/-! ## XML entity escaping and unescaping

`buildXmlFromObject` escapes `& < > " '` (in that order, ampersand first);
`parseXmlToObject` unescapes `&lt; &gt; &amp; &quot; &apos;` (in that
order). Both are sequences of global replaces. -/

/-- The encoder's entity escaping (`buildXmlFromObject`, lines 279–284):
five sequential global replaces, ampersand first. -/
def escapeXmlList (s : List Char) : List Char :=
  replaceAll ['\''] "&apos;".data
    (replaceAll ['"'] "&quot;".data
      (replaceAll ['>'] "&gt;".data
        (replaceAll ['<'] "&lt;".data
          (replaceAll ['&'] "&amp;".data s))))

/-- The decoder's entity unescaping (`parseXmlToObject`, lines 243–248):
five sequential global replaces in the source's order (`&lt;`, `&gt;`,
`&amp;`, `&quot;`, `&apos;`). -/
def decodeXmlEntitiesList (s : List Char) : List Char :=
  replaceAll "&apos;".data ['\'']
    (replaceAll "&quot;".data ['"']
      (replaceAll "&amp;".data ['&']
        (replaceAll "&gt;".data ['>']
          (replaceAll "&lt;".data ['<'] s))))

/-- String-level entity escaping, as in `buildXmlFromObject`. -/
def escapeXml (s : String) : String := ⟨escapeXmlList s.data⟩

/-- String-level entity unescaping, as in `parseXmlToObject`. -/
def decodeXmlEntities (s : String) : String := ⟨decodeXmlEntitiesList s.data⟩

/-! ### Analysis of the escape / unescape pair

The escape side expands every character independently, so it is a
`flatMap` of a per-character token function. The decode side is then
traced through the five global replaces one at a time. -/

/-- A single-character global replace expands each character independently. -/
theorem replaceAll_singleton (a : Char) (r : List Char) :
    ∀ s : List Char, replaceAll [a] r s = s.flatMap (fun c => if c = a then r else [c])
  | [] => by simp
  | c :: s => by
    rw [replaceAll_cons, List.flatMap_cons]
    by_cases h : c = a
    · have hc : ([a] ≠ [] ∧ [a].isPrefixOf (c :: s)) := by
        refine ⟨by simp, ?_⟩
        rw [List.isPrefixOf_iff_prefix, List.cons_prefix_cons]
        exact ⟨h.symm, List.nil_prefix⟩
      rw [if_pos hc, if_pos h]
      simp [replaceAll_singleton a r s]
    · have hc : ¬ ([a] ≠ [] ∧ [a].isPrefixOf (c :: s)) := by
        rintro ⟨-, hp⟩
        rw [List.isPrefixOf_iff_prefix, List.cons_prefix_cons] at hp
        exact h hp.1.symm
      rw [if_neg hc, if_neg h]
      simp [replaceAll_singleton a r s]

/-- Per-character expansion performed by the encoder's five escapes. -/
def tokE (c : Char) : List Char :=
  if c = '&' then ['&', 'a', 'm', 'p', ';']
  else if c = '<' then ['&', 'l', 't', ';']
  else if c = '>' then ['&', 'g', 't', ';']
  else if c = '"' then ['&', 'q', 'u', 'o', 't', ';']
  else if c = '\'' then ['&', 'a', 'p', 'o', 's', ';']
  else [c]

/-- Token state after the decoder's `&lt;` replace. -/
def tokA (c : Char) : List Char :=
  if c = '&' then ['&', 'a', 'm', 'p', ';']
  else if c = '<' then ['<']
  else if c = '>' then ['&', 'g', 't', ';']
  else if c = '"' then ['&', 'q', 'u', 'o', 't', ';']
  else if c = '\'' then ['&', 'a', 'p', 'o', 's', ';']
  else [c]

/-- Token state after the decoder's `&gt;` replace. -/
def tokB (c : Char) : List Char :=
  if c = '&' then ['&', 'a', 'm', 'p', ';']
  else if c = '<' then ['<']
  else if c = '>' then ['>']
  else if c = '"' then ['&', 'q', 'u', 'o', 't', ';']
  else if c = '\'' then ['&', 'a', 'p', 'o', 's', ';']
  else [c]

/-- Token state after the decoder's `&amp;` replace. -/
def tokC (c : Char) : List Char :=
  if c = '"' then ['&', 'q', 'u', 'o', 't', ';']
  else if c = '\'' then ['&', 'a', 'p', 'o', 's', ';']
  else [c]

/-- Token state after the decoder's `&quot;` replace. -/
def tokD (c : Char) : List Char :=
  if c = '\'' then ['&', 'a', 'p', 'o', 's', ';'] else [c]

/-- The encoder's escaping, as a per-character expansion. -/
theorem escapeXmlList_eq_flatMap (s : List Char) : escapeXmlList s = s.flatMap tokE := by
  unfold escapeXmlList
  have d1 : "&amp;".data = ['&', 'a', 'm', 'p', ';'] := rfl
  have d2 : "&lt;".data = ['&', 'l', 't', ';'] := rfl
  have d3 : "&gt;".data = ['&', 'g', 't', ';'] := rfl
  have d4 : "&quot;".data = ['&', 'q', 'u', 'o', 't', ';'] := rfl
  have d5 : "&apos;".data = ['&', 'a', 'p', 'o', 's', ';'] := rfl
  rw [d1, d2, d3, d4, d5]
  rw [replaceAll_singleton, replaceAll_singleton, replaceAll_singleton,
    replaceAll_singleton, replaceAll_singleton]
  rw [List.flatMap_assoc, List.flatMap_assoc, List.flatMap_assoc, List.flatMap_assoc]
  apply List.flatMap_congr
  intro c _
  by_cases h1 : c = '&'
  · subst h1; decide
  by_cases h2 : c = '<'
  · subst h2; decide
  by_cases h3 : c = '>'
  · subst h3; decide
  by_cases h4 : c = '"'
  · subst h4; decide
  by_cases h5 : c = '\''
  · subst h5; decide
  simp [if_neg h1, if_neg h2, if_neg h3, if_neg h4, if_neg h5, tokE]

/-- A global replace copies characters that can never start a match. -/
theorem replaceAll_skipChars {p0 : Char} {pt r : List Char} :
    ∀ {u : List Char}, (∀ x ∈ u, x ≠ p0) → ∀ t,
      replaceAll (p0 :: pt) r (u ++ t) = u ++ replaceAll (p0 :: pt) r t := by
  intro u
  induction u with
  | nil => intro _ t; simp
  | cons c u ih =>
    intro h t
    rw [List.cons_append, replaceAll_cons]
    have hc : ¬ ((p0 :: pt) ≠ [] ∧ (p0 :: pt).isPrefixOf (c :: (u ++ t))) := by
      rintro ⟨-, hp⟩
      rw [List.isPrefixOf_iff_prefix, List.cons_prefix_cons] at hp
      exact h c (by simp) hp.1.symm
    rw [if_neg hc]
    rw [ih (fun x hx => h x (by simp [hx])) t, List.cons_append]

/-- A global replace fires on an exact occurrence of the pattern. -/
theorem replaceAll_matchAt {pat r : List Char} (h : pat ≠ []) (t : List Char) :
    replaceAll pat r (pat ++ t) = r ++ replaceAll pat r t := by
  cases pat with
  | nil => exact absurd rfl h
  | cons p0 pt =>
    rw [List.cons_append, replaceAll_cons]
    have hc : ((p0 :: pt) ≠ [] ∧ (p0 :: pt).isPrefixOf (p0 :: (pt ++ t))) := by
      refine ⟨by simp, ?_⟩
      rw [List.isPrefixOf_iff_prefix, ← List.cons_append]
      exact List.prefix_append _ _
    rw [if_pos hc]
    congr 1
    rw [← List.cons_append, List.drop_left]

/-- A global replace copies a block whose head is the pattern's head but whose
second character already mismatches, and whose remaining characters cannot
start a match. -/
theorem replaceAll_copyBlock {p0 : Char} {pt r : List Char} {b0 : Char} {bt t : List Char}
    (hpre : ¬ (p0 :: pt) <+: ((b0 :: bt) ++ t))
    (htail : ∀ x ∈ bt, x ≠ p0) :
    replaceAll (p0 :: pt) r ((b0 :: bt) ++ t) = (b0 :: bt) ++ replaceAll (p0 :: pt) r t := by
  rw [List.cons_append, replaceAll_cons]
  have hc : ¬ ((p0 :: pt) ≠ [] ∧ (p0 :: pt).isPrefixOf (b0 :: (bt ++ t))) := by
    rintro ⟨-, hp⟩
    rw [List.isPrefixOf_iff_prefix] at hp
    exact hpre (by rw [List.cons_append]; exact hp)
  rw [if_neg hc, replaceAll_skipChars htail t, List.cons_append]

/-- Transfers a word across a per-character expansion: when every character
of `w` expands to itself and no expansion of another character can produce a
character of `w` at its head, `w` occurs at the head of the expansion of `s`
exactly when it occurs at the head of `s`. -/
theorem prefix_flatMap_transfer (g : Char → List Char) (hne : ∀ a, g a ≠ []) :
    ∀ (w : List Char), (∀ a c, (g a).head? = some c → c ∈ w → a = c) →
      (∀ c ∈ w, g c = [c]) →
      ∀ s : List Char, (w <+: s.flatMap g ↔ w <+: s) := by
  intro w
  induction w with
  | nil => intro _ _ s; simp
  | cons c w ih =>
    intro hhead hid s
    cases s with
    | nil => simp
    | cons a s =>
      rw [List.flatMap_cons]
      by_cases hac : a = c
      · subst hac
        rw [hid a (by simp)]
        rw [List.singleton_append, List.cons_prefix_cons, List.cons_prefix_cons]
        have := ih (fun a c' h1 h2 => hhead a c' h1 (by simp [h2]))
          (fun c' h => hid c' (by simp [h])) s
        rw [this]
      · constructor
        · intro hp
          obtain ⟨d, gd, hgd⟩ : ∃ d gd, g a = d :: gd := by
            cases hga : g a with
            | nil => exact absurd hga (hne a)
            | cons d gd => exact ⟨d, gd, rfl⟩
          rw [hgd, List.cons_append, List.cons_prefix_cons] at hp
          have : a = c := hhead a c (by rw [hgd]; simpa using hp.1.symm ▸ rfl) (by simp)
          exact absurd this hac
        · intro hp
          rw [List.cons_prefix_cons] at hp
          exact absurd hp.1.symm hac

/-- After the decoder's `&lt;` replace, the escape tokens have become `tokA`. -/
theorem decode_stepA : ∀ s : List Char,
    replaceAll ['&', 'l', 't', ';'] ['<'] (s.flatMap tokE) = s.flatMap tokA := by
  intro s
  induction s with
  | nil => simp
  | cons c s ih =>
    rw [List.flatMap_cons, List.flatMap_cons]
    by_cases h1 : c = '&'
    · subst h1
      show replaceAll _ _ (['&', 'a', 'm', 'p', ';'] ++ _) = ['&', 'a', 'm', 'p', ';'] ++ _
      rw [replaceAll_copyBlock (by simp [List.cons_prefix_cons]) (by decide), ih]
    by_cases h2 : c = '<'
    · subst h2
      show replaceAll _ _ (['&', 'l', 't', ';'] ++ _) = ['<'] ++ _
      rw [replaceAll_matchAt (by simp), ih]
    by_cases h3 : c = '>'
    · subst h3
      show replaceAll _ _ (['&', 'g', 't', ';'] ++ _) = ['&', 'g', 't', ';'] ++ _
      rw [replaceAll_copyBlock (by simp [List.cons_prefix_cons]) (by decide), ih]
    by_cases h4 : c = '"'
    · subst h4
      show replaceAll _ _ (['&', 'q', 'u', 'o', 't', ';'] ++ _) = ['&', 'q', 'u', 'o', 't', ';'] ++ _
      rw [replaceAll_copyBlock (by simp [List.cons_prefix_cons]) (by decide), ih]
    by_cases h5 : c = '\''
    · subst h5
      show replaceAll _ _ (['&', 'a', 'p', 'o', 's', ';'] ++ _) = ['&', 'a', 'p', 'o', 's', ';'] ++ _
      rw [replaceAll_copyBlock (by simp [List.cons_prefix_cons]) (by decide), ih]
    · show replaceAll _ _ ((tokE c) ++ _) = (tokA c) ++ _
      rw [show tokE c = [c] by simp [tokE, h1, h2, h3, h4, h5],
        show tokA c = [c] by simp [tokA, h1, h2, h3, h4, h5]]
      rw [replaceAll_skipChars (by simpa using h1), ih]

/-- After the decoder's `&gt;` replace, the tokens have become `tokB`. -/
theorem decode_stepB : ∀ s : List Char,
    replaceAll ['&', 'g', 't', ';'] ['>'] (s.flatMap tokA) = s.flatMap tokB := by
  intro s
  induction s with
  | nil => simp
  | cons c s ih =>
    rw [List.flatMap_cons, List.flatMap_cons]
    by_cases h1 : c = '&'
    · subst h1
      show replaceAll _ _ (['&', 'a', 'm', 'p', ';'] ++ _) = ['&', 'a', 'm', 'p', ';'] ++ _
      rw [replaceAll_copyBlock (by simp [List.cons_prefix_cons]) (by decide), ih]
    by_cases h2 : c = '<'
    · subst h2
      show replaceAll _ _ (['<'] ++ _) = ['<'] ++ _
      rw [replaceAll_skipChars (by decide), ih]
    by_cases h3 : c = '>'
    · subst h3
      show replaceAll _ _ (['&', 'g', 't', ';'] ++ _) = ['>'] ++ _
      rw [replaceAll_matchAt (by simp), ih]
    by_cases h4 : c = '"'
    · subst h4
      show replaceAll _ _ (['&', 'q', 'u', 'o', 't', ';'] ++ _) = ['&', 'q', 'u', 'o', 't', ';'] ++ _
      rw [replaceAll_copyBlock (by simp [List.cons_prefix_cons]) (by decide), ih]
    by_cases h5 : c = '\''
    · subst h5
      show replaceAll _ _ (['&', 'a', 'p', 'o', 's', ';'] ++ _) = ['&', 'a', 'p', 'o', 's', ';'] ++ _
      rw [replaceAll_copyBlock (by simp [List.cons_prefix_cons]) (by decide), ih]
    · show replaceAll _ _ ((tokA c) ++ _) = (tokB c) ++ _
      rw [show tokA c = [c] by simp [tokA, h1, h2, h3, h4, h5],
        show tokB c = [c] by simp [tokB, h1, h2, h3, h4, h5]]
      rw [replaceAll_skipChars (by simpa using h1), ih]

/-- After the decoder's `&amp;` replace, the tokens have become `tokC`. -/
theorem decode_stepC : ∀ s : List Char,
    replaceAll ['&', 'a', 'm', 'p', ';'] ['&'] (s.flatMap tokB) = s.flatMap tokC := by
  intro s
  induction s with
  | nil => simp
  | cons c s ih =>
    rw [List.flatMap_cons, List.flatMap_cons]
    by_cases h1 : c = '&'
    · subst h1
      show replaceAll _ _ (['&', 'a', 'm', 'p', ';'] ++ _) = ['&'] ++ _
      rw [replaceAll_matchAt (by simp), ih]
    by_cases h2 : c = '<'
    · subst h2
      show replaceAll _ _ (['<'] ++ _) = ['<'] ++ _
      rw [replaceAll_skipChars (by decide), ih]
    by_cases h3 : c = '>'
    · subst h3
      show replaceAll _ _ (['>'] ++ _) = ['>'] ++ _
      rw [replaceAll_skipChars (by decide), ih]
    by_cases h4 : c = '"'
    · subst h4
      show replaceAll _ _ (['&', 'q', 'u', 'o', 't', ';'] ++ _) = ['&', 'q', 'u', 'o', 't', ';'] ++ _
      rw [replaceAll_copyBlock (by simp [List.cons_prefix_cons]) (by decide), ih]
    by_cases h5 : c = '\''
    · subst h5
      show replaceAll _ _ (['&', 'a', 'p', 'o', 's', ';'] ++ _) = ['&', 'a', 'p', 'o', 's', ';'] ++ _
      rw [replaceAll_copyBlock (by simp [List.cons_prefix_cons]) (by decide), ih]
    · show replaceAll _ _ ((tokB c) ++ _) = (tokC c) ++ _
      rw [show tokB c = [c] by simp [tokB, h1, h2, h3, h4, h5],
        show tokC c = [c] by simp [tokC, h4, h5]]
      rw [replaceAll_skipChars (by simpa using h1), ih]

/-- `quot;` occurs at the head of the `tokC`-expansion of `s` exactly when it
occurs at the head of `s`. -/
theorem transfer_quot (s : List Char) :
    (['q', 'u', 'o', 't', ';'] <+: s.flatMap tokC) ↔ (['q', 'u', 'o', 't', ';'] <+: s) := by
  refine prefix_flatMap_transfer tokC ?_ _ ?_ ?_ s
  · intro a
    by_cases h4 : a = '"'
    · simp [tokC, h4]
    by_cases h5 : a = '\''
    · simp [tokC, h4, h5]
    · simp [tokC, h4, h5]
  · intro a c' hh hw
    by_cases h4 : a = '"'
    · rw [h4, show tokC '"' = ['&', 'q', 'u', 'o', 't', ';'] from rfl] at hh
      have : c' = '&' := by simpa using hh.symm
      subst this
      exact absurd hw (by decide)
    by_cases h5 : a = '\''
    · rw [h5, show tokC '\'' = ['&', 'a', 'p', 'o', 's', ';'] from rfl] at hh
      have : c' = '&' := by simpa using hh.symm
      subst this
      exact absurd hw (by decide)
    · rw [show tokC a = [a] by simp [tokC, h4, h5]] at hh
      simpa using hh
  · intro c' hm
    fin_cases hm <;> rfl

/-- `apos;` occurs at the head of the `tokD`-expansion of `s` exactly when it
occurs at the head of `s`. -/
theorem transfer_apos (s : List Char) :
    (['a', 'p', 'o', 's', ';'] <+: s.flatMap tokD) ↔ (['a', 'p', 'o', 's', ';'] <+: s) := by
  refine prefix_flatMap_transfer tokD ?_ _ ?_ ?_ s
  · intro a
    by_cases h5 : a = '\''
    · simp [tokD, h5]
    · simp [tokD, h5]
  · intro a c' hh hw
    by_cases h5 : a = '\''
    · rw [h5, show tokD '\'' = ['&', 'a', 'p', 'o', 's', ';'] from rfl] at hh
      have : c' = '&' := by simpa using hh.symm
      subst this
      exact absurd hw (by decide)
    · rw [show tokD a = [a] by simp [tokD, h5]] at hh
      simpa using hh
  · intro c' hm
    fin_cases hm <;> rfl

/-- After the decoder's `&quot;` replace the tokens have become `tokD` —
provided the original text does not itself contain `&quot;`, for otherwise
this replace also fires on text produced by the `&amp;` replace. -/
theorem decode_stepD : ∀ s : List Char, ¬ (['&', 'q', 'u', 'o', 't', ';'] <:+: s) →
    replaceAll ['&', 'q', 'u', 'o', 't', ';'] ['"'] (s.flatMap tokC) = s.flatMap tokD := by
  intro s
  induction s with
  | nil => intro _; simp
  | cons c s ih =>
    intro h
    have hs : ¬ (['&', 'q', 'u', 'o', 't', ';'] <:+: s) := fun hi => h (List.infix_cons hi)
    rw [List.flatMap_cons, List.flatMap_cons]
    by_cases h1 : c = '&'
    · subst h1
      show replaceAll _ _ (['&'] ++ _) = ['&'] ++ _
      rw [List.singleton_append, replaceAll_cons]
      have hc : ¬ ((['&', 'q', 'u', 'o', 't', ';'] : List Char) ≠ [] ∧
          (['&', 'q', 'u', 'o', 't', ';'] : List Char).isPrefixOf ('&' :: s.flatMap tokC)) := by
        rintro ⟨-, hp⟩
        rw [List.isPrefixOf_iff_prefix, List.cons_prefix_cons] at hp
        have hps : ['q', 'u', 'o', 't', ';'] <+: s := (transfer_quot s).mp hp.2
        have : ['&', 'q', 'u', 'o', 't', ';'] <+: ('&' :: s) := by
          rw [List.cons_prefix_cons]; exact ⟨rfl, hps⟩
        exact h this.isInfix
      rw [if_neg hc, ih hs]
      rfl
    by_cases h2 : c = '<'
    · subst h2
      show replaceAll _ _ (['<'] ++ _) = ['<'] ++ _
      rw [replaceAll_skipChars (by decide), ih hs]
    by_cases h3 : c = '>'
    · subst h3
      show replaceAll _ _ (['>'] ++ _) = ['>'] ++ _
      rw [replaceAll_skipChars (by decide), ih hs]
    by_cases h4 : c = '"'
    · subst h4
      show replaceAll _ _ (['&', 'q', 'u', 'o', 't', ';'] ++ _) = ['"'] ++ _
      rw [replaceAll_matchAt (by simp), ih hs]
    by_cases h5 : c = '\''
    · subst h5
      show replaceAll _ _ (['&', 'a', 'p', 'o', 's', ';'] ++ _) = ['&', 'a', 'p', 'o', 's', ';'] ++ _
      rw [replaceAll_copyBlock (by simp [List.cons_prefix_cons]) (by decide), ih hs]
    · show replaceAll _ _ ((tokC c) ++ _) = (tokD c) ++ _
      rw [show tokC c = [c] by simp [tokC, h4, h5],
        show tokD c = [c] by simp [tokD, h5]]
      rw [replaceAll_skipChars (by simpa using h1), ih hs]

/-- After the decoder's final `&apos;` replace the original text is
recovered — provided it does not itself contain `&apos;`. -/
theorem decode_stepE : ∀ s : List Char, ¬ (['&', 'a', 'p', 'o', 's', ';'] <:+: s) →
    replaceAll ['&', 'a', 'p', 'o', 's', ';'] ['\''] (s.flatMap tokD) = s := by
  intro s
  induction s with
  | nil => intro _; simp
  | cons c s ih =>
    intro h
    have hs : ¬ (['&', 'a', 'p', 'o', 's', ';'] <:+: s) := fun hi => h (List.infix_cons hi)
    rw [List.flatMap_cons]
    by_cases h1 : c = '&'
    · subst h1
      show replaceAll _ _ (['&'] ++ _) = '&' :: _
      rw [List.singleton_append, replaceAll_cons]
      have hc : ¬ ((['&', 'a', 'p', 'o', 's', ';'] : List Char) ≠ [] ∧
          (['&', 'a', 'p', 'o', 's', ';'] : List Char).isPrefixOf ('&' :: s.flatMap tokD)) := by
        rintro ⟨-, hp⟩
        rw [List.isPrefixOf_iff_prefix, List.cons_prefix_cons] at hp
        have hps : ['a', 'p', 'o', 's', ';'] <+: s := (transfer_apos s).mp hp.2
        have : ['&', 'a', 'p', 'o', 's', ';'] <+: ('&' :: s) := by
          rw [List.cons_prefix_cons]; exact ⟨rfl, hps⟩
        exact h this.isInfix
      rw [if_neg hc, ih hs]
    by_cases h5 : c = '\''
    · subst h5
      show replaceAll _ _ (['&', 'a', 'p', 'o', 's', ';'] ++ _) = '\'' :: _
      rw [replaceAll_matchAt (by simp), ih hs]
      rfl
    · show replaceAll _ _ ((tokD c) ++ _) = c :: _
      rw [show tokD c = [c] by simp [tokD, h5]]
      rw [replaceAll_skipChars (by simpa using h1), ih hs]
      rfl

/-- Decoding undoes escaping for any text free of the two troublesome
literal entity spellings. -/
theorem decode_escape_list (s : List Char)
    (hq : ¬ (['&', 'q', 'u', 'o', 't', ';'] <:+: s))
    (ha : ¬ (['&', 'a', 'p', 'o', 's', ';'] <:+: s)) :
    decodeXmlEntitiesList (escapeXmlList s) = s := by
  rw [escapeXmlList_eq_flatMap]
  unfold decodeXmlEntitiesList
  have d1 : "&amp;".data = ['&', 'a', 'm', 'p', ';'] := rfl
  have d2 : "&lt;".data = ['&', 'l', 't', ';'] := rfl
  have d3 : "&gt;".data = ['&', 'g', 't', ';'] := rfl
  have d4 : "&quot;".data = ['&', 'q', 'u', 'o', 't', ';'] := rfl
  have d5 : "&apos;".data = ['&', 'a', 'p', 'o', 's', ';'] := rfl
  rw [d1, d2, d3, d4, d5]
  rw [decode_stepA, decode_stepB, decode_stepC, decode_stepD s hq, decode_stepE s ha]

/-- C7, counterexample: the decoder's unescaping applied to the encoder's
escaping of the string `&quot;` yields `"` rather than the original string,
because the decoder replaces `&amp;` before `&quot;`. The claimed round trip
fails at this input. -/
theorem C7_counterexample_quot :
    decodeXmlEntities (escapeXml "&quot;") ≠ "&quot;" := by decide

/-- C7 (amended): applying the decoder's entity-unescaping to the encoder's
entity-escaping of `s` yields `s` again, for every string `s` that does not
already contain the literal text `&quot;` or `&apos;` (on such text the
decoder's late `&quot;`/`&apos;` replaces fire a second time on the output
of its `&amp;` replace, so the original claim fails there). -/
theorem C7_escape_unescape_roundtrip (s : String)
    (hq : ¬ (['&', 'q', 'u', 'o', 't', ';'] <:+: s.data))
    (ha : ¬ (['&', 'a', 'p', 'o', 's', ';'] <:+: s.data)) :
    decodeXmlEntities (escapeXml s) = s := by
  cases s with
  | mk data => exact congrArg String.mk (decode_escape_list data hq ha)

/-- C7, witness: the amended round trip evaluated at the concrete string
`a<b>&"c'd`, which exercises all five escaped characters. -/
theorem C7_escape_unescape_roundtrip_witness :
    decodeXmlEntities (escapeXml "a<b>&\"c\'d") = "a<b>&\"c\'d" :=
  C7_escape_unescape_roundtrip "a<b>&\"c\'d" (by decide) (by decide)

/-! ## AWS4 signing-key derivation (`getSigningKey`, lines 66–77) -/

/-- `getSigningKey`, with the HMAC-SHA256 primitive abstracted:
`hmacSha256 key data` stands for `createHmac('sha256', key).update(data).digest()`;
byte buffers are modelled as opaque strings. -/
def getSigningKey (hmacSha256 : String → String → String)
    (secretKey dateStamp regionName serviceName : String) : String :=
  let kDate := hmacSha256 ("AWS4" ++ secretKey) dateStamp
  let kRegion := hmacSha256 kDate regionName
  let kService := hmacSha256 kRegion serviceName
  let kSigning := hmacSha256 kService "aws4_request"
  kSigning

/-- C2: for every secret, date stamp, region and service (and any HMAC
primitive), the signing key produced by `getSigningKey` is exactly the four
chained HMAC-SHA256 steps `kDate = HMAC("AWS4"+secret, dateStamp)`,
`kRegion = HMAC(kDate, region)`, `kService = HMAC(kRegion, service)`,
`kSigning = HMAC(kService, "aws4_request")`. -/
theorem C2_signing_key_chain (hmacSha256 : String → String → String)
    (secretKey dateStamp regionName serviceName : String) :
    getSigningKey hmacSha256 secretKey dateStamp regionName serviceName =
      hmacSha256
        (hmacSha256
          (hmacSha256 (hmacSha256 ("AWS4" ++ secretKey) dateStamp) regionName)
          serviceName)
        "aws4_request" := rfl

/-! ## Region endpoints (`getS3Endpoint` / `getIAMEndpoint`, lines 312–335) -/

/-- The S3 endpoint map of `getS3Endpoint`. -/
def s3EndpointMap : List (String × String) :=
  [("eu-central-1", "s3.eu-central-1.s4.mega.io"),
   ("eu-central-2", "s3.eu-central-2.s4.mega.io"),
   ("ca-central-1", "s3.ca-central-1.s4.mega.io"),
   ("ca-west-1", "s3.ca-west-1.s4.mega.io")]

/-- The IAM endpoint map of `getIAMEndpoint`. -/
def iamEndpointMap : List (String × String) :=
  [("eu-central-1", "iam.eu-central-1.s4.mega.io"),
   ("eu-central-2", "iam.eu-central-2.s4.mega.io"),
   ("ca-central-1", "iam.ca-central-1.s4.mega.io"),
   ("ca-west-1", "iam.ca-west-1.s4.mega.io")]

/-- `getS3Endpoint`: `endpointMap[region] || endpointMap['eu-central-1']`
(a missing key yields `undefined`, which is falsy, so the `eu-central-1`
entry is the fallback). -/
def getS3Endpoint (region : String) : String :=
  (s3EndpointMap.lookup region).getD ((s3EndpointMap.lookup "eu-central-1").getD "")

/-- `getIAMEndpoint`, same shape as `getS3Endpoint`. -/
def getIAMEndpoint (region : String) : String :=
  (iamEndpointMap.lookup region).getD ((iamEndpointMap.lookup "eu-central-1").getD "")

/-- C10: `getS3Endpoint` and `getIAMEndpoint` are total and always return one
of the four mapped hosts; any region outside the four mapped ones falls back
to the `eu-central-1` endpoint. -/
theorem C10_endpoint_fallback (region : String) :
    (region ∉ (["eu-central-1", "eu-central-2", "ca-central-1", "ca-west-1"] : List String) →
      getS3Endpoint region = "s3.eu-central-1.s4.mega.io" ∧
      getIAMEndpoint region = "iam.eu-central-1.s4.mega.io") ∧
    getS3Endpoint region ∈ (s3EndpointMap.map Prod.snd) ∧
    getIAMEndpoint region ∈ (iamEndpointMap.map Prod.snd) := by
  by_cases h1 : region = "eu-central-1"
  · subst h1; refine ⟨fun hmem => absurd (by simp) hmem, by decide, by decide⟩
  by_cases h2 : region = "eu-central-2"
  · subst h2; refine ⟨fun hmem => absurd (by simp) hmem, by decide, by decide⟩
  by_cases h3 : region = "ca-central-1"
  · subst h3; refine ⟨fun hmem => absurd (by simp) hmem, by decide, by decide⟩
  by_cases h4 : region = "ca-west-1"
  · subst h4; refine ⟨fun hmem => absurd (by simp) hmem, by decide, by decide⟩
  · have e1 : (region == "eu-central-1") = false := by
      rw [beq_eq_false_iff_ne]; exact h1
    have e2 : (region == "eu-central-2") = false := by
      rw [beq_eq_false_iff_ne]; exact h2
    have e3 : (region == "ca-central-1") = false := by
      rw [beq_eq_false_iff_ne]; exact h3
    have e4 : (region == "ca-west-1") = false := by
      rw [beq_eq_false_iff_ne]; exact h4
    have hs : getS3Endpoint region = "s3.eu-central-1.s4.mega.io" := by
      simp [getS3Endpoint, s3EndpointMap, List.lookup, e1, e2, e3, e4]
    have hi : getIAMEndpoint region = "iam.eu-central-1.s4.mega.io" := by
      simp [getIAMEndpoint, iamEndpointMap, List.lookup, e1, e2, e3, e4]
    exact ⟨fun _ => ⟨hs, hi⟩, by rw [hs]; decide, by rw [hi]; decide⟩

/-- C10, witness: the fallback evaluated at the unmapped region `us-east-1`. -/
theorem C10_endpoint_fallback_witness :
    getS3Endpoint "us-east-1" = "s3.eu-central-1.s4.mega.io" ∧
    getIAMEndpoint "us-east-1" = "iam.eu-central-1.s4.mega.io" :=
  (C10_endpoint_fallback "us-east-1").1 (by decide)

/-! ## Input validation (`validateBucketName` / `validateObjectKey`,
lines 856–909) and the presigned-URL handlers' validation sequence -/

/-- `[a-z0-9]`: the characters a bucket-name label may start and end with. -/
def isLowerAlnum (c : Char) : Bool :=
  ('a' ≤ c && c ≤ 'z') || ('0' ≤ c && c ≤ '9')

/-- `[a-z0-9-]`: the characters allowed inside a bucket-name label. -/
def isLabelChar (c : Char) : Bool := isLowerAlnum c || c = '-'

/-- Splits a character list at every occurrence of `sep` (like the regex
alternation over dot-separated labels; `"a..b"` yields an empty middle
piece, `".a"` an empty first piece). -/
def splitOnChar (sep : Char) : List Char → List (List Char)
  | [] => [[]]
  | c :: s =>
    if c = sep then [] :: splitOnChar sep s
    else
      match splitOnChar sep s with
      | [] => [[c]]
      | p :: ps => (c :: p) :: ps

/-- One label of the bucket-name regex: `[a-z0-9]([a-z0-9-]*[a-z0-9])?`
(nonempty, starts and ends with a lower-case letter or digit, hyphens
allowed inside). -/
def validBucketLabel (l : List Char) : Bool :=
  !l.isEmpty && isLowerAlnum (l.headD 'x') && isLowerAlnum (l.getLastD 'x') &&
    l.all isLabelChar

/-- Full-match test of the bucket-name regex
`^[a-z0-9]([a-z0-9-]*[a-z0-9])?(\.[a-z0-9]([a-z0-9-]*[a-z0-9])?)*$`:
every dot-separated label is valid. -/
def bucketNameRegexTest (s : List Char) : Bool :=
  (splitOnChar '.' s).all validBucketLabel

/-- Full-match test of the IP-address regex `^(\d{1,3}\.){3}\d{1,3}$`. -/
def ipRegexTest (s : List Char) : Bool :=
  let parts := splitOnChar '.' s
  parts.length = 4 && parts.all (fun p => decide (p ≠ []) && decide (p.length ≤ 3) && p.all Char.isDigit)

/-- Result shape of the `validate*` helpers (`{valid, error?}`). -/
structure ValidationResult where
  valid : Bool
  error : Option String := none
deriving DecidableEq

/-- `validateBucketName` (lines 856–885). -/
def validateBucketName (bucketName : String) : ValidationResult :=
  if bucketName.data.length = 0 then
    ⟨false, some "Bucket name cannot be empty"⟩
  else if bucketName.data.length < 3 || bucketName.data.length > 63 then
    ⟨false, some "Bucket name must be between 3 and 63 characters long"⟩
  else if !bucketNameRegexTest bucketName.data then
    ⟨false, some "Bucket name can only contain lowercase letters, numbers, hyphens, and dots. Must start and end with a letter or number."⟩
  else if ipRegexTest bucketName.data then
    ⟨false, some "Bucket name cannot be formatted as an IP address"⟩
  else
    ⟨true, none⟩

/-- `validateObjectKey` (lines 890–909). -/
def validateObjectKey (key : String) : ValidationResult :=
  if key.data.length = 0 then
    ⟨false, some "Object key cannot be empty"⟩
  else if key.data.length > 1024 then
    ⟨false, some "Object key cannot exceed 1024 characters"⟩
  else if ['/', '/'] <:+: key.data then
    ⟨false, some "Object key cannot contain consecutive slashes (//)"⟩
  else
    ⟨true, none⟩

/-- Outcome of the validation sequence a presigned-URL handler runs before
calling `generatePresignedUrl`. -/
inductive PresignedCheck where
  | bucketError (msg : String)
  | keyError (msg : String)
  | expiryError (msg : String)
  | proceed
deriving DecidableEq

/-- The validation sequence of `handleGetPresignedUrl` (part_004 lines
780–811): bucket name, then object key, then the `expiresIn` range check;
only `proceed` reaches `generatePresignedUrl`. -/
def handleGetPresignedUrlCheck (bucketName key : String) (expiresIn : Int) : PresignedCheck :=
  let bucketValidation := validateBucketName bucketName
  if bucketValidation.valid = false then
    .bucketError ((bucketValidation.error).getD "")
  else
    let keyValidation := validateObjectKey key
    if keyValidation.valid = false then
      .keyError ((keyValidation.error).getD "")
    else if expiresIn < 1 || expiresIn > 604800 then
      .expiryError "Expiration time must be between 1 second and 604800 seconds (7 days)"
    else
      .proceed

/-- The identical validation sequence of `handleGetPresignedUploadUrl`
(part_004 lines 850–881). -/
def handleGetPresignedUploadUrlCheck (bucketName key : String) (expiresIn : Int) : PresignedCheck :=
  let bucketValidation := validateBucketName bucketName
  if bucketValidation.valid = false then
    .bucketError ((bucketValidation.error).getD "")
  else
    let keyValidation := validateObjectKey key
    if keyValidation.valid = false then
      .keyError ((keyValidation.error).getD "")
    else if expiresIn < 1 || expiresIn > 604800 then
      .expiryError "Expiration time must be between 1 second and 604800 seconds (7 days)"
    else
      .proceed

/-- C4: for valid bucket name and object key, the presigned-URL operations
(download and upload) raise a validation error before signing exactly when
`expiresIn < 1` or `expiresIn > 604800`. -/
theorem C4_presigned_expiry_bounds (bucketName key : String) (expiresIn : Int)
    (hb : (validateBucketName bucketName).valid = true)
    (hk : (validateObjectKey key).valid = true) :
    (handleGetPresignedUrlCheck bucketName key expiresIn ≠ .proceed ↔
      (expiresIn < 1 ∨ expiresIn > 604800)) ∧
    (handleGetPresignedUploadUrlCheck bucketName key expiresIn ≠ .proceed ↔
      (expiresIn < 1 ∨ expiresIn > 604800)) := by
  constructor <;>
  · simp only [handleGetPresignedUrlCheck, handleGetPresignedUploadUrlCheck]
    rw [if_neg (by simp [hb]), if_neg (by simp [hk])]
    split
    case isTrue h =>
      simp only [Bool.or_eq_true, decide_eq_true_eq] at h
      simp [h]
    case isFalse h =>
      simp only [Bool.or_eq_true, decide_eq_true_eq] at h
      push_neg at h
      simp only [ne_eq, not_true_eq_false, false_iff]
      omega

/-- C4, witness: with a valid bucket and key, `expiresIn = 0` is rejected
(and the boundary values behave as proved, instantiating the theorem). -/
theorem C4_presigned_expiry_bounds_witness :
    (handleGetPresignedUrlCheck "my-bucket" "file.txt" 0 ≠ .proceed ↔
      ((0 : Int) < 1 ∨ (0 : Int) > 604800)) ∧
    (handleGetPresignedUploadUrlCheck "my-bucket" "file.txt" 0 ≠ .proceed ↔
      ((0 : Int) < 1 ∨ (0 : Int) > 604800)) :=
  C4_presigned_expiry_bounds "my-bucket" "file.txt" 0 (by decide) (by decide)

/-! ## Percent encoders

`uriEncode` (lines 82–102) walks characters; everything outside the
unreserved set becomes `%` plus the upper-cased hex of `charCodeAt(0)`,
left-padded to two digits. `URLSearchParams` serialization and parsing
(used at lines 139–145 and 408–423) are modelled at the character level,
which coincides with the byte-level definition on ASCII text; the theorems
that depend on an encode/decode round trip quantify over ASCII inputs. -/

/-- Upper-case hex digit. -/
def hexDigitUpper (n : Nat) : Char :=
  if n < 10 then Char.ofNat ('0'.toNat + n) else Char.ofNat ('A'.toNat + n - 10)

/-- `toString(16).toUpperCase().padStart(2, '0')` of a code point (up to
`0x10FFFF`, so at most six digits). -/
def hexOfCode (n : Nat) : List Char :=
  if n < 16 then ['0', hexDigitUpper n]
  else if n < 256 then [hexDigitUpper (n / 16), hexDigitUpper (n % 16)]
  else if n < 4096 then [hexDigitUpper (n / 256), hexDigitUpper (n / 16 % 16), hexDigitUpper (n % 16)]
  else if n < 65536 then
    [hexDigitUpper (n / 4096), hexDigitUpper (n / 256 % 16), hexDigitUpper (n / 16 % 16),
     hexDigitUpper (n % 16)]
  else if n < 1048576 then
    [hexDigitUpper (n / 65536), hexDigitUpper (n / 4096 % 16), hexDigitUpper (n / 256 % 16),
     hexDigitUpper (n / 16 % 16), hexDigitUpper (n % 16)]
  else
    [hexDigitUpper (n / 1048576), hexDigitUpper (n / 65536 % 16), hexDigitUpper (n / 4096 % 16),
     hexDigitUpper (n / 256 % 16), hexDigitUpper (n / 16 % 16), hexDigitUpper (n % 16)]

/-- The unreserved set of `uriEncode`: `A–Z a–z 0–9 _ - ~ .`. -/
def uriUnreserved (c : Char) : Bool :=
  ('A' ≤ c && c ≤ 'Z') || ('a' ≤ c && c ≤ 'z') || ('0' ≤ c && c ≤ '9') ||
  c = '_' || c = '-' || c = '~' || c = '.'

/-- One character of `uriEncode`. -/
def uriEncodeChar (encodeSlash : Bool) (c : Char) : List Char :=
  if uriUnreserved c then [c]
  else if c = '/' && !encodeSlash then [c]
  else '%' :: hexOfCode c.toNat

/-- `uriEncode(str, encodeSlash)` (lines 82–102). -/
def uriEncode (str : String) (encodeSlash : Bool) : String :=
  ⟨str.data.flatMap (uriEncodeChar encodeSlash)⟩

/-- The characters `URLSearchParams` serialization leaves intact:
`A–Z a–z 0–9 * - . _`. -/
def formSafe (c : Char) : Bool :=
  ('A' ≤ c && c ≤ 'Z') || ('a' ≤ c && c ≤ 'z') || ('0' ≤ c && c ≤ '9') ||
  c = '*' || c = '-' || c = '.' || c = '_'

/-- One character of `application/x-www-form-urlencoded` serialization:
space becomes `+`, everything else unsafe becomes a percent escape. -/
def formEncodeChar (c : Char) : List Char :=
  if formSafe c then [c]
  else if c = ' ' then ['+']
  else '%' :: hexOfCode c.toNat

/-- `URLSearchParams` serialization of one string. -/
def formEncode (s : List Char) : List Char := s.flatMap formEncodeChar

/-- Hex digit test for percent decoding (both cases accepted). -/
def isHexDigitChar (c : Char) : Bool :=
  ('0' ≤ c && c ≤ '9') || ('a' ≤ c && c ≤ 'f') || ('A' ≤ c && c ≤ 'F')

/-- Value of one hex digit. -/
def hexVal (c : Char) : Nat :=
  if '0' ≤ c && c ≤ '9' then c.toNat - '0'.toNat
  else if 'a' ≤ c && c ≤ 'f' then c.toNat - 'a'.toNat + 10
  else c.toNat - 'A'.toNat + 10

/-- `application/x-www-form-urlencoded` decoding: `+` becomes space, a
valid percent escape becomes its character, everything else is literal
(an escaped `+`, `%2B`, stays a plus; a malformed escape keeps its `%`). -/
def formDecode : List Char → List Char
  | [] => []
  | '%' :: h1 :: h2 :: rest2 =>
    if isHexDigitChar h1 && isHexDigitChar h2 then
      Char.ofNat (16 * hexVal h1 + hexVal h2) :: formDecode rest2
    else
      '%' :: formDecode (h1 :: h2 :: rest2)
  | c :: rest => (if c = '+' then ' ' else c) :: formDecode rest

/-- Splits at the first occurrence of `sep`, if any. -/
def splitFirstChar (sep : Char) : List Char → Option (List Char × List Char)
  | [] => none
  | c :: s =>
    if c = sep then some ([], s)
    else (splitFirstChar sep s).map (fun p => (c :: p.1, p.2))

/-- One `name=value` piece of a query string: split at the first `=` (a
piece without `=` is a name with empty value), then form-decode both
halves. -/
def parseFormPair (piece : List Char) : String × String :=
  match splitFirstChar '=' piece with
  | none => (⟨formDecode piece⟩, "")
  | some p => (⟨formDecode p.1⟩, ⟨formDecode p.2⟩)

/-- `new URLSearchParams(queryString)`: split on `&`, skip empty pieces,
parse each piece. -/
def urlSearchParamsParse (qs : List Char) : List (String × String) :=
  ((splitOnChar '&' qs).filter (fun p => !p.isEmpty)).map parseFormPair

/-- Joining a list of character lists with a separator. -/
def listJoin (sep : List Char) : List (List Char) → List Char
  | [] => []
  | [x] => x
  | x :: xs => x ++ sep ++ listJoin sep xs

/-- `URLSearchParams.prototype.toString`: each pair serialized as
`name=value`, joined with `&`. -/
def urlSearchParamsToString (pairs : List (String × String)) : String :=
  ⟨listJoin ['&']
    (pairs.map (fun p => formEncode p.1.data ++ '=' :: formEncode p.2.data))⟩

/-! ## The SigV4 header signer (`signAwsRequest`, lines 108–187) -/

/-- `Array.prototype.join(sep)`. -/
def jsJoin (sep : String) : List String → String
  | [] => ""
  | [x] => x
  | x :: xs => x ++ sep ++ jsJoin sep xs

/-- JavaScript `toLowerCase` (ASCII range). -/
def strLower (s : String) : String := ⟨s.data.map Char.toLower⟩

/-- Default `Array.prototype.sort()`: ascending lexicographic order. -/
def jsSort (l : List String) : List String :=
  List.insertionSort (fun a b : String => a ≤ b) l

/-- JS object assignment `m[k] = v`: overwrite in place when the key
exists, append otherwise (insertion order preserved). -/
def setField (m : List (String × String)) (k v : String) : List (String × String) :=
  match m with
  | [] => [(k, v)]
  | (k', v') :: rest => if k' = k then (k, v) :: rest else (k', v') :: setField rest k v

/-- `headers[Object.keys(headers).find((k) => k.toLowerCase() === key)!]`:
the value of the first key whose lower-casing is `key` (empty when absent,
which the signer never hits). -/
def lookupByLower (m : List (String × String)) (key : String) : String :=
  match m.find? (fun kv => strLower kv.1 = key) with
  | some kv => kv.2
  | none => ""

/-- Input of `signAwsRequest` (`ISignOptions`); the body is a string or
absent (a `Buffer` body is modelled by its byte string). -/
structure SignOptions where
  host : String
  path : String
  method : String
  service : String
  region : String
  headers : List (String × String)
  body : Option String

/-- `IAwsCredentials`. -/
structure AwsCredentials where
  accessKeyId : String
  secretAccessKey : String

/-- `options.body ? sha256(options.body) : sha256('')` — an empty string
body is falsy, so it also hashes the empty string. -/
def awsPayloadHash (sha256 : String → String) (body : Option String) : String :=
  match body with
  | some b => if b = "" then sha256 "" else sha256 b
  | none => sha256 ""

/-- The header map the signer canonicalizes: the caller's headers with
`host`, `x-amz-date` and `x-amz-content-sha256` set. -/
def signHeadersMap (options : SignOptions) (amzDate payloadHash : String) :
    List (String × String) :=
  setField (setField (setField options.headers "host" options.host) "x-amz-date" amzDate)
    "x-amz-content-sha256" payloadHash

/-- Everything `signAwsRequest` computes, with the intermediate values
exposed for the theorems. -/
structure SignedRequestParts where
  headers : List (String × String)
  payloadHash : String
  sortedHeaderKeys : List String
  canonicalHeaders : String
  signedHeaders : String
  canonicalUri : String
  canonicalQueryString : String
  canonicalRequest : String
  credentialScope : String
  stringToSign : String
  signature : String
  authorization : String

/-- `signAwsRequest` (lines 108–187). The hash primitives are parameters:
`sha256` is the hex digest, `hmacHex` the hex HMAC digest used for the
signature, `hmacSha256` the raw HMAC used inside `getSigningKey`. The
timestamp `amzDate` is the formatted value of `new Date()` taken at entry
(`dateStamp` is its first eight characters). -/
def signAwsRequest (sha256 : String → String) (hmacHex hmacSha256 : String → String → String)
    (options : SignOptions) (credentials : AwsCredentials) (amzDate : String) :
    SignedRequestParts :=
  let dateStamp := amzDate.take 8
  let payloadHash := awsPayloadHash sha256 options.body
  let headers := signHeadersMap options amzDate payloadHash
  let sortedHeaderKeys := jsSort ((headers.map Prod.fst).map strLower)
  let canonicalHeaders :=
    jsJoin "\n" (sortedHeaderKeys.map (fun key => key ++ ":" ++ jsTrim (lookupByLower headers key)))
      ++ "\n"
  let signedHeaders := jsJoin ";" sortedHeaderKeys
  let uriAndQuery :=
    match splitFirstChar '?' options.path.data with
    | none => (options.path, "")
    | some p =>
      let params := urlSearchParamsParse p.2
      let sortedParams :=
        jsSort (params.map (fun q : String × String =>
          uriEncode q.1 true ++ "=" ++ uriEncode q.2 true))
      (⟨p.1⟩, jsJoin "&" sortedParams)
  let canonicalUri := uriAndQuery.1
  let canonicalQueryString := uriAndQuery.2
  let canonicalRequest :=
    jsJoin "\n"
      [options.method, uriEncode canonicalUri false, canonicalQueryString, canonicalHeaders,
       signedHeaders, payloadHash]
  let credentialScope :=
    dateStamp ++ "/" ++ options.region ++ "/" ++ options.service ++ "/aws4_request"
  let stringToSign :=
    jsJoin "\n" ["AWS4-HMAC-SHA256", amzDate, credentialScope, sha256 canonicalRequest]
  let signingKey :=
    getSigningKey hmacSha256 credentials.secretAccessKey dateStamp options.region options.service
  let signature := hmacHex signingKey stringToSign
  let authorization :=
    "AWS4-HMAC-SHA256 Credential=" ++ credentials.accessKeyId ++ "/" ++ credentialScope ++
      ", SignedHeaders=" ++ signedHeaders ++ ", Signature=" ++ signature
  { headers := setField headers "authorization" authorization
    payloadHash := payloadHash
    sortedHeaderKeys := sortedHeaderKeys
    canonicalHeaders := canonicalHeaders
    signedHeaders := signedHeaders
    canonicalUri := uriEncode canonicalUri false
    canonicalQueryString := canonicalQueryString
    canonicalRequest := canonicalRequest
    credentialScope := credentialScope
    stringToSign := stringToSign
    signature := signature
    authorization := authorization }

/-! ### Spec-side canonical-request shape (C1) -/

/-- Concatenation of a list of strings. -/
def strConcat : List String → String
  | [] => ""
  | x :: xs => x ++ strConcat xs

/-- The canonical headers block as the specification words it: the
lower-cased header names, sorted lexicographically, each joined to its
trimmed value as `name:value` followed by a newline (so the block carries
its own trailing newline). -/
def specCanonicalHeadersBlock (headers : List (String × String)) : String :=
  strConcat ((jsSort ((headers.map Prod.fst).map strLower)).map
    (fun n => n ++ ":" ++ jsTrim (lookupByLower headers n) ++ "\n"))

/-- The signed-headers value as the specification words it: the sorted,
semicolon-joined lower-cased names. -/
def specSignedHeadersValue (headers : List (String × String)) : String :=
  jsJoin ";" (jsSort ((headers.map Prod.fst).map strLower))

/-- A newline-joined list with one trailing newline appended equals the
concatenation of the items each followed by a newline (for a nonempty
list). -/
theorem jsJoin_newline_concat : ∀ (l : List String), l ≠ [] →
    jsJoin "\n" l ++ "\n" = strConcat (l.map (fun x => x ++ "\n"))
  | [], h => absurd rfl h
  | [x], _ => by
    apply String.ext
    simp [jsJoin, strConcat, String.data_append]
  | x :: y :: rest, _ => by
    have ih := jsJoin_newline_concat (y :: rest) (by simp)
    apply String.ext
    have := congrArg String.data ih
    simp only [jsJoin, strConcat, List.map_cons, String.data_append] at this ⊢
    simp [List.append_assoc, this]

/-- The mapped form of `jsJoin_newline_concat` used for the canonical
headers block. -/
theorem jsJoin_newline_concat_map (f : String → String) (l : List String) (h : l ≠ []) :
    jsJoin "\n" (l.map f) ++ "\n" = strConcat (l.map (fun x => f x ++ "\n")) := by
  have base := jsJoin_newline_concat (l.map f) (by simpa using h)
  rw [base, List.map_map]
  rfl

/-- `setField` never empties a map. -/
theorem setField_ne_nil (m : List (String × String)) (k v : String) :
    setField m k v ≠ [] := by
  cases m with
  | nil => simp [setField]
  | cons kv rest =>
    obtain ⟨k', v'⟩ := kv
    simp only [setField]
    split <;> simp

/-- With pairwise distinct lower-cased keys, the signer's find-by-lowered-
name lookup returns each header's own value. -/
theorem lookupByLower_eq_of_nodup :
    ∀ (m : List (String × String)), ((m.map Prod.fst).map strLower).Nodup →
      ∀ kv ∈ m, lookupByLower m (strLower kv.1) = kv.2 := by
  intro m
  induction m with
  | nil => intro _ kv hkv; simp at hkv
  | cons hd rest ih =>
    intro hnd kv hkv
    obtain ⟨k, v⟩ := hd
    simp only [List.map_cons, List.nodup_cons] at hnd
    rcases List.mem_cons.mp hkv with heq | hmem
    · subst heq
      simp [lookupByLower, List.find?]
    · have hne : strLower k ≠ strLower kv.1 := by
        intro he
        exact hnd.1 (he ▸ (List.mem_map.mpr ⟨kv.1, List.mem_map.mpr ⟨kv, hmem, rfl⟩, rfl⟩))
      have := ih hnd.2 kv hmem
      simp only [lookupByLower, List.find?] at this ⊢
      rw [show (decide (strLower k = strLower kv.1)) = false by simpa using hne]
      exact this

/-- C1: for every signable request and fixed timestamp (and any hash
primitives), the canonical request built by `signAwsRequest` is exactly the
six fields `METHOD`, canonical URI, canonical query string, canonical
headers block, signed-headers list and payload hash joined by single
newlines, where — provided the request's header names are pairwise distinct
after lower-casing, so that "the value of a header name" is well defined —
the canonical headers block consists of the lower-cased, lexicographically
sorted header names each joined to their trimmed value as `name:value`
followed by a newline (the block carrying its own trailing newline), and
the signed-headers value is the sorted, semicolon-joined lower-cased
names. -/
theorem C1_canonical_request_shape
    (sha256 : String → String) (hmacHex hmacSha256 : String → String → String)
    (options : SignOptions) (credentials : AwsCredentials) (amzDate : String)
    (hnd : (((signHeadersMap options amzDate (awsPayloadHash sha256 options.body)).map
      Prod.fst).map strLower).Nodup) :
    (signAwsRequest sha256 hmacHex hmacSha256 options credentials amzDate).canonicalRequest =
      options.method ++ "\n" ++
      (signAwsRequest sha256 hmacHex hmacSha256 options credentials amzDate).canonicalUri ++ "\n" ++
      (signAwsRequest sha256 hmacHex hmacSha256 options credentials amzDate).canonicalQueryString
        ++ "\n" ++
      specCanonicalHeadersBlock
        (signHeadersMap options amzDate (awsPayloadHash sha256 options.body)) ++ "\n" ++
      specSignedHeadersValue
        (signHeadersMap options amzDate (awsPayloadHash sha256 options.body)) ++ "\n" ++
      awsPayloadHash sha256 options.body ∧
    (signAwsRequest sha256 hmacHex hmacSha256 options credentials amzDate).signedHeaders =
      specSignedHeadersValue
        (signHeadersMap options amzDate (awsPayloadHash sha256 options.body)) ∧
    List.Sorted (fun a b : String => a ≤ b)
      (signAwsRequest sha256 hmacHex hmacSha256 options credentials amzDate).sortedHeaderKeys ∧
    (signAwsRequest sha256 hmacHex hmacSha256 options credentials amzDate).sortedHeaderKeys.Perm
      (((signHeadersMap options amzDate (awsPayloadHash sha256 options.body)).map
        Prod.fst).map strLower) ∧
    (∀ kv ∈ signHeadersMap options amzDate (awsPayloadHash sha256 options.body),
      lookupByLower (signHeadersMap options amzDate (awsPayloadHash sha256 options.body))
        (strLower kv.1) = kv.2) := by
  have hne : jsSort (((signHeadersMap options amzDate
      (awsPayloadHash sha256 options.body)).map Prod.fst).map strLower) ≠ [] := by
    intro h
    have hp := List.perm_insertionSort (fun a b : String => a ≤ b)
      (((signHeadersMap options amzDate (awsPayloadHash sha256 options.body)).map
        Prod.fst).map strLower)
    rw [jsSort] at h
    rw [h] at hp
    have := hp.length_eq
    simp only [List.length_nil, List.length_map] at this
    exact setField_ne_nil _ _ _ (List.length_eq_zero.mp this.symm)
  refine ⟨?_, ?_, ?_, ?_, ?_⟩
  · simp only [signAwsRequest, specCanonicalHeadersBlock, specSignedHeadersValue]
    rw [← jsJoin_newline_concat_map
      (fun key => key ++ ":" ++
        jsTrim (lookupByLower (signHeadersMap options amzDate (awsPayloadHash sha256 options.body)) key))
      _ hne]
    apply String.ext
    simp [jsJoin, String.data_append, List.append_assoc]
  · simp only [signAwsRequest, specSignedHeadersValue]
  · simp only [signAwsRequest]
    exact List.sorted_insertionSort _ _
  · simp only [signAwsRequest]
    exact List.perm_insertionSort _ _
  · exact lookupByLower_eq_of_nodup _ hnd

/-- C1, witness: the theorem instantiated at a concrete GET request with a
`Content-Type` header and dummy hash primitives. -/
theorem C1_canonical_request_shape_witness :
    (signAwsRequest (fun s => "H(" ++ s ++ ")") (fun _ s => "M(" ++ s ++ ")")
        (fun _ s => "K(" ++ s ++ ")")
        ⟨"s3.eu-central-1.s4.mega.io", "/my-bucket/file.txt", "GET", "s3", "eu-central-1",
          [("Content-Type", "text/plain")], none⟩
        ⟨"AK", "SK"⟩ "20240101T000000Z").canonicalRequest =
      "GET" ++ "\n" ++
      (signAwsRequest (fun s => "H(" ++ s ++ ")") (fun _ s => "M(" ++ s ++ ")")
        (fun _ s => "K(" ++ s ++ ")")
        ⟨"s3.eu-central-1.s4.mega.io", "/my-bucket/file.txt", "GET", "s3", "eu-central-1",
          [("Content-Type", "text/plain")], none⟩
        ⟨"AK", "SK"⟩ "20240101T000000Z").canonicalUri ++ "\n" ++
      (signAwsRequest (fun s => "H(" ++ s ++ ")") (fun _ s => "M(" ++ s ++ ")")
        (fun _ s => "K(" ++ s ++ ")")
        ⟨"s3.eu-central-1.s4.mega.io", "/my-bucket/file.txt", "GET", "s3", "eu-central-1",
          [("Content-Type", "text/plain")], none⟩
        ⟨"AK", "SK"⟩ "20240101T000000Z").canonicalQueryString ++ "\n" ++
      specCanonicalHeadersBlock
        (signHeadersMap
          ⟨"s3.eu-central-1.s4.mega.io", "/my-bucket/file.txt", "GET", "s3", "eu-central-1",
            [("Content-Type", "text/plain")], none⟩
          "20240101T000000Z" (awsPayloadHash (fun s => "H(" ++ s ++ ")") none)) ++ "\n" ++
      specSignedHeadersValue
        (signHeadersMap
          ⟨"s3.eu-central-1.s4.mega.io", "/my-bucket/file.txt", "GET", "s3", "eu-central-1",
            [("Content-Type", "text/plain")], none⟩
          "20240101T000000Z" (awsPayloadHash (fun s => "H(" ++ s ++ ")") none)) ++ "\n" ++
      awsPayloadHash (fun s => "H(" ++ s ++ ")") none :=
  (C1_canonical_request_shape (fun s => "H(" ++ s ++ ")") (fun _ s => "M(" ++ s ++ ")")
    (fun _ s => "K(" ++ s ++ ")")
    ⟨"s3.eu-central-1.s4.mega.io", "/my-bucket/file.txt", "GET", "s3", "eu-central-1",
      [("Content-Type", "text/plain")], none⟩
    ⟨"AK", "SK"⟩ "20240101T000000Z" (by decide)).1

/-! ## `s3ApiRequest` path and query construction (lines 385–459) -/

/-- The unreserved set of `encodeURIComponent`: alphanumerics and
`- _ . ! ~ * ' ( )`. -/
def uriComponentSafe (c : Char) : Bool :=
  ('A' ≤ c && c ≤ 'Z') || ('a' ≤ c && c ≤ 'z') || ('0' ≤ c && c ≤ '9') ||
  c = '-' || c = '_' || c = '.' || c = '!' || c = '~' || c = '*' || c = '\'' ||
  c = '(' || c = ')'

/-- One character of `encodeURIComponent` (character-level model; on ASCII
text it coincides with the byte-level definition). -/
def encodeURIComponentChar (c : Char) : List Char :=
  if uriComponentSafe c then [c] else '%' :: hexOfCode c.toNat

/-- `encodeURIComponent`. -/
def encodeURIComponent (s : String) : String := ⟨s.data.flatMap encodeURIComponentChar⟩

/-- Object-key encoding of `s3ApiRequest` (lines 398–403): split on `/`,
encode each segment, rejoin with `/`. -/
def s3EncodeKey (key : String) : String :=
  jsJoin "/" ((splitOnChar '/' key.data).map (fun seg => encodeURIComponent ⟨seg⟩))

/-- Path construction of `s3ApiRequest` (lines 393–405). -/
def s3BuildPath (bucket : Option String) (key : Option String) : String :=
  match bucket with
  | none => "/"
  | some b =>
    match key with
    | none => "/" ++ b
    | some k => "/" ++ b ++ "/" ++ s3EncodeKey k

/-- `query[key]` for the first matching key (keys are unique in a JS
record). -/
def queryLookup (query : List (String × String)) (k : String) : String :=
  match query.find? (fun kv => kv.1 = k) with
  | some kv => kv.2
  | none => ""

/-- The parameter list `s3ApiRequest` appends (lines 411–421): every entry
in sorted key order; an entry with an empty value is appended as well. -/
def s3QueryParams (query : List (String × String)) : List (String × String) :=
  (jsSort (query.map Prod.fst)).map (fun k => (k, queryLookup query k))

/-- The query string `s3ApiRequest` builds (lines 408–423). -/
def s3BuildQueryString (query : List (String × String)) : String :=
  if query.isEmpty then "" else urlSearchParamsToString (s3QueryParams query)

/-- `const fullPath = queryString ? path + '?' + queryString : path`
(line 425). -/
def s3FullPath (path queryString : String) : String :=
  if queryString = "" then path else path ++ "?" ++ queryString

/-! ### Encoding facts needed for the query round trip -/

/-- Code points are below `0x110000`. -/
theorem char_toNat_lt (c : Char) : c.toNat < 1114112 := by
  rcases c.valid with h | h
  · exact Nat.lt_trans h (by norm_num)
  · exact h.2

/-- `hexDigitUpper` of a digit is a hex digit. -/
theorem hexDigitUpper_isHex (m : Nat) (h : m < 16) : isHexDigitChar (hexDigitUpper m) = true := by
  interval_cases m <;> decide

/-- `hexVal` inverts `hexDigitUpper` on digits. -/
theorem hexVal_hexDigitUpper (m : Nat) (h : m < 16) : hexVal (hexDigitUpper m) = m := by
  interval_cases m <;> decide

/-- For ASCII code points the padded hex form is two hex digits whose value
is the code point. -/
theorem hexOfCode_ascii (n : Nat) (h : n < 128) :
    ∃ h1 h2, hexOfCode n = [h1, h2] ∧ isHexDigitChar h1 = true ∧ isHexDigitChar h2 = true ∧
      16 * hexVal h1 + hexVal h2 = n := by
  by_cases h16 : n < 16
  · refine ⟨'0', hexDigitUpper n, by simp [hexOfCode, h16], by decide,
      hexDigitUpper_isHex n h16, ?_⟩
    rw [show hexVal '0' = 0 from rfl, hexVal_hexDigitUpper n h16]
    omega
  · have h256 : n < 256 := by omega
    refine ⟨hexDigitUpper (n / 16), hexDigitUpper (n % 16), ?_,
      hexDigitUpper_isHex _ (by omega), hexDigitUpper_isHex _ (by omega), ?_⟩
    · simp only [hexOfCode, if_neg (by omega : ¬ n < 16), if_pos h256]
    · rw [hexVal_hexDigitUpper _ (by omega), hexVal_hexDigitUpper _ (by omega)]
      omega

/-- Every character of the padded hex form is a hex digit (for any code
point of a character). -/
theorem hexOfCode_mem_isHex (n : Nat) (hn : n < 1114112) (x : Char)
    (hx : x ∈ hexOfCode n) : isHexDigitChar x = true := by
  unfold hexOfCode at hx
  by_cases h1 : n < 16
  · rw [if_pos h1] at hx
    simp only [List.mem_cons, List.not_mem_nil, or_false] at hx
    rcases hx with rfl | rfl
    · decide
    · exact hexDigitUpper_isHex _ h1
  rw [if_neg h1] at hx
  by_cases h2 : n < 256
  · rw [if_pos h2] at hx
    simp only [List.mem_cons, List.not_mem_nil, or_false] at hx
    rcases hx with rfl | rfl <;> exact hexDigitUpper_isHex _ (by omega)
  rw [if_neg h2] at hx
  by_cases h3 : n < 4096
  · rw [if_pos h3] at hx
    simp only [List.mem_cons, List.not_mem_nil, or_false] at hx
    rcases hx with rfl | rfl | rfl <;> exact hexDigitUpper_isHex _ (by omega)
  rw [if_neg h3] at hx
  by_cases h4 : n < 65536
  · rw [if_pos h4] at hx
    simp only [List.mem_cons, List.not_mem_nil, or_false] at hx
    rcases hx with rfl | rfl | rfl | rfl <;> exact hexDigitUpper_isHex _ (by omega)
  rw [if_neg h4] at hx
  by_cases h5 : n < 1048576
  · rw [if_pos h5] at hx
    simp only [List.mem_cons, List.not_mem_nil, or_false] at hx
    rcases hx with rfl | rfl | rfl | rfl | rfl <;> exact hexDigitUpper_isHex _ (by omega)
  · rw [if_neg h5] at hx
    simp only [List.mem_cons, List.not_mem_nil, or_false] at hx
    rcases hx with rfl | rfl | rfl | rfl | rfl | rfl <;> exact hexDigitUpper_isHex _ (by omega)

/-- Characters of form-encoded output are never `&`, `=`, `?` or `%`-free
specials: precisely, they are form-safe, `+`, `%` or hex digits. -/
theorem formEncodeChar_cases (c x : Char) (hx : x ∈ formEncodeChar c) :
    formSafe x = true ∨ x = '+' ∨ x = '%' ∨ isHexDigitChar x = true := by
  unfold formEncodeChar at hx
  by_cases hs : formSafe c
  · rw [if_pos hs] at hx
    simp at hx
    subst hx
    exact Or.inl hs
  rw [if_neg hs] at hx
  by_cases hsp : c = ' '
  · rw [if_pos hsp] at hx
    simp at hx
    subst hx
    exact Or.inr (Or.inl rfl)
  · rw [if_neg hsp] at hx
    rcases List.mem_cons.mp hx with h | h
    · exact Or.inr (Or.inr (Or.inl h))
    · exact Or.inr (Or.inr (Or.inr (hexOfCode_mem_isHex _ (char_toNat_lt c) _ h)))

/-- Form-encoded output never contains `&`. -/
theorem formEncode_no_amp (s : List Char) (x : Char) (hx : x ∈ formEncode s) : x ≠ '&' := by
  obtain ⟨c, -, hc⟩ := List.mem_flatMap.mp hx
  intro he
  subst he
  rcases formEncodeChar_cases c '&' hc with h | h | h | h
  · simp [formSafe] at h
  · exact absurd h (by decide)
  · exact absurd h (by decide)
  · simp [isHexDigitChar] at h

/-- Form-encoded output never contains `=`. -/
theorem formEncode_no_eq (s : List Char) (x : Char) (hx : x ∈ formEncode s) : x ≠ '=' := by
  obtain ⟨c, -, hc⟩ := List.mem_flatMap.mp hx
  intro he
  subst he
  rcases formEncodeChar_cases c '=' hc with h | h | h | h
  · simp [formSafe] at h
  · exact absurd h (by decide)
  · exact absurd h (by decide)
  · simp [isHexDigitChar] at h

/-! ### Split and join lemmas -/

/-- Splitting never yields the empty list of pieces. -/
theorem splitOnChar_ne_nil (sep : Char) (s : List Char) : splitOnChar sep s ≠ [] := by
  cases s with
  | nil => simp [splitOnChar]
  | cons c s =>
    simp only [splitOnChar]
    split
    · simp
    · split <;> simp

/-- A separator-free string is one piece. -/
theorem splitOnChar_of_not_mem (sep : Char) :
    ∀ (s : List Char), sep ∉ s → splitOnChar sep s = [s]
  | [], _ => rfl
  | c :: s, h => by
    have hcs : c ≠ sep := fun he => h (by simp [he])
    have hs : sep ∉ s := fun hm => h (by simp [hm])
    simp only [splitOnChar, if_neg hcs, splitOnChar_of_not_mem sep s hs]

/-- Splitting after a separator-free block keeps the block in the first
piece. -/
theorem splitOnChar_append (sep : Char) :
    ∀ (a t : List Char), sep ∉ a →
      ∃ h r, splitOnChar sep t = h :: r ∧ splitOnChar sep (a ++ t) = (a ++ h) :: r
  | [], t, _ => by
    obtain ⟨h, r, he⟩ : ∃ h r, splitOnChar sep t = h :: r := by
      cases hs : splitOnChar sep t with
      | nil => exact absurd hs (splitOnChar_ne_nil sep t)
      | cons h r => exact ⟨h, r, rfl⟩
    exact ⟨h, r, he, by simpa using he⟩
  | c :: a, t, hmem => by
    have hcs : c ≠ sep := fun he => hmem (by simp [he])
    have ha : sep ∉ a := fun hm => hmem (by simp [hm])
    obtain ⟨h, r, ht, hat⟩ := splitOnChar_append sep a t ha
    refine ⟨h, r, ht, ?_⟩
    simp only [List.cons_append, splitOnChar, if_neg hcs, List.append_eq, hat]

/-- Splitting a joined list of separator-free pieces recovers the
pieces. -/
theorem splitOnChar_listJoin (sep : Char) :
    ∀ (ps : List (List Char)), ps ≠ [] → (∀ p ∈ ps, sep ∉ p) →
      splitOnChar sep (listJoin [sep] ps) = ps
  | [], h, _ => absurd rfl h
  | [p], _, hall => by
    simp only [listJoin]
    exact splitOnChar_of_not_mem sep p (hall p (by simp))
  | p :: q :: rest, _, hall => by
    have hp : sep ∉ p := hall p (by simp)
    simp only [listJoin]
    have ih := splitOnChar_listJoin sep (q :: rest) (by simp)
      (fun x hx => hall x (by simp [List.mem_cons] at hx ⊢; tauto))
    obtain ⟨h, r, ht, hat⟩ := splitOnChar_append sep p (sep :: listJoin [sep] (q :: rest)) hp
    rw [show p ++ [sep] ++ listJoin [sep] (q :: rest) =
      p ++ (sep :: listJoin [sep] (q :: rest)) by simp, hat]
    have : splitOnChar sep (sep :: listJoin [sep] (q :: rest)) =
        [] :: splitOnChar sep (listJoin [sep] (q :: rest)) := by
      simp [splitOnChar]
    rw [this] at ht
    cases ht
    rw [ih]
    simp

/-- Splitting at the first separator after a separator-free block. -/
theorem splitFirstChar_append (sep : Char) :
    ∀ (a b : List Char), sep ∉ a → splitFirstChar sep (a ++ sep :: b) = some (a, b)
  | [], b, _ => by simp [splitFirstChar]
  | c :: a, b, hmem => by
    have hcs : c ≠ sep := fun he => hmem (by simp [he])
    have ha : sep ∉ a := fun hm => hmem (by simp [hm])
    simp only [List.cons_append, splitFirstChar, if_neg hcs, List.append_eq,
      splitFirstChar_append sep a b ha, Option.map_some]
    rfl

/-! ### Form-encoding round trip (ASCII) -/

/-- Unfolding `formDecode` on a non-`%` head. -/
theorem formDecode_cons_ne (c : Char) (rest : List Char) (hc : c ≠ '%') :
    formDecode (c :: rest) = (if c = '+' then ' ' else c) :: formDecode rest := by
  simp [formDecode, hc]

/-- Decoding inverts encoding on ASCII text. -/
theorem formDecode_formEncode : ∀ (s : List Char), (∀ c ∈ s, c.toNat < 128) →
    formDecode (formEncode s) = s
  | [], _ => rfl
  | c :: s, h => by
    have ih := formDecode_formEncode s (fun x hx => h x (by simp [hx]))
    show formDecode (formEncodeChar c ++ formEncode s) = c :: s
    by_cases hs : formSafe c
    · have hc1 : c ≠ '%' := fun he => by rw [he] at hs; simp [formSafe] at hs
      have hc2 : c ≠ '+' := fun he => by rw [he] at hs; simp [formSafe] at hs
      rw [show formEncodeChar c = [c] by simp [formEncodeChar, hs], List.singleton_append,
        formDecode_cons_ne c _ hc1, if_neg hc2, ih]
    by_cases hsp : c = ' '
    · rw [show formEncodeChar c = ['+'] by rw [hsp]; decide, List.singleton_append,
        formDecode_cons_ne '+' _ (by decide), if_pos rfl, ih, hsp]
    · rw [show formEncodeChar c = '%' :: hexOfCode c.toNat by simp [formEncodeChar, hs, hsp]]
      obtain ⟨h1, h2, hform, hx1, hx2, hval⟩ := hexOfCode_ascii c.toNat (h c (by simp))
      rw [hform]
      show formDecode ('%' :: h1 :: h2 :: formEncode s) = c :: s
      simp only [formDecode, if_pos rfl, hx1, hx2, Bool.and_self, if_true, hval,
        Char.ofNat_toNat, ih]

/-- Parsing one serialized pair recovers the pair (ASCII). -/
theorem parseFormPair_roundtrip (k v : String)
    (hk : ∀ c ∈ k.data, c.toNat < 128) (hv : ∀ c ∈ v.data, c.toNat < 128) :
    parseFormPair (formEncode k.data ++ '=' :: formEncode v.data) = (k, v) := by
  unfold parseFormPair
  rw [splitFirstChar_append '=' _ _ (fun hx => formEncode_no_eq k.data '=' hx rfl)]
  dsimp only
  rw [formDecode_formEncode k.data hk, formDecode_formEncode v.data hv]

/-- Parsing the serialization of a nonempty ASCII parameter list recovers
the parameters. -/
theorem urlSearchParams_roundtrip (params : List (String × String)) (hne : params ≠ [])
    (hascii : ∀ kv ∈ params, (∀ c ∈ (kv.1 : String).data, c.toNat < 128) ∧
      (∀ c ∈ (kv.2 : String).data, c.toNat < 128)) :
    urlSearchParamsParse (urlSearchParamsToString params).data = params := by
  unfold urlSearchParamsParse urlSearchParamsToString
  rw [show (⟨listJoin ['&']
      (params.map (fun p => formEncode p.1.data ++ '=' :: formEncode p.2.data))⟩ : String).data =
    listJoin ['&'] (params.map (fun p => formEncode p.1.data ++ '=' :: formEncode p.2.data))
    from rfl]
  rw [splitOnChar_listJoin '&' _ (by simpa using hne) ?hfree]
  case hfree =>
    intro p hp hamp
    obtain ⟨kv, -, hkv⟩ := List.mem_map.mp hp
    subst hkv
    rcases List.mem_append.mp hamp with h | h
    · exact formEncode_no_amp _ _ h rfl
    · rcases List.mem_cons.mp h with h | h
      · cases h
      · exact formEncode_no_amp _ _ h rfl
  rw [List.filter_eq_self.mpr ?hne2]
  case hne2 =>
    intro p hp
    obtain ⟨kv, -, hkv⟩ := List.mem_map.mp hp
    subst hkv
    cases hfe : formEncode kv.1.data <;> simp [hfe]
  rw [List.map_map]
  have : ∀ kv ∈ params,
      (parseFormPair ∘ fun p : String × String =>
        formEncode p.1.data ++ '=' :: formEncode p.2.data) kv = id kv := by
    intro kv hkv
    obtain ⟨h1, h2⟩ := hascii kv hkv
    show parseFormPair (formEncode kv.1.data ++ '=' :: formEncode kv.2.data) = kv
    rw [parseFormPair_roundtrip kv.1 kv.2 h1 h2]
  rw [List.map_congr_left this, List.map_id]

/-! ### C5: empty-valued query parameters survive into the canonical query -/

/-- First-found lookup returns the value of a key occurring in a map with
pairwise distinct keys. -/
theorem queryLookup_of_nodup :
    ∀ (m : List (String × String)), (m.map Prod.fst).Nodup →
      ∀ kv ∈ m, queryLookup m kv.1 = kv.2 := by
  intro m
  induction m with
  | nil => intro _ kv hkv; simp at hkv
  | cons hd rest ih =>
    intro hnd kv hkv
    obtain ⟨k, v⟩ := hd
    simp only [List.map_cons, List.nodup_cons] at hnd
    rcases List.mem_cons.mp hkv with heq | hmem
    · subst heq
      simp [queryLookup, List.find?]
    · have hne : k ≠ kv.1 := by
        intro he
        exact hnd.1 (he ▸ List.mem_map.mpr ⟨kv, hmem, rfl⟩)
      have := ih hnd.2 kv hmem
      simp only [queryLookup, List.find?] at this ⊢
      rw [show (decide (k = kv.1)) = false by simpa using hne]
      exact this

/-- Either a key is absent (lookup yields the empty default) or the lookup
returns the value of some entry with that key. -/
theorem queryLookup_cases (m : List (String × String)) (k : String) :
    queryLookup m k = "" ∨ ∃ kv ∈ m, kv.1 = k ∧ queryLookup m k = kv.2 := by
  unfold queryLookup
  cases hf : m.find? (fun kv => kv.1 = k) with
  | none => exact Or.inl rfl
  | some kv =>
    refine Or.inr ⟨kv, List.mem_of_find?_eq_some hf, ?_, rfl⟩
    have := List.find?_some hf
    simpa using this

/-- `encodeURIComponent` output never contains `?`. -/
theorem encodeURIComponent_no_question (s : String) (x : Char)
    (hx : x ∈ (encodeURIComponent s).data) : x ≠ '?' := by
  obtain ⟨c, -, hc⟩ := List.mem_flatMap.mp hx
  unfold encodeURIComponentChar at hc
  by_cases hs : uriComponentSafe c
  · rw [if_pos hs] at hc
    simp at hc
    subst hc
    intro he
    subst he
    exact absurd hs (by decide)
  · rw [if_neg hs] at hc
    rcases List.mem_cons.mp hc with h | h
    · subst h; decide
    · have hhex := hexOfCode_mem_isHex c.toNat (char_toNat_lt c) x h
      intro he
      subst he
      exact absurd hhex (by decide)

/-- A character of a joined list comes from the separator or one of the
pieces. -/
theorem mem_jsJoin (sep : String) :
    ∀ (l : List String) (x : Char), x ∈ (jsJoin sep l).data →
      x ∈ sep.data ∨ ∃ s ∈ l, x ∈ s.data
  | [], x, hx => by simp [jsJoin] at hx
  | [s], x, hx => Or.inr ⟨s, by simp, hx⟩
  | s :: t :: rest, x, hx => by
    simp only [jsJoin, String.data_append, List.mem_append] at hx
    rcases hx with (h | h) | h
    · exact Or.inr ⟨s, by simp, h⟩
    · exact Or.inl h
    · rcases mem_jsJoin sep (t :: rest) x h with h | ⟨u, hu, hxu⟩
      · exact Or.inl h
      · exact Or.inr ⟨u, List.mem_cons.mpr (Or.inr hu), hxu⟩

/-- The path `s3ApiRequest` builds for a bucket request contains no `?`
(given the bucket name itself has none). -/
theorem s3BuildPath_no_question (bucket : String) (key : Option String)
    (hb : '?' ∉ bucket.data) : '?' ∉ (s3BuildPath (some bucket) key).data := by
  cases key with
  | none =>
    intro hx
    simp only [s3BuildPath, String.data_append, List.mem_append] at hx
    rcases hx with h | h
    · simp at h
    · exact hb h
  | some k =>
    intro hx
    simp only [s3BuildPath, String.data_append, List.mem_append] at hx
    rcases hx with ((h | h) | h) | h
    · simp at h
    · exact hb h
    · simp at h
    · rcases mem_jsJoin "/" _ '?' h with h | ⟨u, hu, hxu⟩
      · simp at h
      · obtain ⟨seg, -, hseg⟩ := List.mem_map.mp hu
        subst hseg
        exact encodeURIComponent_no_question _ _ hxu rfl

/-- The serialization of a nonempty parameter list is nonempty. -/
theorem urlSearchParamsToString_ne_empty (params : List (String × String))
    (h : params ≠ []) : urlSearchParamsToString params ≠ "" := by
  cases params with
  | nil => exact absurd rfl h
  | cons p ps =>
    intro he
    have hdata := congrArg String.data he
    simp only [urlSearchParamsToString] at hdata
    rw [List.map_cons] at hdata
    cases hmap : ps.map (fun p : String × String =>
        formEncode p.1.data ++ '=' :: formEncode p.2.data) with
    | nil =>
      rw [hmap] at hdata
      simp only [listJoin] at hdata
      exact absurd hdata (by simp)
    | cons q qs =>
      rw [hmap] at hdata
      simp only [listJoin] at hdata
      exact absurd hdata (by simp)

/-- C5: when the query map holds a parameter with an empty value, the
canonical query string `signAwsRequest` computes for the request that
`s3ApiRequest` builds is the `&`-join of a sorted parameter list that still
contains that parameter as `uriEncode(name) ++ "="` (for ASCII query data
and a `?`-free bucket name). -/
theorem C5_empty_query_value_kept
    (sha256 : String → String) (hmacHex hmacSha256 : String → String → String)
    (host method region : String) (headers : List (String × String)) (body : Option String)
    (credentials : AwsCredentials) (amzDate : String)
    (bucket : String) (key : Option String) (query : List (String × String)) (k : String)
    (hb : '?' ∉ bucket.data)
    (hnd : (query.map Prod.fst).Nodup)
    (hk : (k, "") ∈ query)
    (hascii : ∀ kv ∈ query, (∀ c ∈ (kv.1 : String).data, c.toNat < 128) ∧
      (∀ c ∈ (kv.2 : String).data, c.toNat < 128)) :
    (signAwsRequest sha256 hmacHex hmacSha256
        ⟨host, s3FullPath (s3BuildPath (some bucket) key) (s3BuildQueryString query),
          method, "s3", region, headers, body⟩
        credentials amzDate).canonicalQueryString =
      jsJoin "&" (jsSort ((s3QueryParams query).map
        (fun q : String × String => uriEncode q.1 true ++ "=" ++ uriEncode q.2 true))) ∧
    (uriEncode k true ++ "=") ∈ jsSort ((s3QueryParams query).map
      (fun q : String × String => uriEncode q.1 true ++ "=" ++ uriEncode q.2 true)) := by
  have hqne : query ≠ [] := by
    intro h
    rw [h] at hk
    simp at hk
  have hparams_ne : s3QueryParams query ≠ [] := by
    unfold s3QueryParams
    intro h
    have hlen := congrArg List.length h
    simp only [List.length_map, List.length_nil] at hlen
    rw [jsSort, (List.perm_insertionSort (fun a b : String => a ≤ b)
      (query.map Prod.fst)).length_eq, List.length_map] at hlen
    exact hqne (List.length_eq_zero.mp hlen)
  have hascii' : ∀ kv ∈ s3QueryParams query,
      (∀ c ∈ (kv.1 : String).data, c.toNat < 128) ∧
      (∀ c ∈ (kv.2 : String).data, c.toNat < 128) := by
    intro kv hkv
    obtain ⟨kk, hkk, hkv⟩ := List.mem_map.mp hkv
    subst hkv
    have hkk' : kk ∈ query.map Prod.fst :=
      (List.perm_insertionSort (fun a b : String => a ≤ b) _).mem_iff.mp hkk
    obtain ⟨kv0, hkv0, hfst⟩ := List.mem_map.mp hkk'
    constructor
    · subst hfst
      exact (hascii kv0 hkv0).1
    · rcases queryLookup_cases query kk with h | ⟨kv1, hkv1, -, hval⟩
      · rw [h]
        intro c hc
        simp at hc
      · rw [hval]
        exact (hascii kv1 hkv1).2
  have hqs_params : s3BuildQueryString query = urlSearchParamsToString (s3QueryParams query) := by
    unfold s3BuildQueryString
    rw [if_neg (by simp [List.isEmpty_iff, hqne])]
  have hqs_ne : s3BuildQueryString query ≠ "" := by
    rw [hqs_params]
    exact urlSearchParamsToString_ne_empty _ hparams_ne
  have hfull : s3FullPath (s3BuildPath (some bucket) key) (s3BuildQueryString query) =
      s3BuildPath (some bucket) key ++ "?" ++ s3BuildQueryString query := by
    unfold s3FullPath
    rw [if_neg hqs_ne]
  have hsplit : splitFirstChar '?'
      (s3BuildPath (some bucket) key ++ "?" ++ s3BuildQueryString query).data =
      some ((s3BuildPath (some bucket) key).data, (s3BuildQueryString query).data) := by
    rw [String.data_append, String.data_append,
      show ("?" : String).data = ['?'] from rfl, List.append_assoc, List.singleton_append]
    exact splitFirstChar_append '?' _ _ (s3BuildPath_no_question bucket key hb)
  have hroundtrip : urlSearchParamsParse (s3BuildQueryString query).data =
      s3QueryParams query := by
    rw [hqs_params]
    exact urlSearchParams_roundtrip _ hparams_ne hascii'
  constructor
  · simp only [signAwsRequest]
    rw [hfull, hsplit]
    dsimp only
    rw [hroundtrip]
  · have hval : queryLookup query k = "" := queryLookup_of_nodup query hnd (k, "") hk
    have hk_keys : k ∈ query.map Prod.fst := List.mem_map.mpr ⟨(k, ""), hk, rfl⟩
    have hk_sorted : k ∈ jsSort (query.map Prod.fst) :=
      (List.perm_insertionSort (fun a b : String => a ≤ b) _).mem_iff.mpr hk_keys
    have hk_params : (k, "") ∈ s3QueryParams query := by
      unfold s3QueryParams
      refine List.mem_map.mpr ⟨k, hk_sorted, ?_⟩
      rw [hval]
    have helem : (uriEncode k true ++ "=" ++ uriEncode "" true) ∈
        (s3QueryParams query).map
          (fun q : String × String => uriEncode q.1 true ++ "=" ++ uriEncode q.2 true) :=
      List.mem_map.mpr ⟨(k, ""), hk_params, rfl⟩
    have hshape : uriEncode k true ++ "=" ++ uriEncode "" true = uriEncode k true ++ "=" := by
      apply String.ext
      simp [String.data_append, uriEncode]
    rw [hshape] at helem
    exact (List.perm_insertionSort (fun a b : String => a ≤ b) _).mem_iff.mpr helem

/-- C5, witness: the theorem instantiated at a concrete `?acl` subresource
request. -/
theorem C5_empty_query_value_kept_witness :
    (signAwsRequest (fun s => "H(" ++ s ++ ")") (fun _ s => "M(" ++ s ++ ")")
        (fun _ s => "K(" ++ s ++ ")")
        ⟨"s3.eu-central-1.s4.mega.io",
          s3FullPath (s3BuildPath (some "my-bucket") none)
            (s3BuildQueryString [("acl", "")]),
          "GET", "s3", "eu-central-1", [], none⟩
        ⟨"AK", "SK"⟩ "20240101T000000Z").canonicalQueryString =
      jsJoin "&" (jsSort (((s3QueryParams [("acl", "")])).map
        (fun q : String × String => uriEncode q.1 true ++ "=" ++ uriEncode q.2 true))) ∧
    (uriEncode "acl" true ++ "=") ∈ jsSort (((s3QueryParams [("acl", "")])).map
      (fun q : String × String => uriEncode q.1 true ++ "=" ++ uriEncode q.2 true)) :=
  C5_empty_query_value_kept (fun s => "H(" ++ s ++ ")") (fun _ s => "M(" ++ s ++ ")")
    (fun _ s => "K(" ++ s ++ ")") "s3.eu-central-1.s4.mega.io" "GET" "eu-central-1" [] none
    ⟨"AK", "SK"⟩ "20240101T000000Z" "my-bucket" none [("acl", "")] "acl"
    (by decide) (by decide) (by decide) (by decide)

/-! ## Presigned URLs (`generatePresignedUrl`, lines 756–847) -/

/-- The query parameters `generatePresignedUrl` embeds before signing
(lines 792–802): the five `X-Amz-*` entries, plus `Content-Type` for a PUT
with a (truthy) content type. -/
def presignQueryParams (credential amzDate : String) (expiresIn : Int)
    (method : String) (contentType : Option String) : List (String × String) :=
  let base :=
    [("X-Amz-Algorithm", "AWS4-HMAC-SHA256"),
     ("X-Amz-Credential", credential),
     ("X-Amz-Date", amzDate),
     ("X-Amz-Expires", toString expiresIn),
     ("X-Amz-SignedHeaders", "host")]
  match contentType with
  | some ct => if method = "PUT" ∧ ct ≠ "" then base ++ [("Content-Type", ct)] else base
  | none => base

/-- Everything `generatePresignedUrl` computes, intermediates exposed. -/
structure PresignParts where
  path : String
  credentialScope : String
  credential : String
  queryParams : List (String × String)
  sortedKeys : List String
  canonicalQueryString : String
  canonicalHeaders : String
  payloadHash : String
  canonicalRequest : String
  stringToSign : String
  signature : String
  presignedUrl : String

/-- `generatePresignedUrl` (lines 756–847), with the hash primitives
abstract and the timestamp passed in. The endpoint is the already-resolved
host; the object key is percent-encoded per segment with slashes
preserved. -/
def generatePresignedUrl (sha256hex : String → String)
    (hmacHex hmacSha256 : String → String → String)
    (endpoint region accessKeyId secretAccessKey : String)
    (bucket key method : String) (expiresIn : Int) (contentType : Option String)
    (amzDate : String) : PresignParts :=
  let encodedKey := s3EncodeKey key
  let path := "/" ++ bucket ++ "/" ++ encodedKey
  let dateStamp := amzDate.take 8
  let credentialScope := dateStamp ++ "/" ++ region ++ "/s3/aws4_request"
  let credential := accessKeyId ++ "/" ++ credentialScope
  let signedHeaders := "host"
  let queryParams := presignQueryParams credential amzDate expiresIn method contentType
  let sortedKeys := jsSort (queryParams.map Prod.fst)
  let canonicalQueryString :=
    jsJoin "&" (sortedKeys.map (fun k =>
      encodeURIComponent k ++ "=" ++ encodeURIComponent (queryLookup queryParams k)))
  let canonicalHeaders := "host:" ++ endpoint ++ "\n"
  let payloadHash := "UNSIGNED-PAYLOAD"
  let canonicalRequest :=
    jsJoin "\n" [method, path, canonicalQueryString, canonicalHeaders, signedHeaders, payloadHash]
  let canonicalRequestHash := sha256hex canonicalRequest
  let stringToSign :=
    jsJoin "\n" ["AWS4-HMAC-SHA256", amzDate, credentialScope, canonicalRequestHash]
  let signingKey := getSigningKey hmacSha256 secretAccessKey dateStamp region "s3"
  let signature := hmacHex signingKey stringToSign
  { path := path
    credentialScope := credentialScope
    credential := credential
    queryParams := queryParams
    sortedKeys := sortedKeys
    canonicalQueryString := canonicalQueryString
    canonicalHeaders := canonicalHeaders
    payloadHash := payloadHash
    canonicalRequest := canonicalRequest
    stringToSign := stringToSign
    signature := signature
    presignedUrl :=
      "https://" ++ endpoint ++ path ++ "?" ++ canonicalQueryString ++
        "&X-Amz-Signature=" ++ signature }

/-- Each of the five `X-Amz-*` keys occurs among the presign query-parameter
keys. -/
theorem presignQueryParams_key_mem (credential amzDate : String) (expiresIn : Int)
    (method : String) (contentType : Option String) (k0 : String)
    (hk : k0 ∈ ["X-Amz-Algorithm", "X-Amz-Credential", "X-Amz-Date", "X-Amz-Expires",
      "X-Amz-SignedHeaders"]) :
    k0 ∈ (presignQueryParams credential amzDate expiresIn method contentType).map Prod.fst := by
  fin_cases hk <;>
    (cases contentType with
     | none => simp [presignQueryParams]
     | some ct =>
       simp only [presignQueryParams]
       split <;> simp)

/-- The lookups of the five `X-Amz-*` keys in the presign query parameters. -/
theorem presignQueryParams_lookup (credential amzDate : String) (expiresIn : Int)
    (method : String) (contentType : Option String) :
    queryLookup (presignQueryParams credential amzDate expiresIn method contentType)
      "X-Amz-Algorithm" = "AWS4-HMAC-SHA256" ∧
    queryLookup (presignQueryParams credential amzDate expiresIn method contentType)
      "X-Amz-Credential" = credential ∧
    queryLookup (presignQueryParams credential amzDate expiresIn method contentType)
      "X-Amz-Date" = amzDate ∧
    queryLookup (presignQueryParams credential amzDate expiresIn method contentType)
      "X-Amz-Expires" = toString expiresIn ∧
    queryLookup (presignQueryParams credential amzDate expiresIn method contentType)
      "X-Amz-SignedHeaders" = "host" := by
  cases contentType with
  | none =>
    refine ⟨?_, ?_, ?_, ?_, ?_⟩ <;> simp [presignQueryParams, queryLookup, List.find?]
  | some ct =>
    by_cases h : method = "PUT" ∧ ct ≠ ""
    · refine ⟨?_, ?_, ?_, ?_, ?_⟩ <;>
        simp [presignQueryParams, if_pos h, queryLookup, List.find?]
    · refine ⟨?_, ?_, ?_, ?_, ?_⟩ <;>
        simp [presignQueryParams, if_neg h, queryLookup, List.find?]

/-- C3: the presigned URL embeds `X-Amz-Algorithm`, `X-Amz-Credential`,
`X-Amz-Date`, `X-Amz-Expires` and `X-Amz-SignedHeaders` (value exactly
`host`) as parameters of the query string that forms the third field of the
canonical request — so the signature covers them —, uses the literal
`UNSIGNED-PAYLOAD` sentinel as the payload hash, and appends
`&X-Amz-Signature={signature}` to that already-built query string as the
final parameter. -/
theorem C3_presigned_url_shape (sha256hex : String → String)
    (hmacHex hmacSha256 : String → String → String)
    (endpoint region accessKeyId secretAccessKey bucket key method : String)
    (expiresIn : Int) (contentType : Option String) (amzDate : String) (P : PresignParts)
    (hP : P = generatePresignedUrl sha256hex hmacHex hmacSha256 endpoint region accessKeyId
      secretAccessKey bucket key method expiresIn contentType amzDate) :
    P.presignedUrl =
      "https://" ++ endpoint ++ P.path ++ "?" ++ P.canonicalQueryString ++
        "&X-Amz-Signature=" ++ P.signature ∧
    P.payloadHash = "UNSIGNED-PAYLOAD" ∧
    P.canonicalRequest =
      method ++ "\n" ++ P.path ++ "\n" ++ P.canonicalQueryString ++ "\n" ++
        ("host:" ++ endpoint ++ "\n") ++ "\n" ++ "host" ++ "\n" ++ "UNSIGNED-PAYLOAD" ∧
    P.canonicalQueryString =
      jsJoin "&" (P.sortedKeys.map (fun k =>
        encodeURIComponent k ++ "=" ++ encodeURIComponent (queryLookup P.queryParams k))) ∧
    (encodeURIComponent "X-Amz-Algorithm" ++ "=" ++ encodeURIComponent "AWS4-HMAC-SHA256") ∈
      P.sortedKeys.map (fun k =>
        encodeURIComponent k ++ "=" ++ encodeURIComponent (queryLookup P.queryParams k)) ∧
    (encodeURIComponent "X-Amz-Credential" ++ "=" ++
        encodeURIComponent (accessKeyId ++ "/" ++ (amzDate.take 8 ++ "/" ++ region ++
          "/s3/aws4_request"))) ∈
      P.sortedKeys.map (fun k =>
        encodeURIComponent k ++ "=" ++ encodeURIComponent (queryLookup P.queryParams k)) ∧
    (encodeURIComponent "X-Amz-Date" ++ "=" ++ encodeURIComponent amzDate) ∈
      P.sortedKeys.map (fun k =>
        encodeURIComponent k ++ "=" ++ encodeURIComponent (queryLookup P.queryParams k)) ∧
    (encodeURIComponent "X-Amz-Expires" ++ "=" ++ encodeURIComponent (toString expiresIn)) ∈
      P.sortedKeys.map (fun k =>
        encodeURIComponent k ++ "=" ++ encodeURIComponent (queryLookup P.queryParams k)) ∧
    (encodeURIComponent "X-Amz-SignedHeaders" ++ "=" ++ encodeURIComponent "host") ∈
      P.sortedKeys.map (fun k =>
        encodeURIComponent k ++ "=" ++ encodeURIComponent (queryLookup P.queryParams k)) := by
  subst hP
  obtain ⟨hl1, hl2, hl3, hl4, hl5⟩ := presignQueryParams_lookup
    (accessKeyId ++ "/" ++ (amzDate.take 8 ++ "/" ++ region ++ "/s3/aws4_request"))
    amzDate expiresIn method contentType
  refine ⟨rfl, rfl, ?_, rfl, ?_, ?_, ?_, ?_, ?_⟩
  · simp only [generatePresignedUrl]
    apply String.ext
    simp [jsJoin, String.data_append, List.append_assoc]
  · exact List.mem_map.mpr ⟨"X-Amz-Algorithm",
      (List.perm_insertionSort _ _).mem_iff.mpr
        (presignQueryParams_key_mem _ _ _ _ _ _ (by simp)),
      by rw [show (generatePresignedUrl sha256hex hmacHex hmacSha256 endpoint region accessKeyId
        secretAccessKey bucket key method expiresIn contentType amzDate).queryParams =
        presignQueryParams (accessKeyId ++ "/" ++ (amzDate.take 8 ++ "/" ++ region ++
          "/s3/aws4_request")) amzDate expiresIn method contentType from rfl, hl1]⟩
  · exact List.mem_map.mpr ⟨"X-Amz-Credential",
      (List.perm_insertionSort _ _).mem_iff.mpr
        (presignQueryParams_key_mem _ _ _ _ _ _ (by simp)),
      by rw [show (generatePresignedUrl sha256hex hmacHex hmacSha256 endpoint region accessKeyId
        secretAccessKey bucket key method expiresIn contentType amzDate).queryParams =
        presignQueryParams (accessKeyId ++ "/" ++ (amzDate.take 8 ++ "/" ++ region ++
          "/s3/aws4_request")) amzDate expiresIn method contentType from rfl, hl2]⟩
  · exact List.mem_map.mpr ⟨"X-Amz-Date",
      (List.perm_insertionSort _ _).mem_iff.mpr
        (presignQueryParams_key_mem _ _ _ _ _ _ (by simp)),
      by rw [show (generatePresignedUrl sha256hex hmacHex hmacSha256 endpoint region accessKeyId
        secretAccessKey bucket key method expiresIn contentType amzDate).queryParams =
        presignQueryParams (accessKeyId ++ "/" ++ (amzDate.take 8 ++ "/" ++ region ++
          "/s3/aws4_request")) amzDate expiresIn method contentType from rfl, hl3]⟩
  · exact List.mem_map.mpr ⟨"X-Amz-Expires",
      (List.perm_insertionSort _ _).mem_iff.mpr
        (presignQueryParams_key_mem _ _ _ _ _ _ (by simp)),
      by rw [show (generatePresignedUrl sha256hex hmacHex hmacSha256 endpoint region accessKeyId
        secretAccessKey bucket key method expiresIn contentType amzDate).queryParams =
        presignQueryParams (accessKeyId ++ "/" ++ (amzDate.take 8 ++ "/" ++ region ++
          "/s3/aws4_request")) amzDate expiresIn method contentType from rfl, hl4]⟩
  · exact List.mem_map.mpr ⟨"X-Amz-SignedHeaders",
      (List.perm_insertionSort _ _).mem_iff.mpr
        (presignQueryParams_key_mem _ _ _ _ _ _ (by simp)),
      by rw [show (generatePresignedUrl sha256hex hmacHex hmacSha256 endpoint region accessKeyId
        secretAccessKey bucket key method expiresIn contentType amzDate).queryParams =
        presignQueryParams (accessKeyId ++ "/" ++ (amzDate.take 8 ++ "/" ++ region ++
          "/s3/aws4_request")) amzDate expiresIn method contentType from rfl, hl5]⟩

/-- C3, witness: the shape theorem instantiated at a concrete GET presign
request with dummy hash primitives. -/
theorem C3_presigned_url_shape_witness :
    (generatePresignedUrl (fun s => "H(" ++ s ++ ")") (fun _ s => "M(" ++ s ++ ")")
        (fun _ s => "K(" ++ s ++ ")") "s3.eu-central-1.s4.mega.io" "eu-central-1" "AK" "SK"
        "my-bucket" "file.txt" "GET" 3600 none "20240101T000000Z").presignedUrl =
      "https://" ++ "s3.eu-central-1.s4.mega.io" ++
        (generatePresignedUrl (fun s => "H(" ++ s ++ ")") (fun _ s => "M(" ++ s ++ ")")
          (fun _ s => "K(" ++ s ++ ")") "s3.eu-central-1.s4.mega.io" "eu-central-1" "AK" "SK"
          "my-bucket" "file.txt" "GET" 3600 none "20240101T000000Z").path ++ "?" ++
        (generatePresignedUrl (fun s => "H(" ++ s ++ ")") (fun _ s => "M(" ++ s ++ ")")
          (fun _ s => "K(" ++ s ++ ")") "s3.eu-central-1.s4.mega.io" "eu-central-1" "AK" "SK"
          "my-bucket" "file.txt" "GET" 3600 none "20240101T000000Z").canonicalQueryString ++
        "&X-Amz-Signature=" ++
        (generatePresignedUrl (fun s => "H(" ++ s ++ ")") (fun _ s => "M(" ++ s ++ ")")
          (fun _ s => "K(" ++ s ++ ")") "s3.eu-central-1.s4.mega.io" "eu-central-1" "AK" "SK"
          "my-bucket" "file.txt" "GET" 3600 none "20240101T000000Z").signature :=
  (C3_presigned_url_shape (fun s => "H(" ++ s ++ ")") (fun _ s => "M(" ++ s ++ ")")
    (fun _ s => "K(" ++ s ++ ")") "s3.eu-central-1.s4.mega.io" "eu-central-1" "AK" "SK"
    "my-bucket" "file.txt" "GET" 3600 none "20240101T000000Z" _ rfl).1

/-! ## XML values, encoder (`buildXmlFromObject`, lines 271–303) and
decoder (`parseXmlToObject`, lines 197–265)

A decoded XML node maps each tag name to a leaf string, a nested node, or —
for repeated sibling tags — an ordered sequence. The same type serves as
encoder input, where `null` and arrays also occur. -/

/-- JavaScript values flowing through the XML codec. -/
inductive JVal where
  | str (s : String)
  | obj (fields : List (String × JVal))
  | arr (elems : List JVal)
  | null

/-- `[a-zA-Z0-9_:-]`, the tag-name character class of all three regexes. -/
def isNameChar (c : Char) : Bool :=
  ('a' ≤ c && c ≤ 'z') || ('A' ≤ c && c ≤ 'Z') || ('0' ≤ c && c ≤ '9') ||
  c = '_' || c = ':' || c = '-'

/-- `key.startsWith('@')` (line 295), at the character level: the key's
first character is `@`. -/
def startsWithAtSign (s : String) : Bool :=
  match s.data with
  | [] => false
  | c :: _ => c = '@'

mutual
/-- `buildNode` (lines 272–299): `null` becomes a self-closing tag, a
scalar an escaped leaf, an array repeats the tag per element, an object
recurses over its fields (keys starting `@` are skipped). -/
def buildNode : JVal → String → String
  | .null, n => "<" ++ n ++ "/>"
  | .str s, n => "<" ++ n ++ ">" ++ escapeXml s ++ "</" ++ n ++ ">"
  | .arr l, n => buildArr l n
  | .obj fs, n => "<" ++ n ++ ">" ++ buildFields fs ++ "</" ++ n ++ ">"

/-- `data.map((item) => buildNode(item, nodeName)).join('')`. -/
def buildArr : List JVal → String → String
  | [], _ => ""
  | x :: xs, n => buildNode x n ++ buildArr xs n

/-- The field loop of the object branch. -/
def buildFields : List (String × JVal) → String
  | [] => ""
  | (k, v) :: rest => (if startsWithAtSign k then "" else buildNode v k) ++ buildFields rest
end

/-- `buildXmlFromObject` (lines 271–303): declaration plus the root
node. -/
def buildXmlFromObject (obj : JVal) (rootName : String) : String :=
  "<?xml version=\"1.0\" encoding=\"UTF-8\"?>" ++ buildNode obj rootName

/-- Splits at the first occurrence of a (nonempty) pattern: `s = pre ++ pat
++ post` with `pre` shortest, yielding `(pre, post)`. -/
def splitFirstList (pat : List Char) : List Char → Option (List Char × List Char)
  | [] => none
  | c :: s =>
    if pat ≠ [] ∧ pat.isPrefixOf (c :: s) then some ([], (c :: s).drop pat.length)
    else (splitFirstList pat s).map (fun p => (c :: p.1, p.2))

/-- The self-closing-tag scan (`selfClosingRegex`, line 211, loop 217–227):
at each `<`, the segment up to the first `>` must start with a name
character and end with `/`; the captured name is its maximal name-character
run. Yields the names in match order; scanning resumes after each match. -/
def selfScanF : Nat → List Char → List String
  | 0, _ => []
  | _, [] => []
  | fuel + 1, c :: t =>
    if c = '<' then
      let seg := t.takeWhile (fun x => x ≠ '>')
      if seg.length < t.length ∧ 2 ≤ seg.length ∧
          isNameChar (seg.headD ' ') ∧ seg.getLastD ' ' = '/' then
        (⟨seg.takeWhile isNameChar⟩ : String) :: selfScanF fuel (t.drop (seg.length + 1))
      else
        selfScanF fuel t
    else
      selfScanF fuel t

/-- Backtracking over candidate tag-name lengths (the greedy `NAME+` group
with the `</\1>` back-reference): the longest name-character run is tried
first; a candidate succeeds when its closing tag occurs later in the
input, and the lazy content group then ends at that first occurrence. -/
def tryNames (m : List Char) (after : List Char) : Nat → Option (String × List Char × List Char)
  | 0 => none
  | n + 1 =>
    let name := m.take (n + 1)
    match splitFirstList ('<' :: '/' :: (name ++ ['>'])) after with
    | some p => some (⟨name⟩, p.1, p.2)
    | none => tryNames m after n

/-- The tag scan (`tagRegex`, line 210, loop 230–259): at each `<`, the
segment up to the first `>` must start with a name character; the name
candidates are the prefixes of its maximal name-character run, longest
first; the content runs to the first occurrence of the matching closing
tag. Yields `(name, raw content)` pairs in match order. -/
def tagScanF : Nat → List Char → List (String × List Char)
  | 0, _ => []
  | _, [] => []
  | fuel + 1, c :: t =>
    if c = '<' then
      let seg := t.takeWhile (fun x => x ≠ '>')
      if seg.length < t.length ∧ 1 ≤ seg.length ∧ isNameChar (seg.headD ' ') then
        match tryNames (seg.takeWhile isNameChar) (t.drop (seg.length + 1))
            (seg.takeWhile isNameChar).length with
        | some r => (r.1, r.2.1) :: tagScanF fuel r.2.2
        | none => tagScanF fuel t
      else tagScanF fuel t
    else tagScanF fuel t

/-- `/<[a-zA-Z0-9_:-]+[^>]*>/.test(content)` (line 236): some `<` is
followed by a name character with a `>` somewhere after. -/
def hasNestedTags : List Char → Bool
  | [] => false
  | [_] => false
  | c :: c2 :: rest =>
    (c = '<' && isNameChar c2 && rest.contains '>') || hasNestedTags (c2 :: rest)

/-- The collapse of repeated tag names (lines 220–226 and 251–258): a first
occurrence is stored as a scalar, a second turns the slot into an array,
later ones are appended; assignment keeps the slot's insertion position. -/
def addTagValue (result : List (String × JVal)) (tagName : String) (value : JVal) :
    List (String × JVal) :=
  match result with
  | [] => [(tagName, value)]
  | (k, v) :: rest =>
    if k = tagName then
      match v with
      | .arr a => (k, .arr (a ++ [value])) :: rest
      | w => (k, .arr [w, value]) :: rest
    else (k, v) :: addTagValue rest tagName value

/-- `parseNode` (lines 206–262), fueled: one fuel unit per nesting level
(`parseNodeF s.length s` never exhausts it, since nested content is
strictly shorter than its element). Both scans run over the whole string;
self-closing matches are recorded first, then the tag matches, repeated
names collapsing into arrays; without any match the string itself is
returned as a leaf. -/
def parseNodeF : Nat → List Char → JVal
  | 0, s => .str ⟨s⟩
  | fuel + 1, s =>
    let selfNames := selfScanF s.length s
    let tags := tagScanF s.length s
    if selfNames.isEmpty && tags.isEmpty then .str ⟨s⟩
    else
      .obj (tags.foldl
        (fun r nc =>
          let content := jsTrimList nc.2
          let value := if hasNestedTags content then parseNodeF fuel content
            else .str ⟨decodeXmlEntitiesList content⟩
          addTagValue r nc.1 value)
        (selfNames.foldl (fun r nm => addTagValue r nm (.str "")) []))

/-- One step of the XML-declaration strip (`/<\?xml[^?]*\?>/g`, line 203):
at a `<?xml`, the `[^?]*` group runs to the first `?`, which must be
followed by `>`. -/
def stripXmlDeclF : Nat → List Char → List Char
  | 0, s => s
  | _, [] => []
  | fuel + 1, c :: t =>
    if ("<?xml".data).isPrefixOf (c :: t) then
      let rest := (c :: t).drop 5
      let seg := rest.takeWhile (fun x => x ≠ '?')
      match rest.drop seg.length with
      | '?' :: '>' :: rest2 => stripXmlDeclF fuel rest2
      | _ => c :: stripXmlDeclF fuel t
    else c :: stripXmlDeclF fuel t

/-- `parseXmlToObject` (lines 197–265): empty or whitespace-only input is
the empty structure; otherwise the declaration is stripped, the result
trimmed, and `parseNode` applied. -/
def parseXmlToObject (xml : String) : JVal :=
  if xml = "" ∨ jsTrim xml = "" then .obj []
  else
    parseNodeF (jsTrimList (stripXmlDeclF xml.data.length xml.data)).length
      (jsTrimList (stripXmlDeclF xml.data.length xml.data))

/-- `parseXmlResponse` (lines 730–740): the exported wrapper (its
`try`/`catch` never fires, the parser is total). -/
def parseXmlResponse (xml : String) : JVal := parseXmlToObject xml

/-- `Array.isArray`. -/
def JVal.isArr : JVal → Bool
  | .arr _ => true
  | _ => false

/-! ### C9: repeated sibling tags collapse into ordered sequences -/

/-- Once a slot holds an array, further same-named values append to it in
order. -/
theorem addTagValue_fold_arr (name : String) :
    ∀ (vs : List JVal) (a : List JVal),
      List.foldl (fun r v => addTagValue r name v) [(name, .arr a)] vs =
        [(name, .arr (a ++ vs))] := by
  intro vs
  induction vs with
  | nil => intro a; simp
  | cons v vs ih =>
    intro a
    rw [List.foldl_cons, show addTagValue [(name, .arr a)] name v =
      [(name, .arr (a ++ [v]))] by simp [addTagValue], ih]
    simp

/-- C9: same-named sibling values collapse in encounter order — a single
occurrence stays a scalar, two or more become the ordered array of all
occurrences — and concretely
`<Root><Item>a</Item><Item>b</Item></Root>` decodes to `Root.Item =
["a","b"]` while `<Root><Item>a</Item></Root>` decodes to `Root.Item =
"a"`. -/
theorem C9_repeated_tags_collapse :
    (∀ (name : String) (v1 v2 : JVal) (vs : List JVal), v1.isArr = false →
      List.foldl (fun r v => addTagValue r name v) [] (v1 :: v2 :: vs) =
        [(name, .arr (v1 :: v2 :: vs))]) ∧
    (∀ (name : String) (v : JVal),
      List.foldl (fun r v' => addTagValue r name v') [] [v] = [(name, v)]) ∧
    parseXmlResponse "<Root><Item>a</Item><Item>b</Item></Root>" =
      .obj [("Root", .obj [("Item", .arr [.str "a", .str "b"])])] ∧
    parseXmlResponse "<Root><Item>a</Item></Root>" =
      .obj [("Root", .obj [("Item", .str "a")])] := by
  refine ⟨?_, ?_, rfl, rfl⟩
  · intro name v1 v2 vs h1
    rw [List.foldl_cons, show addTagValue [] name v1 = [(name, v1)] from rfl,
      List.foldl_cons, show addTagValue [(name, v1)] name v2 = [(name, .arr [v1, v2])] by
        cases v1 <;> simp_all [addTagValue, JVal.isArr],
      addTagValue_fold_arr]
    simp
  · intro name v
    rfl

/-- C9, witness: the collapse applied to the two concrete leaves `a`, `b`
under the tag `Item`. -/
theorem C9_repeated_tags_collapse_witness :
    List.foldl (fun r v => addTagValue r "Item" v) [] [.str "a", .str "b"] =
      [("Item", .arr [.str "a", .str "b"])] :=
  C9_repeated_tags_collapse.1 "Item" (.str "a") (.str "b") [] rfl

/-! ## Response classification of `s3ApiRequest` (lines 475–571) and C6 -/

/-- Field access `v.name` on a decoded value: defined only on objects. -/
def jvalField (v : JVal) (name : String) : Option JVal :=
  match v with
  | .obj fields => (fields.find? (fun kv => kv.1 = name)).map Prod.snd
  | _ => none

/-- JavaScript truthiness of a decoded value (absence is handled through
`Option` at the use sites). -/
def jsTruthy : JVal → Bool
  | .str s => !(s == "")
  | .null => false
  | _ => true

mutual
/-- JavaScript string conversion, as a template literal performs it. -/
def jsToString : JVal → String
  | .str s => s
  | .null => "null"
  | .arr l => jsToStringList l
  | .obj _ => "[object Object]"

/-- Array stringification: elements joined with commas. -/
def jsToStringList : List JVal → String
  | [] => ""
  | [v] => jsToString v
  | v :: rest => jsToString v ++ "," ++ jsToStringList rest
end

/-- The `errorInfo` computed for a failed request (lines 510–528): default
code `UnknownError` with the raw body (or `HTTP {status}` when the body is
empty); when the body contains `<Error>` and parses to a truthy `Error`
node, its truthy `Code`/`Message` fields override the defaults. -/
def s3ErrorInfo (statusCode : Nat) (errorBody : String) : String × String :=
  let dflt : String × String :=
    ("UnknownError", if errorBody = "" then "HTTP " ++ toString statusCode else errorBody)
  if "<Error>".data <:+: errorBody.data then
    match jvalField (parseXmlResponse errorBody) "Error" with
    | some errV =>
      if jsTruthy errV then
        (match jvalField errV "Code" with
          | some cv => if jsTruthy cv then jsToString cv else "UnknownError"
          | none => "UnknownError",
         match jvalField errV "Message" with
          | some mv => if jsTruthy mv then jsToString mv else errorBody
          | none => errorBody)
      else dflt
    | none => dflt
  else dflt

/-- The `NodeApiError` raised by `s3ApiRequest`, reduced to the fields the
claims speak about. -/
structure NodeApiErrorModel where
  message : String
  httpCode : String
deriving DecidableEq

/-- Successful outcomes of `s3ApiRequest` (with `returnFullResponse`
unset). -/
inductive S3Response where
  | notModified
  | parsed (v : JVal)
  | raw (body : String)

/-- The response classification of `s3ApiRequest` (lines 475–556): 304 is
a valid "not modified" outcome; 412 raises a fixed precondition error;
any other status ≥ 400 raises an error built from `s3ErrorInfo`; otherwise
an XML-looking body is parsed and anything else returned raw. -/
def s3HandleResponse (statusCode : Nat) (body : String) :
    Except NodeApiErrorModel S3Response :=
  if statusCode = 304 then
    .ok .notModified
  else if statusCode = 412 then
    .error ⟨"S3 API Error (PreconditionFailed): The specified precondition (If-Match or If-Unmodified-Since) was not met. The object has been modified.", "412"⟩
  else if 400 ≤ statusCode then
    .error ⟨"S3 API Error (" ++ (s3ErrorInfo statusCode body).1 ++ "): " ++
      (s3ErrorInfo statusCode body).2, toString statusCode⟩
  else
    .ok (if (body ≠ "" ∧ (jsTrim body).startsWith "<?xml") ∨ (jsTrim body).startsWith "<"
      then .parsed (parseXmlResponse body) else .raw body)

/-- Whether the classification raised. -/
def s3IsError : Except NodeApiErrorModel S3Response → Bool
  | .error _ => true
  | .ok _ => false

/-- C6, counterexample: a 412 response whose body is an `<Error>` element
with code `NoSuchBucket` raises the fixed `PreconditionFailed` error, not
an error carrying the code and message extracted from the body — so the
claimed extraction, stated for every status ≥ 400, fails at status 412. -/
theorem C6_counterexample_412 :
    s3HandleResponse 412 "<Error><Code>NoSuchBucket</Code><Message>x</Message></Error>" =
      .error ⟨"S3 API Error (PreconditionFailed): The specified precondition (If-Match or If-Unmodified-Since) was not met. The object has been modified.", "412"⟩ ∧
    "S3 API Error (PreconditionFailed): The specified precondition (If-Match or If-Unmodified-Since) was not met. The object has been modified." ≠
      "S3 API Error (NoSuchBucket): x" :=
  ⟨rfl, by decide⟩

/-- C6 (amended): the S3 request path raises an error exactly for status
codes ≥ 400; a 304 yields the non-error "not modified" result; a 412
raises a fixed `PreconditionFailed` error regardless of body; for any
other status ≥ 400 whose body contains an `<Error>` element with truthy
`Code` and `Message` leaves, the raised error carries that code and
message together with the status code, and without an `<Error>` element it
carries `UnknownError` with the raw body (or a generic `HTTP {status}`
message when the body is empty). -/
theorem C6_response_classification (statusCode : Nat) (body : String) :
    (s3IsError (s3HandleResponse statusCode body) = true ↔ 400 ≤ statusCode) ∧
    (s3HandleResponse 304 body = .ok .notModified) ∧
    (s3HandleResponse 412 body =
      .error ⟨"S3 API Error (PreconditionFailed): The specified precondition (If-Match or If-Unmodified-Since) was not met. The object has been modified.", "412"⟩) ∧
    (∀ E c m, 400 ≤ statusCode → statusCode ≠ 412 →
      "<Error>".data <:+: body.data →
      jvalField (parseXmlResponse body) "Error" = some E →
      jsTruthy E = true →
      jvalField E "Code" = some (.str c) → c ≠ "" →
      jvalField E "Message" = some (.str m) → m ≠ "" →
      s3HandleResponse statusCode body =
        .error ⟨"S3 API Error (" ++ c ++ "): " ++ m, toString statusCode⟩) ∧
    (400 ≤ statusCode → statusCode ≠ 412 → ¬ ("<Error>".data <:+: body.data) →
      s3HandleResponse statusCode body =
        .error ⟨"S3 API Error (UnknownError): " ++
          (if body = "" then "HTTP " ++ toString statusCode else body),
          toString statusCode⟩) := by
  refine ⟨?_, rfl, rfl, ?_, ?_⟩
  · by_cases h304 : statusCode = 304
    · subst h304
      simp [s3HandleResponse, s3IsError]
    by_cases h412 : statusCode = 412
    · subst h412
      simp [s3HandleResponse, s3IsError]
    by_cases h400 : 400 ≤ statusCode
    · simp [s3HandleResponse, h304, h412, h400, s3IsError]
    · simp [s3HandleResponse, h304, h412, h400, s3IsError]
  · intro E c m h400 h412 hinf hE htr hC hc hM hm
    have h304 : statusCode ≠ 304 := by omega
    have hinfo : s3ErrorInfo statusCode body = (c, m) := by
      simp only [s3ErrorInfo]
      rw [if_pos hinf, hE]
      dsimp only
      rw [if_pos htr, hC, hM]
      dsimp only
      rw [if_pos (show jsTruthy (.str c) = true by simp [jsTruthy, hc]),
        if_pos (show jsTruthy (.str m) = true by simp [jsTruthy, hm])]
      rfl
    unfold s3HandleResponse
    rw [if_neg h304, if_neg h412, if_pos h400, hinfo]
  · intro h400 h412 hinf
    have h304 : statusCode ≠ 304 := by omega
    have hinfo : s3ErrorInfo statusCode body =
        ("UnknownError", if body = "" then "HTTP " ++ toString statusCode else body) := by
      simp only [s3ErrorInfo]
      rw [if_neg hinf]
    unfold s3HandleResponse
    rw [if_neg h304, if_neg h412, if_pos h400, hinfo]
    rfl

/-- C6, witness: a 404 with a `NoSuchBucket` error body raises the error
carrying code `NoSuchBucket`, message `x` and status 404; instantiates the
extraction clause at a concrete response. -/
theorem C6_response_classification_witness :
    s3HandleResponse 404 "<Error><Code>NoSuchBucket</Code><Message>x</Message></Error>" =
      .error ⟨"S3 API Error (NoSuchBucket): x", "404"⟩ :=
  (C6_response_classification 404
    "<Error><Code>NoSuchBucket</Code><Message>x</Message></Error>").2.2.2.1
    (.obj [("Code", .str "NoSuchBucket"), ("Message", .str "x")]) "NoSuchBucket" "x"
    (by omega) (by omega) (by decide) rfl rfl rfl (by decide) rfl (by decide)

/-! ## Fuel elimination for the parser

Each fueled scanner spends one unit per examined position, so fuel equal
to the input length always suffices; the wrappers below fix that fuel and
come with fuel-free unfolding equations, on which all further reasoning is
based. -/

/-- A successful split decomposes the input around the first match. -/
theorem splitFirstList_eq {pat : List Char} :
    ∀ {s pre post : List Char}, splitFirstList pat s = some (pre, post) →
      s = pre ++ pat ++ post ∧ pat ≠ [] := by
  intro s
  induction s with
  | nil => intro pre post h; simp [splitFirstList] at h
  | cons c s ih =>
    intro pre post h
    simp only [splitFirstList] at h
    by_cases hc : pat ≠ [] ∧ pat.isPrefixOf (c :: s)
    · rw [if_pos hc] at h
      obtain ⟨hpre, hpost⟩ : pre = [] ∧ ((c :: s).drop pat.length) = post := by
        cases h; exact ⟨rfl, rfl⟩
      obtain ⟨rest, hrest⟩ := List.isPrefixOf_iff_prefix.mp hc.2
      subst hpre
      refine ⟨?_, hc.1⟩
      rw [List.nil_append, ← hrest, ← hpost, ← hrest, List.drop_left]
    · rw [if_neg hc] at h
      cases hs : splitFirstList pat s with
      | none => rw [hs] at h; cases h
      | some p =>
        rw [hs] at h
        obtain ⟨p1, p2⟩ := p
        obtain ⟨hpre, hpost⟩ : c :: p1 = pre ∧ p2 = post := by
          cases h; exact ⟨rfl, rfl⟩
        obtain ⟨he, hne⟩ := ih hs
        subst hpre hpost
        exact ⟨by rw [List.cons_append, List.cons_append, ← he], hne⟩

/-- Both parts of a successful split are strictly shorter than the
input. -/
theorem splitFirstList_bounds {pat : List Char} {s pre post : List Char}
    (h : splitFirstList pat s = some (pre, post)) :
    pre.length < s.length ∧ post.length < s.length := by
  obtain ⟨he, hne⟩ := splitFirstList_eq h
  have : 1 ≤ pat.length := by
    cases pat with
    | nil => exact absurd rfl hne
    | cons _ _ => simp
  have := congrArg List.length he
  simp only [List.length_append] at this
  omega

/-- Both parts of a successful backtracking match are strictly shorter
than the text searched. -/
theorem tryNames_bounds {m after : List Char} :
    ∀ {n : Nat} {r : String × List Char × List Char}, tryNames m after n = some r →
      r.2.1.length < after.length ∧ r.2.2.length < after.length := by
  intro n
  induction n with
  | zero => intro r h; simp [tryNames] at h
  | succ n ih =>
    intro r h
    simp only [tryNames] at h
    cases hs : splitFirstList ('<' :: '/' :: (m.take (n + 1) ++ ['>'])) after with
    | none =>
      rw [hs] at h
      exact ih h
    | some p =>
      rw [hs] at h
      cases h
      exact splitFirstList_bounds hs

/-- Fuel irrelevance for the self-closing scan. -/
theorem selfScanF_fuel :
    ∀ {f1 f2 : Nat} {s : List Char}, s.length ≤ f1 → s.length ≤ f2 →
      selfScanF f1 s = selfScanF f2 s := by
  intro f1
  induction f1 with
  | zero =>
    intro f2 s hs hs'
    have : s = [] := List.eq_nil_of_length_eq_zero (Nat.le_zero.mp hs)
    subst this
    cases f2 <;> rfl
  | succ n ih =>
    intro f2 s hs hs'
    cases s with
    | nil => cases f2 <;> rfl
    | cons c t =>
      cases f2 with
      | zero => exact absurd hs' (by simp)
      | succ m =>
        simp only [selfScanF]
        by_cases hc : c = '<'
        · rw [if_pos hc, if_pos hc]
          by_cases hcond : (t.takeWhile (fun x => x ≠ '>')).length < t.length ∧
              2 ≤ (t.takeWhile (fun x => x ≠ '>')).length ∧
              isNameChar ((t.takeWhile (fun x => x ≠ '>')).headD ' ') ∧
              (t.takeWhile (fun x => x ≠ '>')).getLastD ' ' = '/'
          · rw [if_pos hcond, if_pos hcond]
            congr 1
            have hlen : (t.drop ((t.takeWhile (fun x => x ≠ '>')).length + 1)).length ≤
                t.length := by
              simp only [List.length_drop]
              omega
            exact ih (by simp only [List.length_cons] at hs; omega)
              (by simp only [List.length_cons] at hs'; omega)
          · rw [if_neg hcond, if_neg hcond]
            exact ih (by simp only [List.length_cons] at hs; omega)
              (by simp only [List.length_cons] at hs'; omega)
        · rw [if_neg hc, if_neg hc]
          exact ih (by simp only [List.length_cons] at hs; omega)
            (by simp only [List.length_cons] at hs'; omega)

/-- Fuel irrelevance for the tag scan. -/
theorem tagScanF_fuel :
    ∀ {f1 f2 : Nat} {s : List Char}, s.length ≤ f1 → s.length ≤ f2 →
      tagScanF f1 s = tagScanF f2 s := by
  intro f1
  induction f1 with
  | zero =>
    intro f2 s hs hs'
    have : s = [] := List.eq_nil_of_length_eq_zero (Nat.le_zero.mp hs)
    subst this
    cases f2 <;> rfl
  | succ n ih =>
    intro f2 s hs hs'
    cases s with
    | nil => cases f2 <;> rfl
    | cons c t =>
      cases f2 with
      | zero => exact absurd hs' (by simp)
      | succ m =>
        simp only [tagScanF]
        by_cases hc : c = '<'
        · rw [if_pos hc, if_pos hc]
          by_cases hcond : (t.takeWhile (fun x => x ≠ '>')).length < t.length ∧
              1 ≤ (t.takeWhile (fun x => x ≠ '>')).length ∧
              isNameChar ((t.takeWhile (fun x => x ≠ '>')).headD ' ')
          · rw [if_pos hcond, if_pos hcond]
            cases htr : tryNames ((t.takeWhile (fun x => x ≠ '>')).takeWhile isNameChar)
                (t.drop ((t.takeWhile (fun x => x ≠ '>')).length + 1))
                ((t.takeWhile (fun x => x ≠ '>')).takeWhile isNameChar).length with
            | some r =>
              have hb := (tryNames_bounds htr).2
              have hdrop : (t.drop ((t.takeWhile (fun x => x ≠ '>')).length + 1)).length ≤
                  t.length := by
                simp only [List.length_drop]; omega
              have hs1 : t.length + 1 ≤ n + 1 := by simpa using hs
              have hs2 : t.length + 1 ≤ m + 1 := by simpa using hs'
              dsimp only
              congr 1
              exact @ih m r.2.2
                (show r.2.2.length ≤ n by omega) (show r.2.2.length ≤ m by omega)
            | none =>
              exact ih (by simp only [List.length_cons] at hs; omega)
                (by simp only [List.length_cons] at hs'; omega)
          · rw [if_neg hcond, if_neg hcond]
            exact ih (by simp only [List.length_cons] at hs; omega)
              (by simp only [List.length_cons] at hs'; omega)
        · rw [if_neg hc, if_neg hc]
          exact ih (by simp only [List.length_cons] at hs; omega)
            (by simp only [List.length_cons] at hs'; omega)

/-- The self-closing scan with its canonical fuel. -/
def selfScan (s : List Char) : List String := selfScanF s.length s

/-- The tag scan with its canonical fuel. -/
def tagScan (s : List Char) : List (String × List Char) := tagScanF s.length s

@[simp] theorem selfScan_nil : selfScan [] = [] := rfl

@[simp] theorem tagScan_nil : tagScan [] = [] := rfl

/-- Fuel-free unfolding of the self-closing scan. -/
theorem selfScan_cons (c : Char) (t : List Char) :
    selfScan (c :: t) =
      if c = '<' then
        if (t.takeWhile (fun x => x ≠ '>')).length < t.length ∧
            2 ≤ (t.takeWhile (fun x => x ≠ '>')).length ∧
            isNameChar ((t.takeWhile (fun x => x ≠ '>')).headD ' ') ∧
            (t.takeWhile (fun x => x ≠ '>')).getLastD ' ' = '/' then
          (⟨(t.takeWhile (fun x => x ≠ '>')).takeWhile isNameChar⟩ : String) ::
            selfScan (t.drop ((t.takeWhile (fun x => x ≠ '>')).length + 1))
        else selfScan t
      else selfScan t := by
  show selfScanF (t.length + 1) (c :: t) = _
  simp only [selfScanF]
  by_cases hc : c = '<'
  · rw [if_pos hc, if_pos hc]
    by_cases hcond : (t.takeWhile (fun x => x ≠ '>')).length < t.length ∧
        2 ≤ (t.takeWhile (fun x => x ≠ '>')).length ∧
        isNameChar ((t.takeWhile (fun x => x ≠ '>')).headD ' ') ∧
        (t.takeWhile (fun x => x ≠ '>')).getLastD ' ' = '/'
    · rw [if_pos hcond, if_pos hcond]
      congr 1
      exact selfScanF_fuel (by simp only [List.length_drop]; omega) (Nat.le_refl _)
    · rw [if_neg hcond, if_neg hcond]
      rfl
  · rw [if_neg hc, if_neg hc]
    rfl

/-- Fuel-free unfolding of the tag scan. -/
theorem tagScan_cons (c : Char) (t : List Char) :
    tagScan (c :: t) =
      if c = '<' then
        if (t.takeWhile (fun x => x ≠ '>')).length < t.length ∧
            1 ≤ (t.takeWhile (fun x => x ≠ '>')).length ∧
            isNameChar ((t.takeWhile (fun x => x ≠ '>')).headD ' ') then
          match tryNames ((t.takeWhile (fun x => x ≠ '>')).takeWhile isNameChar)
              (t.drop ((t.takeWhile (fun x => x ≠ '>')).length + 1))
              ((t.takeWhile (fun x => x ≠ '>')).takeWhile isNameChar).length with
          | some r => (r.1, r.2.1) :: tagScan r.2.2
          | none => tagScan t
        else tagScan t
      else tagScan t := by
  show tagScanF (t.length + 1) (c :: t) = _
  simp only [tagScanF]
  by_cases hc : c = '<'
  · rw [if_pos hc, if_pos hc]
    by_cases hcond : (t.takeWhile (fun x => x ≠ '>')).length < t.length ∧
        1 ≤ (t.takeWhile (fun x => x ≠ '>')).length ∧
        isNameChar ((t.takeWhile (fun x => x ≠ '>')).headD ' ')
    · rw [if_pos hcond, if_pos hcond]
      cases htr : tryNames ((t.takeWhile (fun x => x ≠ '>')).takeWhile isNameChar)
          (t.drop ((t.takeWhile (fun x => x ≠ '>')).length + 1))
          ((t.takeWhile (fun x => x ≠ '>')).takeWhile isNameChar).length with
      | some r =>
        have hb := (tryNames_bounds htr).2
        have hblen : r.2.2.length ≤ t.length := by
          have : (t.drop ((t.takeWhile (fun x => x ≠ '>')).length + 1)).length ≤ t.length := by
            simp only [List.length_drop]; omega
          omega
        dsimp only
        congr 1
        exact @tagScanF_fuel t.length r.2.2.length r.2.2 (by omega) (Nat.le_refl _)
      | none => rfl
    · rw [if_neg hcond, if_neg hcond]
      rfl
  · rw [if_neg hc, if_neg hc]
    rfl

/-- Dropping a prefix never lengthens a list. -/
theorem dropWhile_length_le (p : Char → Bool) (s : List Char) :
    (s.dropWhile p).length ≤ s.length := by
  induction s with
  | nil => simp
  | cons c t ih =>
    rw [List.dropWhile_cons]
    split
    · simp; omega
    · simp

/-- Trimming never lengthens. -/
theorem jsTrimList_length_le (s : List Char) : (jsTrimList s).length ≤ s.length := by
  unfold jsTrimList
  calc ((s.dropWhile jsWhitespace).reverse.dropWhile jsWhitespace).reverse.length
      = ((s.dropWhile jsWhitespace).reverse.dropWhile jsWhitespace).length := by
        rw [List.length_reverse]
    _ ≤ (s.dropWhile jsWhitespace).reverse.length := dropWhile_length_le _ _
    _ = (s.dropWhile jsWhitespace).length := by rw [List.length_reverse]
    _ ≤ s.length := dropWhile_length_le _ _

/-- Every scanned tag's content is strictly shorter than the scanned
string. -/
theorem tagScanF_content_lt :
    ∀ (fuel : Nat) (s : List Char) (nm : String) (ct : List Char),
      (nm, ct) ∈ tagScanF fuel s → ct.length < s.length := by
  intro fuel
  induction fuel with
  | zero => intro s nm ct h; simp [tagScanF] at h
  | succ n ih =>
    intro s nm ct h
    cases s with
    | nil => simp [tagScanF] at h
    | cons c t =>
      simp only [tagScanF] at h
      by_cases hc : c = '<'
      · rw [if_pos hc] at h
        by_cases hcond : (t.takeWhile (fun x => x ≠ '>')).length < t.length ∧
            1 ≤ (t.takeWhile (fun x => x ≠ '>')).length ∧
            isNameChar ((t.takeWhile (fun x => x ≠ '>')).headD ' ')
        · rw [if_pos hcond] at h
          cases htr : tryNames ((t.takeWhile (fun x => x ≠ '>')).takeWhile isNameChar)
              (t.drop ((t.takeWhile (fun x => x ≠ '>')).length + 1))
              ((t.takeWhile (fun x => x ≠ '>')).takeWhile isNameChar).length with
          | some r =>
            rw [htr] at h
            dsimp only at h
            have hdrop : (t.drop ((t.takeWhile (fun x => x ≠ '>')).length + 1)).length ≤
                t.length := by
              simp only [List.length_drop]; omega
            rcases List.mem_cons.mp h with he | hmem
            · have hb := (tryNames_bounds htr).1
              have : ct = r.2.1 := congrArg Prod.snd he
              subst this
              simp only [List.length_cons]
              omega
            · have := ih r.2.2 nm ct hmem
              have hb := (tryNames_bounds htr).2
              simp only [List.length_cons]
              omega
          | none =>
            rw [htr] at h
            dsimp only at h
            have := ih t nm ct h
            simp only [List.length_cons]
            omega
        · rw [if_neg hcond] at h
          have := ih t nm ct h
          simp only [List.length_cons]
          omega
      · rw [if_neg hc] at h
        have := ih t nm ct h
        simp only [List.length_cons]
        omega

/-- Folds agree when the folding functions agree on the list's
elements. -/
theorem foldl_congr_mem {α β : Type} :
    ∀ (l : List α) (f g : β → α → β) (init : β),
      (∀ acc e, e ∈ l → f acc e = g acc e) → List.foldl f init l = List.foldl g init l := by
  intro l
  induction l with
  | nil => intro f g init _; rfl
  | cons e l ih =>
    intro f g init h
    rw [List.foldl_cons, List.foldl_cons, h init e (by simp)]
    exact ih f g _ (fun acc x hx => h acc x (by simp [hx]))

/-- Fuel irrelevance for `parseNodeF`. -/
theorem parseNodeF_fuel :
    ∀ (n : Nat) (s : List Char), s.length ≤ n → ∀ f1 f2, s.length ≤ f1 → s.length ≤ f2 →
      parseNodeF f1 s = parseNodeF f2 s := by
  intro n
  induction n with
  | zero =>
    intro s hs f1 f2 _ _
    have : s = [] := List.eq_nil_of_length_eq_zero (Nat.le_zero.mp hs)
    subst this
    cases f1 <;> cases f2 <;> simp [parseNodeF, selfScanF, tagScanF]
  | succ n ih =>
    intro s hs f1 f2 h1 h2
    cases s with
    | nil => cases f1 <;> cases f2 <;> simp [parseNodeF, selfScanF, tagScanF]
    | cons c t =>
      have hlen : (c :: t).length = t.length + 1 := by simp
      cases f1 with
      | zero => exact absurd h1 (by simp)
      | succ g1 =>
        cases f2 with
        | zero => exact absurd h2 (by simp)
        | succ g2 =>
          simp only [parseNodeF]
          by_cases hempty : (selfScanF (c :: t).length (c :: t)).isEmpty &&
              (tagScanF (c :: t).length (c :: t)).isEmpty
          · rw [if_pos hempty, if_pos hempty]
          · rw [if_neg hempty, if_neg hempty]
            congr 1
            apply foldl_congr_mem
            intro acc e he
            have hct : e.2.length < (c :: t).length := by
              have : (e.1, e.2) ∈ tagScanF (c :: t).length (c :: t) := by
                simpa using he
              exact tagScanF_content_lt _ _ _ _ this
            have htrim : (jsTrimList e.2).length ≤ e.2.length := jsTrimList_length_le e.2
            simp only [List.length_cons] at hs h1 h2 hct
            by_cases hnest : hasNestedTags (jsTrimList e.2)
            · simp only [hnest, if_true]
              congr 1
              apply ih (jsTrimList e.2) (by omega)
              · omega
              · omega
            · simp only [hnest, if_false]
              rfl

/-- `parseNode` with its canonical fuel. -/
def parseNode (s : List Char) : JVal := parseNodeF s.length s

/-- Fuel-free unfolding of `parseNode`. -/
theorem parseNode_eq (s : List Char) :
    parseNode s =
      if (selfScan s).isEmpty && (tagScan s).isEmpty then .str ⟨s⟩
      else
        .obj ((tagScan s).foldl
          (fun r nc =>
            addTagValue r nc.1
              (if hasNestedTags (jsTrimList nc.2) then parseNode (jsTrimList nc.2)
               else .str ⟨decodeXmlEntitiesList (jsTrimList nc.2)⟩))
          ((selfScan s).foldl (fun r nm => addTagValue r nm (.str "")) [])) := by
  cases s with
  | nil => rfl
  | cons c t =>
    show parseNodeF (t.length + 1) (c :: t) = _
    simp only [parseNodeF]
    by_cases hempty : (selfScanF (c :: t).length (c :: t)).isEmpty &&
        (tagScanF (c :: t).length (c :: t)).isEmpty
    · rw [if_pos hempty, if_pos (show (selfScan (c :: t)).isEmpty &&
        (tagScan (c :: t)).isEmpty by simpa [selfScan, tagScan] using hempty)]
    · rw [if_neg hempty, if_neg (show ¬ ((selfScan (c :: t)).isEmpty &&
        (tagScan (c :: t)).isEmpty) by simpa [selfScan, tagScan] using hempty)]
      show JVal.obj _ = JVal.obj _
      congr 1
      apply foldl_congr_mem
      intro acc e he
      have hct : e.2.length < (c :: t).length := by
        have : (e.1, e.2) ∈ tagScanF (c :: t).length (c :: t) := by simpa using he
        exact tagScanF_content_lt _ _ _ _ this
      have htrim : (jsTrimList e.2).length ≤ e.2.length := jsTrimList_length_le e.2
      by_cases hnest : hasNestedTags (jsTrimList e.2)
      · simp only [hnest, if_true]
        congr 1
        exact parseNodeF_fuel (jsTrimList e.2).length _ (Nat.le_refl _) _ _
          (by simp only [List.length_cons] at hct ⊢; omega) (Nat.le_refl _)
      · simp only [hnest, if_false]
        rfl

/-! ### C8: round trip between the XML builder and the XML parser

The built XML is analysed as a stream of three kinds of tokens: opening
tags, closing tags, and text runs. -/

inductive XTok where
  | openT (n : String)
  | closeT (n : String)
  | txt (s : String)

/-- The characters of one token. -/
def flatTok : XTok → List Char
  | .openT n => '<' :: (n.data ++ ['>'])
  | .closeT n => '<' :: '/' :: (n.data ++ ['>'])
  | .txt s => s.data

/-- The characters of a token stream. -/
def flatToks (ts : List XTok) : List Char := ts.flatMap flatTok

/-- Well-formed tokens: tag names are nonempty runs of name characters,
text runs contain no angle bracket. -/
def wfTok : XTok → Bool
  | .openT n => !n.data.isEmpty && n.data.all isNameChar
  | .closeT n => !n.data.isEmpty && n.data.all isNameChar
  | .txt s => s.data.all (fun c => !(c = '<' || c = '>'))

/-- A usable tag name: not an attribute key, nonempty, and made of name
characters only. -/
def validTag (n : String) : Bool :=
  !(startsWithAtSign n) && !n.data.isEmpty && n.data.all isNameChar

/-- A leaf string survives the decoder's trim and entity pass unchanged:
its escaped form is trim-invariant and decodes back to the original. -/
def goodLeaf (s : String) : Bool :=
  (jsTrimList (escapeXmlList s.data) == escapeXmlList s.data) &&
  (decodeXmlEntitiesList (escapeXmlList s.data) == s.data)

mutual
/-- All tag names closed anywhere inside the rendering of a field
value. -/
def closeNamesV : JVal → List String
  | .str _ => []
  | .null => []
  | .obj fs => closeNamesFields fs
  | .arr l => closeNamesElems l

def closeNamesFields : List (String × JVal) → List String
  | [] => []
  | (k, v) :: rest => k :: (closeNamesV v ++ closeNamesFields rest)

def closeNamesElems : List JVal → List String
  | [] => []
  | v :: vs => closeNamesV v ++ closeNamesElems vs
end

mutual
/-- Values whose rendering the parser inverts: scalar leaves that survive
trim and entity decoding, and nonempty objects of good fields. Arrays are
good only as field values, `null` never (it renders self-closing and
decodes to the empty string). -/
def goodVal : JVal → Bool
  | .str s => goodLeaf s
  | .obj fs => !fs.isEmpty && goodFields fs
  | .arr _ => false
  | .null => false

/-- Good field lists: valid tag names, pairwise distinct keys, each key
fresh for the closing tags inside its own value (the lazy content match
ends at the first same-named closer), and good values. -/
def goodFields : List (String × JVal) → Bool
  | [] => true
  | (k, v) :: rest =>
    validTag k && !(rest.map Prod.fst).contains k &&
    !(closeNamesV v).contains k && goodFieldVal v && goodFields rest

/-- Allowed directly under a field: a good value, or an array of at least
two good elements (a single-element array decodes back to a scalar, the
mixed ambiguity the claim excludes; nested arrays flatten when built). -/
def goodFieldVal : JVal → Bool
  | .arr l => decide (2 ≤ l.length) && goodElems l

  | v => goodVal v

def goodElems : List JVal → Bool
  | [] => true
  | v :: vs => goodVal v && goodElems vs
end

mutual
/-- The tokens of the content between an element's open and close tags. -/
def bodyToks : JVal → List XTok
  | .str s => [.txt (escapeXml s)]
  | .obj fs => fieldToks fs
  | .arr _ => []
  | .null => []

/-- The tokens rendered for a field list (keys starting `@` are skipped,
as in the builder). -/
def fieldToks : List (String × JVal) → List XTok
  | [] => []
  | (k, v) :: rest =>
    (if startsWithAtSign k then [] else valToks k v) ++ fieldToks rest

/-- The tokens rendered for one field value under its key: an array
repeats the element per item, anything else is a single element. -/
def valToks (k : String) : JVal → List XTok
  | .arr l => arrToks k l
  | v => .openT k :: (bodyToks v ++ [.closeT k])

def arrToks (k : String) : List JVal → List XTok
  | [] => []
  | v :: vs => (.openT k :: (bodyToks v ++ [.closeT k])) ++ arrToks k vs
end

/-- The per-element `(key, value)` pairs a field list renders: one pair
per field, except arrays which contribute one pair per item. This is the
order the tag scan meets them in. -/
def elemVals : List (String × JVal) → List (String × JVal)
  | [] => []
  | (k, .arr l) :: rest => l.map (fun v => (k, v)) ++ elemVals rest
  | (k, v) :: rest => (k, v) :: elemVals rest

/-- The same elements with their bodies rendered to tokens. -/
def elemBodies (fs : List (String × JVal)) : List (String × List XTok) :=
  (elemVals fs).map (fun p => (p.1, bodyToks p.2))

/-- Flattening a list of `(name, body)` elements into a token stream. -/
def flatElems (es : List (String × List XTok)) : List XTok :=
  es.flatMap (fun e => .openT e.1 :: (e.2 ++ [.closeT e.1]))

mutual
/-- A size measure for strong induction through the nested structure. -/
def msizeV : JVal → Nat
  | .str _ => 1
  | .null => 1
  | .obj fs => msizeF fs + 1
  | .arr l => msizeE l + 1

def msizeF : List (String × JVal) → Nat
  | [] => 0
  | (_, v) :: rest => msizeV v + msizeF rest + 1

def msizeE : List JVal → Nat
  | [] => 0
  | v :: vs => msizeV v + msizeE vs + 1
end

/-- The value computed for one matched element's raw content (the body of
the `tagRegex` loop, lines 233–249). -/
def parseContent (raw : List Char) : JVal :=
  if hasNestedTags (jsTrimList raw) then parseNode (jsTrimList raw)
  else .str ⟨decodeXmlEntitiesList (jsTrimList raw)⟩

/-- A take over an all-true block is the block itself. -/
theorem takeWhile_all {p : Char → Bool} :
    ∀ {l : List Char}, (∀ c ∈ l, p c = true) → l.takeWhile p = l := by
  intro l
  induction l with
  | nil => intro _; rfl
  | cons c t ih =>
    intro h
    rw [List.takeWhile_cons, if_pos (h c (by simp))]
    rw [ih (fun x hx => h x (by simp [hx]))]

/-- A take stops exactly at the first failing character. -/
theorem takeWhile_block {p : Char → Bool} :
    ∀ (xs : List Char) (b : Char) (r : List Char), (∀ c ∈ xs, p c = true) →
      p b = false → (xs ++ b :: r).takeWhile p = xs := by
  intro xs
  induction xs with
  | nil =>
    intro b r _ hb
    rw [List.nil_append, List.takeWhile_cons, if_neg (by simp [hb])]
  | cons c t ih =>
    intro b r h hb
    rw [List.cons_append, List.takeWhile_cons, if_pos (h c (by simp))]
    rw [ih b r (fun x hx => h x (by simp [hx])) hb]

/-- Dropping one past a block lands right after its delimiter. -/
theorem drop_block (xs : List Char) (b : Char) (r : List Char) :
    (xs ++ b :: r).drop (xs.length + 1) = r := by
  have : xs ++ b :: r = (xs ++ [b]) ++ r := by simp
  rw [this]
  have hl : (xs ++ [b]).length = xs.length + 1 := by simp
  rw [← hl, List.drop_left]

/-- `getLastD` of a nonempty list is one of its elements. -/
theorem getLastD_mem : ∀ (l : List Char) (d : Char), l ≠ [] → l.getLastD d ∈ l := by
  intro l
  induction l with
  | nil => intro d h; exact absurd rfl h
  | cons c t ih =>
    intro d _
    cases t with
    | nil => simp [List.getLastD]
    | cons e u =>
      have h2 := ih c (by simp)
      have he : (c :: e :: u).getLastD d = (e :: u).getLastD c := rfl
      rw [he]
      exact List.mem_cons_of_mem c h2

/-- A drop cannot erase an element the predicate rejects. -/
theorem dropWhile_ne_nil_of_mem {p : Char → Bool} :
    ∀ {l : List Char} {c : Char}, c ∈ l → p c = false → l.dropWhile p ≠ [] := by
  intro l
  induction l with
  | nil => intro c h; simp at h
  | cons a t ih =>
    intro c hm hc
    rw [List.dropWhile_cons]
    by_cases ha : p a = true
    · rw [if_pos ha]
      rcases List.mem_cons.mp hm with rfl | hm'
      · rw [ha] at hc; cases hc
      · exact ih hm' hc
    · rw [if_neg ha]
      simp

/-- Trimming keeps a string whose first and last characters are not
whitespace. -/
theorem jsTrimList_sandwich (c d : Char) (xs : List Char)
    (hc : jsWhitespace c = false) (hd : jsWhitespace d = false) :
    jsTrimList (c :: (xs ++ [d])) = c :: (xs ++ [d]) := by
  unfold jsTrimList
  rw [List.dropWhile_cons, if_neg (by simp [hc])]
  have hrev : (c :: (xs ++ [d])).reverse = d :: (xs.reverse ++ [c]) := by
    simp
  rw [hrev, List.dropWhile_cons, if_neg (by simp [hd]), ← hrev, List.reverse_reverse]

/-- A drop keeps every element the predicate rejects. -/
theorem mem_dropWhile_of_not {p : Char → Bool} :
    ∀ {l : List Char} {c : Char}, c ∈ l → p c = false → c ∈ l.dropWhile p := by
  intro l
  induction l with
  | nil => intro c h; simp at h
  | cons a t ih =>
    intro c hm hc
    rw [List.dropWhile_cons]
    by_cases ha : p a = true
    · rw [if_pos ha]
      rcases List.mem_cons.mp hm with rfl | hm'
      · rw [ha] at hc; cases hc
      · exact ih hm' hc
    · rw [if_neg ha]
      exact hm

/-- Trimming keeps something whenever a non-whitespace character is
present. -/
theorem jsTrimList_ne_nil {c : Char} {l : List Char} (hm : c ∈ l)
    (hc : jsWhitespace c = false) : jsTrimList l ≠ [] := by
  unfold jsTrimList
  intro h
  have h1 : (l.dropWhile jsWhitespace).reverse.dropWhile jsWhitespace = [] := by
    have := congrArg List.reverse h
    simpa using this
  have h2 : c ∈ (l.dropWhile jsWhitespace).reverse :=
    List.mem_reverse.mpr (mem_dropWhile_of_not hm hc)
  exact dropWhile_ne_nil_of_mem h2 hc h1

/-- The nested-tag test fires on an opening tag at the front. -/
theorem hasNestedTags_front (c2 : Char) (r : List Char) (h2 : isNameChar c2 = true)
    (hr : '>' ∈ r) : hasNestedTags ('<' :: c2 :: r) = true := by
  simp only [hasNestedTags]
  simp [h2]
  exact Or.inl hr

/-- The nested-tag test needs an opening bracket. -/
theorem hasNestedTags_no_lt : ∀ (l : List Char), (∀ c ∈ l, ¬c = '<') →
    hasNestedTags l = false := by
  intro l
  induction l with
  | nil => intro _; rfl
  | cons c t ih =>
    intro h
    cases t with
    | nil => rfl
    | cons c2 r =>
      simp only [hasNestedTags]
      have hc : ¬c = '<' := h c (by simp)
      have ht := ih (fun x hx => h x (by simp [hx]))
      simp only [hasNestedTags] at ht
      simp [hc, ht]

/-- Entity escaping emits no angle bracket. -/
theorem escape_no_angle {s : List Char} : ∀ c ∈ escapeXmlList s, ¬(c = '<' ∨ c = '>') := by
  intro c hc
  rw [escapeXmlList_eq_flatMap] at hc
  rcases List.mem_flatMap.mp hc with ⟨a, _, hca⟩
  unfold tokE at hca
  split_ifs at hca with h1 h2 h3 h4 h5
  · fin_cases hca <;> decide
  · fin_cases hca <;> decide
  · fin_cases hca <;> decide
  · fin_cases hca <;> decide
  · fin_cases hca <;> decide
  · have : c = a := by simpa using hca
    subst this
    rintro (rfl | rfl)
    · exact h2 rfl
    · exact h3 rfl

/-- A pattern at the very front splits with an empty prefix. -/
theorem splitFirst_self {pat rest : List Char} (h : pat ≠ []) :
    splitFirstList pat (pat ++ rest) = some ([], rest) := by
  cases pat with
  | nil => exact absurd rfl h
  | cons p ps =>
    rw [List.cons_append]
    simp only [splitFirstList]
    rw [if_pos ⟨h, List.isPrefixOf_iff_prefix.mpr ⟨rest, by simp⟩⟩]
    have : (p :: (ps ++ rest)).drop (p :: ps).length = rest := by
      rw [← List.cons_append, List.drop_left]
    rw [this]

/-- The search walks over characters that cannot start a match. -/
theorem splitFirst_skip_chars {p' : List Char} :
    ∀ (xs s : List Char), (∀ c ∈ xs, ¬c = '<') →
      splitFirstList ('<' :: p') (xs ++ s) =
        (splitFirstList ('<' :: p') s).map (fun q => (xs ++ q.1, q.2)) := by
  intro xs
  induction xs with
  | nil =>
    intro s _
    rw [List.nil_append]
    cases h : splitFirstList ('<' :: p') s <;> simp [h]
  | cons c t ih =>
    intro s h
    rw [List.cons_append]
    have hc : ¬(('<' :: p') ≠ [] ∧ ('<' :: p').isPrefixOf (c :: (t ++ s))) := by
      rintro ⟨-, hp⟩
      have := (List.cons_prefix_cons.mp (List.isPrefixOf_iff_prefix.mp hp)).1
      exact h c (by simp) this.symm
    simp only [splitFirstList]
    rw [if_neg hc, ih s (fun x hx => h x (by simp [hx]))]
    cases hs : splitFirstList ('<' :: p') s <;> simp [hs]

/-- Two distinct tag names never confuse the closing-tag search: the one
closer pattern is not a prefix at the other closer. -/
theorem name_closer_no_prefix :
    ∀ (k m : List Char), (∀ c ∈ k, isNameChar c = true) → (∀ c ∈ m, isNameChar c = true) →
      k ≠ m → ∀ s, ¬(k ++ ['>']).isPrefixOf (m ++ '>' :: s) := by
  intro k
  induction k with
  | nil =>
    intro m _ hm hne s hp
    cases m with
    | nil => exact hne rfl
    | cons c m' =>
      rw [List.nil_append] at hp
      have := (List.cons_prefix_cons.mp (List.isPrefixOf_iff_prefix.mp hp)).1
      have hc := hm c (by simp)
      rw [← this] at hc
      exact absurd hc (by decide)
  | cons a k' ih =>
    intro m hk hm hne s hp
    cases m with
    | nil =>
      rw [List.cons_append] at hp
      have := (List.cons_prefix_cons.mp (List.isPrefixOf_iff_prefix.mp hp)).1
      have ha := hk a (by simp)
      rw [this] at ha
      exact absurd ha (by decide)
    | cons c m' =>
      rw [List.cons_append, List.cons_append] at hp
      obtain ⟨hac, hrest⟩ := List.cons_prefix_cons.mp (List.isPrefixOf_iff_prefix.mp hp)
      subst hac
      have hne' : k' ≠ m' := by
        intro hh
        exact hne (by rw [hh])
      exact ih m' (fun x hx => hk x (by simp [hx])) (fun x hx => hm x (by simp [hx]))
        hne' s (List.isPrefixOf_iff_prefix.mpr hrest)

/-- The closing-tag search steps over one whole non-matching token. -/
theorem splitFirst_skip_tok {k : List Char} (hk : k ≠ [])
    (hkc : ∀ c ∈ k, isNameChar c = true) (tok : XTok) (hw : wfTok tok = true)
    (hcl : ∀ m, tok = XTok.closeT m → m.data ≠ k) (s : List Char) :
    splitFirstList ('<' :: '/' :: (k ++ ['>'])) (flatTok tok ++ s) =
      (splitFirstList ('<' :: '/' :: (k ++ ['>'])) s).map
        (fun q => (flatTok tok ++ q.1, q.2)) := by
  cases tok with
  | txt t =>
    show splitFirstList _ (t.data ++ s) = _
    have hnl : ∀ c ∈ t.data, ¬c = '<' := by
      intro c hcm hlt
      have := List.all_eq_true.mp hw c hcm
      subst hlt
      simp at this
    exact splitFirst_skip_chars t.data s hnl
  | openT n =>
    have hn : n.data ≠ [] ∧ ∀ c ∈ n.data, isNameChar c = true := by
      simp only [wfTok, Bool.and_eq_true, Bool.not_eq_true'] at hw
      exact ⟨by simpa using hw.1, List.all_eq_true.mp hw.2⟩
    show splitFirstList _ (('<' :: (n.data ++ ['>'])) ++ s) = _
    rw [List.cons_append]
    have hpre : ¬(('<' :: '/' :: (k ++ ['>'])) ≠ [] ∧
        ('<' :: '/' :: (k ++ ['>'])).isPrefixOf ('<' :: ((n.data ++ ['>']) ++ s))) := by
      rintro ⟨-, hp⟩
      have h2 := (List.cons_prefix_cons.mp (List.isPrefixOf_iff_prefix.mp hp)).2
      cases hd : n.data with
      | nil => exact hn.1 hd
      | cons c n' =>
        rw [hd, List.cons_append, List.cons_append] at h2
        have := (List.cons_prefix_cons.mp h2).1
        have hc := hn.2 c (by rw [hd]; simp)
        rw [← this] at hc
        exact absurd hc (by decide)
    simp only [splitFirstList]
    rw [if_neg hpre]
    have hblock : ∀ c ∈ n.data ++ ['>'], ¬c = '<' := by
      intro c hcm hlt
      rcases List.mem_append.mp hcm with hcm | hcm
      · have := hn.2 c hcm
        rw [hlt] at this
        exact absurd this (by decide)
      · simp at hcm
        rw [hcm] at hlt
        cases hlt
    rw [splitFirst_skip_chars (n.data ++ ['>']) s hblock]
    cases hs : splitFirstList ('<' :: '/' :: (k ++ ['>'])) s <;>
      simp [hs, flatTok, List.append_assoc]
  | closeT n =>
    have hn : n.data ≠ [] ∧ ∀ c ∈ n.data, isNameChar c = true := by
      simp only [wfTok, Bool.and_eq_true, Bool.not_eq_true'] at hw
      exact ⟨by simpa using hw.1, List.all_eq_true.mp hw.2⟩
    have hnk : n.data ≠ k := hcl n rfl
    show splitFirstList _ (('<' :: '/' :: (n.data ++ ['>'])) ++ s) = _
    rw [List.cons_append, List.cons_append]
    have hpre : ¬(('<' :: '/' :: (k ++ ['>'])) ≠ [] ∧
        ('<' :: '/' :: (k ++ ['>'])).isPrefixOf ('<' :: '/' :: ((n.data ++ ['>']) ++ s))) := by
      rintro ⟨-, hp⟩
      have h2 := (List.cons_prefix_cons.mp (List.isPrefixOf_iff_prefix.mp hp)).2
      have h3 := (List.cons_prefix_cons.mp h2).2
      have h4 : (k ++ ['>']).isPrefixOf (n.data ++ '>' :: s) := by
        rw [List.append_cons] at h3 ⊢
        exact List.isPrefixOf_iff_prefix.mpr (by simpa using h3)
      exact name_closer_no_prefix k n.data hkc hn.2 (fun hh => hnk hh.symm) s h4
    simp only [splitFirstList]
    rw [if_neg hpre]
    have hpre2 : ¬(('<' :: '/' :: (k ++ ['>'])) ≠ [] ∧
        ('<' :: '/' :: (k ++ ['>'])).isPrefixOf ('/' :: ((n.data ++ ['>']) ++ s))) := by
      rintro ⟨-, hp⟩
      have := (List.cons_prefix_cons.mp (List.isPrefixOf_iff_prefix.mp hp)).1
      cases this
    rw [if_neg hpre2]
    have hblock : ∀ c ∈ n.data ++ ['>'], ¬c = '<' := by
      intro c hcm hlt
      rcases List.mem_append.mp hcm with hcm | hcm
      · have := hn.2 c hcm
        rw [hlt] at this
        exact absurd this (by decide)
      · simp at hcm
        rw [hcm] at hlt
        cases hlt
    rw [splitFirst_skip_chars (n.data ++ ['>']) s hblock]
    cases hs : splitFirstList ('<' :: '/' :: (k ++ ['>'])) s <;>
      simp [hs, flatTok, List.append_assoc]

/-- The first occurrence of a closing tag after a token stream free of that
closer is exactly the closer itself. -/
theorem splitFirst_closer {k : List Char} (hk : k ≠ [])
    (hkc : ∀ c ∈ k, isNameChar c = true) :
    ∀ (ts : List XTok), (∀ t ∈ ts, wfTok t = true) →
      (∀ m, XTok.closeT m ∈ ts → m.data ≠ k) → ∀ rest,
      splitFirstList ('<' :: '/' :: (k ++ ['>']))
          (flatToks ts ++ (('<' :: '/' :: (k ++ ['>'])) ++ rest)) =
        some (flatToks ts, rest) := by
  intro ts
  induction ts with
  | nil =>
    intro _ _ rest
    show splitFirstList _ ([] ++ _) = _
    rw [List.nil_append]
    exact splitFirst_self (by simp)
  | cons tok ts' ih =>
    intro hw hcl rest
    have hflat : flatToks (tok :: ts') = flatTok tok ++ flatToks ts' := by
      simp [flatToks]
    rw [hflat, List.append_assoc]
    rw [splitFirst_skip_tok hk hkc tok (hw tok (by simp))
      (fun m hm => hcl m (by rw [← hm]; simp)) _]
    rw [ih (fun t ht => hw t (by simp [ht])) (fun m hm => hcl m (by simp [hm])) rest]
    simp

/-- The backtracking name search succeeds immediately on the full name
when its closer occurs. -/
theorem tryNames_full {m after pre post : List Char} (hm : m ≠ [])
    (h : splitFirstList ('<' :: '/' :: (m ++ ['>'])) after = some (pre, post)) :
    tryNames m after m.length = some (⟨m⟩, pre, post) := by
  cases m with
  | nil => exact absurd rfl hm
  | cons a m' =>
    show tryNames (a :: m') after (m'.length + 1) = _
    simp only [tryNames]
    have ht : (a :: m').take (m'.length + 1) = a :: m' := by
      have : (a :: m').length = m'.length + 1 := by simp
      rw [← this, List.take_length]
    rw [ht, h]

/-- The tag scan steps over characters that are not `<`. -/
theorem tagScan_skip_chars : ∀ (xs s : List Char), (∀ c ∈ xs, ¬c = '<') →
    tagScan (xs ++ s) = tagScan s := by
  intro xs
  induction xs with
  | nil => intro s _; rw [List.nil_append]
  | cons c t ih =>
    intro s h
    rw [List.cons_append, tagScan_cons, if_neg (h c (by simp))]
    exact ih s (fun x hx => h x (by simp [hx]))

/-- The self-closing scan steps over characters that are not `<`. -/
theorem selfScan_skip_chars : ∀ (xs s : List Char), (∀ c ∈ xs, ¬c = '<') →
    selfScan (xs ++ s) = selfScan s := by
  intro xs
  induction xs with
  | nil => intro s _; rw [List.nil_append]
  | cons c t ih =>
    intro s h
    rw [List.cons_append, selfScan_cons, if_neg (h c (by simp))]
    exact ih s (fun x hx => h x (by simp [hx]))

/-- Name characters are not `<`, `>`, `/` or `?`. -/
theorem isNameChar_excl {c : Char} (h : isNameChar c = true) :
    ¬c = '<' ∧ ¬c = '>' ∧ ¬c = '/' ∧ ¬c = '?' := by
  refine ⟨?_, ?_, ?_, ?_⟩ <;> intro hh <;> rw [hh] at h <;> exact absurd h (by decide)

/-- A well-formed token stream contains no self-closing match: opening
tags do not end in `/`, closing tags do not start with a name character,
and text holds no bracket at all. -/
theorem selfScan_toks : ∀ (ts : List XTok), (∀ t ∈ ts, wfTok t = true) →
    selfScan (flatToks ts) = [] := by
  intro ts
  induction ts with
  | nil => intro _; rfl
  | cons tok ts' ih =>
    intro hw
    have hw0 := hw tok (by simp)
    have hwr : ∀ t ∈ ts', wfTok t = true := fun t ht => hw t (by simp [ht])
    have hflat : flatToks (tok :: ts') = flatTok tok ++ flatToks ts' := by
      simp [flatToks]
    rw [hflat]
    cases tok with
    | txt t =>
      have hnl : ∀ c ∈ flatTok (XTok.txt t), ¬c = '<' := by
        intro c hcm
        have := List.all_eq_true.mp hw0 c hcm
        intro hlt
        rw [hlt] at this
        exact absurd this (by decide)
      rw [selfScan_skip_chars _ _ hnl]
      exact ih hwr
    | openT n =>
      have hn : n.data ≠ [] ∧ ∀ c ∈ n.data, isNameChar c = true := by
        simp only [wfTok, Bool.and_eq_true, Bool.not_eq_true'] at hw0
        exact ⟨by simpa using hw0.1, List.all_eq_true.mp hw0.2⟩
      have hsh : flatTok (XTok.openT n) ++ flatToks ts' =
          '<' :: (n.data ++ '>' :: flatToks ts') := by
        simp [flatTok]
      rw [hsh, selfScan_cons, if_pos rfl]
      have hseg : (n.data ++ '>' :: flatToks ts').takeWhile (fun x => x ≠ '>') = n.data := by
        apply takeWhile_block
        · intro c hc
          simpa using (isNameChar_excl (hn.2 c hc)).2.1
        · simp
      rw [hseg]
      have hcond : ¬(n.data.length < (n.data ++ '>' :: flatToks ts').length ∧
          2 ≤ n.data.length ∧ isNameChar (n.data.headD ' ') ∧
          n.data.getLastD ' ' = '/') := by
        rintro ⟨-, -, -, hD⟩
        have hmem := getLastD_mem n.data ' ' hn.1
        have hnc := hn.2 _ hmem
        rw [hD] at hnc
        exact absurd hnc (by decide)
      rw [if_neg hcond]
      have hnl : ∀ c ∈ n.data ++ ['>'], ¬c = '<' := by
        intro c hc
        rcases List.mem_append.mp hc with hc | hc
        · exact (isNameChar_excl (hn.2 c hc)).1
        · simp at hc
          rw [hc]
          decide
      have hsplit : n.data ++ '>' :: flatToks ts' = (n.data ++ ['>']) ++ flatToks ts' := by
        simp
      rw [hsplit, selfScan_skip_chars _ _ hnl]
      exact ih hwr
    | closeT n =>
      have hn : n.data ≠ [] ∧ ∀ c ∈ n.data, isNameChar c = true := by
        simp only [wfTok, Bool.and_eq_true, Bool.not_eq_true'] at hw0
        exact ⟨by simpa using hw0.1, List.all_eq_true.mp hw0.2⟩
      have hsh : flatTok (XTok.closeT n) ++ flatToks ts' =
          '<' :: ('/' :: (n.data ++ '>' :: flatToks ts')) := by
        simp [flatTok]
      rw [hsh, selfScan_cons, if_pos rfl]
      have hseg : ('/' :: (n.data ++ '>' :: flatToks ts')).takeWhile (fun x => x ≠ '>') =
          '/' :: n.data := by
        have hsp : '/' :: (n.data ++ '>' :: flatToks ts') =
            ('/' :: n.data) ++ '>' :: flatToks ts' := by simp
        rw [hsp]
        apply takeWhile_block
        · intro c hc
          rcases List.mem_cons.mp hc with rfl | hc
          · decide
          · simpa using (isNameChar_excl (hn.2 c hc)).2.1
        · simp
      rw [hseg]
      have hcond : ¬(('/' :: n.data).length <
          ('/' :: (n.data ++ '>' :: flatToks ts')).length ∧
          2 ≤ ('/' :: n.data).length ∧ isNameChar (('/' :: n.data).headD ' ') ∧
          ('/' :: n.data).getLastD ' ' = '/') := by
        rintro ⟨-, -, hC, -⟩
        simp only [List.headD_cons] at hC
        exact absurd hC (by decide)
      rw [if_neg hcond]
      have hnl : ∀ c ∈ '/' :: (n.data ++ ['>']), ¬c = '<' := by
        intro c hc
        rcases List.mem_cons.mp hc with rfl | hc
        · decide
        · rcases List.mem_append.mp hc with hc | hc
          · exact (isNameChar_excl (hn.2 c hc)).1
          · simp at hc
            rw [hc]
            decide
      have hsplit : '/' :: (n.data ++ '>' :: flatToks ts') =
          ('/' :: (n.data ++ ['>'])) ++ flatToks ts' := by
        simp
      rw [hsplit, selfScan_skip_chars _ _ hnl]
      exact ih hwr

/-- A scannable element: a valid tag name, well-formed body tokens, and no
same-named closing tag inside the body. -/
def elemWf (e : String × List XTok) : Prop :=
  validTag e.1 = true ∧ (∀ t ∈ e.2, wfTok t = true) ∧
  ∀ m, XTok.closeT m ∈ e.2 → ¬m = e.1

/-- The tag scan over a rendered element stream yields exactly the
elements, each paired with its flattened body. -/
theorem tagScan_elems : ∀ (es : List (String × List XTok)), (∀ e ∈ es, elemWf e) →
    tagScan (flatToks (flatElems es)) = es.map (fun e => (e.1, flatToks e.2)) := by
  intro es
  induction es with
  | nil => intro _; rfl
  | cons e es' ih =>
    obtain ⟨k, b⟩ := e
    intro hwf
    obtain ⟨hkv, hbw, hbc⟩ := hwf (k, b) (by simp)
    have hkd : k.data ≠ [] ∧ ∀ c ∈ k.data, isNameChar c = true := by
      simp only [validTag, Bool.and_eq_true, Bool.not_eq_true'] at hkv
      exact ⟨by simpa using hkv.1.2, List.all_eq_true.mp hkv.2⟩
    have hshape : flatToks (flatElems ((k, b) :: es')) =
        '<' :: (k.data ++ '>' :: (flatToks b ++
          (('<' :: '/' :: (k.data ++ ['>'])) ++ flatToks (flatElems es')))) := by
      simp [flatElems, flatToks, flatTok, List.append_assoc]
    rw [hshape, tagScan_cons, if_pos rfl]
    have hseg : (k.data ++ '>' :: (flatToks b ++
        (('<' :: '/' :: (k.data ++ ['>'])) ++ flatToks (flatElems es')))).takeWhile
          (fun x => x ≠ '>') = k.data := by
      apply takeWhile_block
      · intro c hc
        simpa using (isNameChar_excl (hkd.2 c hc)).2.1
      · simp
    rw [hseg]
    have hcond : k.data.length < (k.data ++ '>' :: (flatToks b ++
        (('<' :: '/' :: (k.data ++ ['>'])) ++ flatToks (flatElems es')))).length ∧
        1 ≤ k.data.length ∧ isNameChar (k.data.headD ' ') := by
      obtain ⟨c0, kd', hkdeq⟩ := List.exists_cons_of_ne_nil hkd.1
      refine ⟨by simp, by rw [hkdeq]; simp, ?_⟩
      rw [hkdeq]
      simp only [List.headD_cons]
      exact hkd.2 c0 (by rw [hkdeq]; simp)
    rw [if_pos hcond]
    have htake : k.data.takeWhile isNameChar = k.data := takeWhile_all hkd.2
    have hdrop : (k.data ++ '>' :: (flatToks b ++
        (('<' :: '/' :: (k.data ++ ['>'])) ++ flatToks (flatElems es')))).drop
          (k.data.length + 1) =
        flatToks b ++ (('<' :: '/' :: (k.data ++ ['>'])) ++ flatToks (flatElems es')) :=
      drop_block _ _ _
    have hsplit := splitFirst_closer hkd.1 hkd.2 b hbw
      (fun m hm hd => hbc m hm (by cases m; cases k; simp only at hd; rw [hd]))
      (flatToks (flatElems es'))
    have htr := tryNames_full hkd.1 hsplit
    rw [htake, hdrop, htr]
    show (k, flatToks b) :: tagScan (flatToks (flatElems es')) = _
    rw [List.map_cons]
    exact congrArg _ (ih (fun x hx => hwf x (by simp [hx])))

/-- No `<` directly followed by `?` anywhere: the XML-declaration pattern
cannot fire. -/
def noLtQ : List Char → Bool
  | [] => true
  | [_] => true
  | c :: d :: r => !(c = '<' && d = '?') && noLtQ (d :: r)

/-- Without a `<?` pair the declaration strip is the identity. -/
theorem stripXmlDeclF_id : ∀ (fuel : Nat) (s : List Char), noLtQ s = true →
    stripXmlDeclF fuel s = s := by
  intro fuel
  induction fuel with
  | zero => intro s _; cases s <;> rfl
  | succ n ih =>
    intro s hs
    cases s with
    | nil => rfl
    | cons c t =>
      have hnp : ¬("<?xml".data.isPrefixOf (c :: t) = true) := by
        intro hp
        have hp' := List.isPrefixOf_iff_prefix.mp hp
        have hd : "<?xml".data = '<' :: '?' :: "xml".data := rfl
        rw [hd] at hp'
        obtain ⟨hc, hp2⟩ := List.cons_prefix_cons.mp hp'
        cases t with
        | nil => simp at hp2
        | cons d r =>
          obtain ⟨hdq, -⟩ := List.cons_prefix_cons.mp hp2
          subst hc
          subst hdq
          simp [noLtQ] at hs
      simp only [stripXmlDeclF]
      rw [if_neg hnp]
      have ht : noLtQ t = true := by
        cases t with
        | nil => rfl
        | cons d r =>
          simp only [noLtQ, Bool.and_eq_true] at hs
          exact hs.2
      rw [ih t ht]

/-- Prepending match-free characters preserves match-freedom. -/
theorem noLtQ_append : ∀ (xs s : List Char), (∀ c ∈ xs, ¬c = '<') → noLtQ s = true →
    noLtQ (xs ++ s) = true := by
  intro xs
  induction xs with
  | nil => intro s _ hs; simpa using hs
  | cons c t ih =>
    intro s h hs
    have hrest := ih s (fun x hx => h x (by simp [hx])) hs
    rw [List.cons_append]
    cases hts : t ++ s with
    | nil => rfl
    | cons d r =>
      rw [hts] at hrest
      simp only [noLtQ, Bool.and_eq_true]
      refine ⟨?_, hrest⟩
      have := h c (by simp)
      simp [this]

/-- A well-formed token stream never contains the `<?` pair. -/
theorem noLtQ_flat : ∀ (ts : List XTok), (∀ t ∈ ts, wfTok t = true) →
    noLtQ (flatToks ts) = true := by
  intro ts
  induction ts with
  | nil => intro _; rfl
  | cons tok ts' ih =>
    intro hw
    have hw0 := hw tok (by simp)
    have hrest := ih (fun t ht => hw t (by simp [ht]))
    have hflat : flatToks (tok :: ts') = flatTok tok ++ flatToks ts' := by
      simp [flatToks]
    rw [hflat]
    cases tok with
    | txt t =>
      apply noLtQ_append _ _ _ hrest
      intro c hcm
      have := List.all_eq_true.mp hw0 c hcm
      intro hlt
      rw [hlt] at this
      exact absurd this (by decide)
    | openT n =>
      have hn : n.data ≠ [] ∧ ∀ c ∈ n.data, isNameChar c = true := by
        simp only [wfTok, Bool.and_eq_true, Bool.not_eq_true'] at hw0
        exact ⟨by simpa using hw0.1, List.all_eq_true.mp hw0.2⟩
      obtain ⟨c0, kd', hkdeq⟩ := List.exists_cons_of_ne_nil hn.1
      have hsh : flatTok (XTok.openT n) ++ flatToks ts' =
          '<' :: c0 :: (kd' ++ '>' :: flatToks ts') := by
        simp [flatTok, hkdeq]
      rw [hsh]
      simp only [noLtQ, Bool.and_eq_true]
      constructor
      · have := (isNameChar_excl (hn.2 c0 (by rw [hkdeq]; simp))).2.2.2
        simp [this]
      · have hblock : ∀ c ∈ c0 :: (kd' ++ ['>']), ¬c = '<' := by
          intro c hc
          rcases List.mem_cons.mp hc with h0 | hc
          · rw [h0]
            exact (isNameChar_excl (hn.2 c0 (by rw [hkdeq]; simp))).1
          · rcases List.mem_append.mp hc with hc | hc
            · exact (isNameChar_excl (hn.2 c (by rw [hkdeq]; simp [hc]))).1
            · simp at hc
              rw [hc]
              decide
        have hsp : c0 :: (kd' ++ '>' :: flatToks ts') =
            (c0 :: (kd' ++ ['>'])) ++ flatToks ts' := by simp
        rw [hsp]
        exact noLtQ_append _ _ hblock hrest
    | closeT n =>
      have hn : n.data ≠ [] ∧ ∀ c ∈ n.data, isNameChar c = true := by
        simp only [wfTok, Bool.and_eq_true, Bool.not_eq_true'] at hw0
        exact ⟨by simpa using hw0.1, List.all_eq_true.mp hw0.2⟩
      have hsh : flatTok (XTok.closeT n) ++ flatToks ts' =
          '<' :: '/' :: (n.data ++ '>' :: flatToks ts') := by
        simp [flatTok]
      rw [hsh]
      simp only [noLtQ, Bool.and_eq_true]
      refine ⟨by decide, ?_⟩
      have hblock : ∀ c ∈ '/' :: (n.data ++ ['>']), ¬c = '<' := by
        intro c hc
        rcases List.mem_cons.mp hc with rfl | hc
        · decide
        · rcases List.mem_append.mp hc with hc | hc
          · exact (isNameChar_excl (hn.2 c hc)).1
          · simp at hc
            rw [hc]
            decide
      have hsp : '/' :: (n.data ++ '>' :: flatToks ts') =
          ('/' :: (n.data ++ ['>'])) ++ flatToks ts' := by simp
      rw [hsp]
      exact noLtQ_append _ _ hblock hrest

/-- One strip step consumes exactly the generated XML declaration. -/
theorem stripDecl_step (f : Nat) (body : List Char) :
    stripXmlDeclF (f + 1)
        ("<?xml version=\"1.0\" encoding=\"UTF-8\"?>".data ++ body) =
      stripXmlDeclF f body := by
  have hsplitDecl : "<?xml version=\"1.0\" encoding=\"UTF-8\"?>".data =
      "<?xml".data ++ (" version=\"1.0\" encoding=\"UTF-8\"".data ++ ['?', '>']) := by
    decide
  rw [hsplitDecl]
  have hcons : ("<?xml".data ++ (" version=\"1.0\" encoding=\"UTF-8\"".data ++
      ['?', '>'])) ++ body =
      '<' :: ('?' :: 'x' :: 'm' :: 'l' ::
        (" version=\"1.0\" encoding=\"UTF-8\"".data ++ '?' :: '>' :: body)) := by
    simp
  rw [hcons]
  simp only [stripXmlDeclF]
  rw [if_pos ?hpre]
  case hpre =>
    apply List.isPrefixOf_iff_prefix.mpr
    exact ⟨" version=\"1.0\" encoding=\"UTF-8\"".data ++ '?' :: '>' :: body, rfl⟩
  have hdrop5 : ('<' :: ('?' :: 'x' :: 'm' :: 'l' ::
      (" version=\"1.0\" encoding=\"UTF-8\"".data ++ '?' :: '>' :: body))).drop 5 =
      " version=\"1.0\" encoding=\"UTF-8\"".data ++ '?' :: '>' :: body := rfl
  rw [hdrop5]
  have hseg : (" version=\"1.0\" encoding=\"UTF-8\"".data ++
      '?' :: '>' :: body).takeWhile (fun x => x ≠ '?') =
      " version=\"1.0\" encoding=\"UTF-8\"".data := by
    apply takeWhile_block
    · decide
    · simp
  rw [hseg]
  have hdropseg : (" version=\"1.0\" encoding=\"UTF-8\"".data ++
      '?' :: '>' :: body).drop
        (" version=\"1.0\" encoding=\"UTF-8\"".data).length =
      '?' :: '>' :: body := List.drop_left _ _
  rw [hdropseg]
  rfl

/-- A new key joins the end of the accumulated result. -/
theorem addTagValue_notmem : ∀ (acc : List (String × JVal)) (k : String) (v : JVal),
    ¬k ∈ acc.map Prod.fst → addTagValue acc k v = acc ++ [(k, v)] := by
  intro acc
  induction acc with
  | nil => intro k v _; rfl
  | cons p acc' ih =>
    obtain ⟨k0, v0⟩ := p
    intro k v hm
    have hk0 : ¬k0 = k := by
      intro hh
      exact hm (by simp [hh])
    simp only [addTagValue]
    rw [if_neg hk0, ih k v (fun hh => hm (by simp [hh]))]
    simp

/-- A repeated key turns the scalar slot at the end into a two-element
array. -/
theorem addTagValue_last_new : ∀ (acc : List (String × JVal)) (k : String) (w v : JVal),
    ¬k ∈ acc.map Prod.fst → (∀ a, ¬w = JVal.arr a) →
    addTagValue (acc ++ [(k, w)]) k v = acc ++ [(k, JVal.arr [w, v])] := by
  intro acc
  induction acc with
  | nil =>
    intro k w v _ hw
    cases w with
    | arr a => exact absurd rfl (hw a)
    | str s => simp [addTagValue]
    | obj fs => simp [addTagValue]
    | null => simp [addTagValue]
  | cons p acc' ih =>
    obtain ⟨k0, v0⟩ := p
    intro k w v hm hw
    have hk0 : ¬k0 = k := by
      intro hh
      exact hm (by simp [hh])
    simp only [List.cons_append, addTagValue]
    rw [if_neg hk0]
    simp only [List.append_eq]
    rw [ih k w v (fun hh => hm (by simp [hh])) hw]

/-- A repeated key appends to the array slot at the end. -/
theorem addTagValue_last_arr : ∀ (acc : List (String × JVal)) (k : String)
    (a : List JVal) (v : JVal), ¬k ∈ acc.map Prod.fst →
    addTagValue (acc ++ [(k, JVal.arr a)]) k v = acc ++ [(k, JVal.arr (a ++ [v]))] := by
  intro acc
  induction acc with
  | nil =>
    intro k a v _
    simp [addTagValue]
  | cons p acc' ih =>
    obtain ⟨k0, v0⟩ := p
    intro k a v hm
    have hk0 : ¬k0 = k := by
      intro hh
      exact hm (by simp [hh])
    simp only [List.cons_append, addTagValue]
    rw [if_neg hk0]
    simp only [List.append_eq]
    rw [ih k a v (fun hh => hm (by simp [hh]))]

/-- Folding further same-key values onto an array slot at the end appends
them all in order. -/
theorem fold_append_arr : ∀ (vs : List JVal) (acc : List (String × JVal)) (k : String)
    (a : List JVal), ¬k ∈ acc.map Prod.fst →
    List.foldl (fun r nc => addTagValue r nc.1 nc.2) (acc ++ [(k, JVal.arr a)])
      (vs.map (fun v => (k, v))) = acc ++ [(k, JVal.arr (a ++ vs))] := by
  intro vs
  induction vs with
  | nil => intro acc k a _; simp
  | cons v vs' ih =>
    intro acc k a hm
    rw [List.map_cons, List.foldl_cons]
    have h1 : addTagValue (acc ++ [(k, JVal.arr a)]) k v =
        acc ++ [(k, JVal.arr (a ++ [v]))] := addTagValue_last_arr acc k a v hm
    show List.foldl _ (addTagValue (acc ++ [(k, JVal.arr a)]) k v) _ = _
    rw [h1, ih acc k (a ++ [v]) hm]
    simp

/-- Every value weighs at least one. -/
theorem msizeV_pos : ∀ v : JVal, 1 ≤ msizeV v := by
  intro v
  cases v <;> simp [msizeV]

/-- A member of an element list weighs no more than the list. -/
theorem msizeV_le_msizeE : ∀ (l : List JVal) (v : JVal), v ∈ l → msizeV v ≤ msizeE l := by
  intro l
  induction l with
  | nil => intro v h; simp at h
  | cons e l' ih =>
    intro v h
    rcases List.mem_cons.mp h with rfl | h
    · simp [msizeE]
      omega
    · have := ih v h
      simp only [msizeE]
      omega

/-- A per-element value weighs strictly less than its field list. -/
theorem elemVals_size : ∀ (fs : List (String × JVal)) (k : String) (e : JVal),
    (k, e) ∈ elemVals fs → msizeV e < msizeF fs := by
  intro fs
  induction fs with
  | nil => intro k e h; simp [elemVals] at h
  | cons p rest ih =>
    obtain ⟨k0, v0⟩ := p
    intro k e h
    cases v0 with
    | arr l =>
      simp only [elemVals] at h
      rcases List.mem_append.mp h with h | h
      · rcases List.mem_map.mp h with ⟨w, hw, hweq⟩
        have he : e = w := (Prod.mk.injEq _ _ _ _ ▸ hweq).2.symm ▸ rfl
        have := msizeV_le_msizeE l w hw
        have heq : e = w := by
          cases hweq
          rfl
        rw [heq]
        simp only [msizeF, msizeV]
        omega
      · have := ih k e h
        simp only [msizeF]
        omega
    | str s =>
      simp only [elemVals] at h
      rcases List.mem_cons.mp h with heq | h
      · cases heq
        simp [msizeF]
        omega
      · have := ih k e h
        simp only [msizeF]
        omega
    | obj gs =>
      simp only [elemVals] at h
      rcases List.mem_cons.mp h with heq | h
      · cases heq
        simp [msizeF]
        omega
      · have := ih k e h
        simp only [msizeF]
        omega
    | null =>
      simp only [elemVals] at h
      rcases List.mem_cons.mp h with heq | h
      · cases heq
        simp [msizeF]
        omega
      · have := ih k e h
        simp only [msizeF]
        omega

/-- Unpacks one good field. -/
theorem goodFields_cons {k : String} {v : JVal} {fs : List (String × JVal)}
    (h : goodFields ((k, v) :: fs) = true) :
    validTag k = true ∧ (fs.map Prod.fst).contains k = false ∧
    (closeNamesV v).contains k = false ∧ goodFieldVal v = true ∧ goodFields fs = true := by
  simp only [goodFields, Bool.and_eq_true, Bool.not_eq_true'] at h
  exact ⟨h.1.1.1.1, h.1.1.1.2, h.1.1.2, h.1.2, h.2⟩

/-- Arrays are never good as bare values. -/
theorem goodVal_not_arr {v : JVal} (h : goodVal v = true) : ∀ a, ¬v = JVal.arr a := by
  intro a ha
  rw [ha] at h
  simp [goodVal] at h

/-- For a non-array value the field-value check is the value check. -/
theorem goodFieldVal_nonarr {v : JVal} (hv : ∀ l, ¬v = JVal.arr l) :
    goodFieldVal v = goodVal v := by
  cases v with
  | arr l => exact absurd rfl (hv l)
  | str s => simp [goodFieldVal]
  | obj fs => simp [goodFieldVal]
  | null => simp [goodFieldVal]

/-- A non-array value renders as a single element. -/
theorem valToks_nonarr (k : String) {v : JVal} (hv : ∀ l, ¬v = JVal.arr l) :
    valToks k v = XTok.openT k :: (bodyToks v ++ [XTok.closeT k]) := by
  cases v with
  | arr l => exact absurd rfl (hv l)
  | str s => simp [valToks]
  | obj fs => simp [valToks]
  | null => simp [valToks]

/-- A non-array field contributes exactly one element pair. -/
theorem elemVals_cons_nonarr (k : String) {v : JVal} (rest : List (String × JVal))
    (hv : ∀ l, ¬v = JVal.arr l) :
    elemVals ((k, v) :: rest) = (k, v) :: elemVals rest := by
  cases v with
  | arr l => exact absurd rfl (hv l)
  | str s => simp [elemVals]
  | obj fs => simp [elemVals]
  | null => simp [elemVals]

/-- A good tag name is not an attribute key. -/
theorem validTag_not_at {k : String} (h : validTag k = true) :
    startsWithAtSign k = false := by
  simp only [validTag, Bool.and_eq_true, Bool.not_eq_true'] at h
  exact h.1.1

/-- Good tag names make well-formed tag tokens. -/
theorem wfTok_tag {k : String} (h : validTag k = true) :
    wfTok (XTok.openT k) = true ∧ wfTok (XTok.closeT k) = true := by
  simp only [validTag, Bool.and_eq_true] at h
  exact ⟨by simp [wfTok, h.1.2, h.2], by simp [wfTok, h.1.2, h.2]⟩

/-- An array field renders exactly its element stream. -/
theorem arrToks_elems (k : String) : ∀ (l : List JVal),
    arrToks k l = flatElems (l.map (fun e => (k, bodyToks e))) := by
  intro l
  induction l with
  | nil => simp [arrToks, flatElems]
  | cons e l' ih =>
    simp only [arrToks, List.map_cons, flatElems, List.flatMap_cons]
    rw [ih]
    simp [flatElems]

/-- Under goodness the rendered fields are exactly the rendered element
stream. -/
theorem fieldToks_elems : ∀ (fs : List (String × JVal)), goodFields fs = true →
    fieldToks fs = flatElems (elemBodies fs) := by
  intro fs
  induction fs with
  | nil => intro _; simp [fieldToks, elemBodies, elemVals, flatElems]
  | cons p rest ih =>
    obtain ⟨k, v⟩ := p
    intro hg
    obtain ⟨h1, h2, h3, h4, h5⟩ := goodFields_cons hg
    have hat := validTag_not_at h1
    have hft : fieldToks ((k, v) :: rest) = valToks k v ++ fieldToks rest := by
      simp [fieldToks, hat]
    rw [hft, ih h5]
    cases v with
    | arr l =>
      have hva : valToks k (JVal.arr l) = arrToks k l := by simp [valToks]
      rw [hva, arrToks_elems]
      simp only [elemBodies, elemVals, List.map_append, List.map_map]
      simp only [flatElems, List.flatMap_append]
      rfl
    | str s =>
      simp [elemBodies, elemVals, flatElems, valToks]
    | obj gs =>
      simp [elemBodies, elemVals, flatElems, valToks]
    | null =>
      simp [elemBodies, elemVals, flatElems, valToks]

/-- A good nonempty field list renders at least one element. -/
theorem elemVals_ne_nil : ∀ (fs : List (String × JVal)), goodFields fs = true →
    ¬fs = [] → ¬elemVals fs = [] := by
  intro fs
  cases fs with
  | nil => intro _ h; exact absurd rfl h
  | cons p rest =>
    obtain ⟨k, v⟩ := p
    intro hg _
    obtain ⟨-, -, -, h4, -⟩ := goodFields_cons hg
    cases v with
    | arr l =>
      simp only [goodFieldVal, Bool.and_eq_true, decide_eq_true_eq] at h4
      cases l with
      | nil => simp at h4
      | cons e l' => simp [elemVals]
    | str s => simp [elemVals]
    | obj gs => simp [elemVals]
    | null => simp [elemVals]

/-- Every closing tag in a rendering is accounted for by `closeNames`:
directly under a field by its key, deeper by recursion. -/
theorem closers_in : ∀ N : Nat,
    (∀ v, msizeV v ≤ N → ∀ m, XTok.closeT m ∈ bodyToks v → m ∈ closeNamesV v) ∧
    (∀ fs, msizeF fs ≤ N → ∀ m, XTok.closeT m ∈ fieldToks fs →
      m ∈ closeNamesFields fs) ∧
    (∀ k l, msizeE l ≤ N → ∀ m, XTok.closeT m ∈ arrToks k l →
      m = k ∨ m ∈ closeNamesElems l) := by
  intro N
  induction N with
  | zero =>
    refine ⟨?_, ?_, ?_⟩
    · intro v hv
      have := msizeV_pos v
      omega
    · intro fs hf m hm
      cases fs with
      | nil => simp [fieldToks] at hm
      | cons p rest =>
        obtain ⟨k0, v0⟩ := p
        have := msizeV_pos v0
        simp only [msizeF] at hf
        omega
    · intro k l hl m hm
      cases l with
      | nil => simp [arrToks] at hm
      | cons e l' =>
        have := msizeV_pos e
        simp only [msizeE] at hl
        omega
  | succ N ih =>
    obtain ⟨ihV, ihF, ihE⟩ := ih
    refine ⟨?_, ?_, ?_⟩
    · intro v hv m hm
      cases v with
      | str s => simp [bodyToks] at hm
      | null => simp [bodyToks] at hm
      | arr l => simp [bodyToks] at hm
      | obj fs =>
        have hm' : XTok.closeT m ∈ fieldToks fs := by
          simpa [bodyToks] using hm
        have hsz : msizeF fs ≤ N := by
          simp only [msizeV] at hv
          omega
        have := ihF fs hsz m hm'
        simpa [closeNamesV] using this
    · intro fs hf m hm
      cases fs with
      | nil => simp [fieldToks] at hm
      | cons p rest =>
        obtain ⟨k0, v0⟩ := p
        rw [show fieldToks ((k0, v0) :: rest) =
            (if startsWithAtSign k0 then [] else valToks k0 v0) ++ fieldToks rest from by
          simp [fieldToks]] at hm
        have hszv : msizeV v0 ≤ N := by
          simp only [msizeF] at hf
          omega
        have hszr : msizeF rest ≤ N := by
          have := msizeV_pos v0
          simp only [msizeF] at hf
          omega
        rcases List.mem_append.mp hm with hm | hm
        · by_cases hat : startsWithAtSign k0 = true
          · rw [if_pos hat] at hm
            simp at hm
          · rw [if_neg hat] at hm
            by_cases hvarr : ∃ l, v0 = JVal.arr l
            · obtain ⟨l, rfl⟩ := hvarr
              have hva : valToks k0 (JVal.arr l) = arrToks k0 l := by simp [valToks]
              rw [hva] at hm
              have hsz : msizeE l ≤ N := by
                simp only [msizeV] at hszv
                omega
              rcases ihE k0 l hsz m hm with rfl | hmm
              · simp [closeNamesFields]
              · simp only [closeNamesFields, List.mem_cons, List.mem_append]
                right
                left
                simpa [closeNamesV] using hmm
            · push_neg at hvarr
              rw [valToks_nonarr k0 (fun l => hvarr l)] at hm
              rcases List.mem_cons.mp hm with heq | hm
              · exact absurd heq (by simp)
              · rcases List.mem_append.mp hm with hm | hm
                · have := ihV v0 hszv m hm
                  simp only [closeNamesFields, List.mem_cons, List.mem_append]
                  right
                  left
                  exact this
                · have : m = k0 := by
                    simp at hm
                    exact hm
                  simp [closeNamesFields, this]
        · have := ihF rest hszr m hm
          simp only [closeNamesFields, List.mem_cons, List.mem_append]
          right
          right
          exact this
    · intro k l hl m hm
      cases l with
      | nil => simp [arrToks] at hm
      | cons e l' =>
        have hsze : msizeV e ≤ N := by
          simp only [msizeE] at hl
          omega
        have hszl : msizeE l' ≤ N := by
          have := msizeV_pos e
          simp only [msizeE] at hl
          omega
        rw [show arrToks k (e :: l') =
            (XTok.openT k :: (bodyToks e ++ [XTok.closeT k])) ++ arrToks k l' from by
          simp [arrToks]] at hm
        rcases List.mem_append.mp hm with hm | hm
        · rcases List.mem_cons.mp hm with heq | hm
          · exact absurd heq (by simp)
          · rcases List.mem_append.mp hm with hm | hm
            · have := ihV e hsze m hm
              right
              simp only [closeNamesElems, List.mem_append]
              left
              exact this
            · left
              simp at hm
              exact hm
        · rcases ihE k l' hszl m hm with rfl | hmm
          · left
            rfl
          · right
            simp only [closeNamesElems, List.mem_append]
            right
            exact hmm

/-- Good values render only well-formed tokens. -/
theorem wf_toks : ∀ N : Nat,
    (∀ v, msizeV v ≤ N → goodVal v = true → ∀ t ∈ bodyToks v, wfTok t = true) ∧
    (∀ fs, msizeF fs ≤ N → goodFields fs = true → ∀ t ∈ fieldToks fs, wfTok t = true) ∧
    (∀ k l, msizeE l ≤ N → validTag k = true → goodElems l = true →
      ∀ t ∈ arrToks k l, wfTok t = true) := by
  intro N
  induction N with
  | zero =>
    refine ⟨?_, ?_, ?_⟩
    · intro v hv
      have := msizeV_pos v
      omega
    · intro fs hf hg t ht
      cases fs with
      | nil => simp [fieldToks] at ht
      | cons p rest =>
        obtain ⟨k0, v0⟩ := p
        have := msizeV_pos v0
        simp only [msizeF] at hf
        omega
    · intro k l hl hk hg t ht
      cases l with
      | nil => simp [arrToks] at ht
      | cons e l' =>
        have := msizeV_pos e
        simp only [msizeE] at hl
        omega
  | succ N ih =>
    obtain ⟨ihV, ihF, ihE⟩ := ih
    refine ⟨?_, ?_, ?_⟩
    · intro v hv hgv t ht
      cases v with
      | null => simp [goodVal] at hgv
      | arr l => simp [goodVal] at hgv
      | str s =>
        have : t = XTok.txt (escapeXml s) := by simpa [bodyToks] using ht
        subst this
        simp only [wfTok]
        apply List.all_eq_true.mpr
        intro c hc
        have := escape_no_angle (s := s.data) c hc
        simpa using this
      | obj fs =>
        have hgf : goodFields fs = true := by
          simp only [goodVal, Bool.and_eq_true] at hgv
          exact hgv.2
        have hsz : msizeF fs ≤ N := by
          simp only [msizeV] at hv
          omega
        have ht' : t ∈ fieldToks fs := by simpa [bodyToks] using ht
        exact ihF fs hsz hgf t ht'
    · intro fs hf hg t ht
      cases fs with
      | nil => simp [fieldToks] at ht
      | cons p rest =>
        obtain ⟨k0, v0⟩ := p
        obtain ⟨h1, h2, h3, h4, h5⟩ := goodFields_cons hg
        have hat := validTag_not_at h1
        have hszv : msizeV v0 ≤ N := by
          simp only [msizeF] at hf
          omega
        have hszr : msizeF rest ≤ N := by
          have := msizeV_pos v0
          simp only [msizeF] at hf
          omega
        rw [show fieldToks ((k0, v0) :: rest) = valToks k0 v0 ++ fieldToks rest from by
          simp [fieldToks, hat]] at ht
        rcases List.mem_append.mp ht with ht | ht
        · by_cases hvarr : ∃ l, v0 = JVal.arr l
          · obtain ⟨l, rfl⟩ := hvarr
            have hva : valToks k0 (JVal.arr l) = arrToks k0 l := by simp [valToks]
            rw [hva] at ht
            have hge : goodElems l = true := by
              simp only [goodFieldVal, Bool.and_eq_true] at h4
              exact h4.2
            have hsz : msizeE l ≤ N := by
              simp only [msizeV] at hszv
              omega
            exact ihE k0 l hsz h1 hge t ht
          · push_neg at hvarr
            rw [valToks_nonarr k0 (fun l => hvarr l)] at ht
            rcases List.mem_cons.mp ht with rfl | ht
            · exact (wfTok_tag h1).1
            · rcases List.mem_append.mp ht with ht | ht
              · have hgv : goodVal v0 = true := by
                  rw [← goodFieldVal_nonarr (fun l => hvarr l)]
                  exact h4
                exact ihV v0 hszv hgv t ht
              · have : t = XTok.closeT k0 := by simpa using ht
                rw [this]
                exact (wfTok_tag h1).2
        · exact ihF rest hszr h5 t ht
    · intro k l hl hk hg t ht
      cases l with
      | nil => simp [arrToks] at ht
      | cons e l' =>
        have hsze : msizeV e ≤ N := by
          simp only [msizeE] at hl
          omega
        have hszl : msizeE l' ≤ N := by
          have := msizeV_pos e
          simp only [msizeE] at hl
          omega
        obtain ⟨hge, hgl⟩ : goodVal e = true ∧ goodElems l' = true := by
          simpa [goodElems, Bool.and_eq_true] using hg
        rw [show arrToks k (e :: l') =
            (XTok.openT k :: (bodyToks e ++ [XTok.closeT k])) ++ arrToks k l' from by
          simp [arrToks]] at ht
        rcases List.mem_append.mp ht with ht | ht
        · rcases List.mem_cons.mp ht with rfl | ht
          · exact (wfTok_tag hk).1
          · rcases List.mem_append.mp ht with ht | ht
            · exact ihV e hsze hge t ht
            · have : t = XTok.closeT k := by simpa using ht
              rw [this]
              exact (wfTok_tag hk).2
        · exact ihE k l' hszl hk hgl t ht

/-- Tokens of a good value's body are well formed. -/
theorem bodyToks_wf {v : JVal} (hv : goodVal v = true) :
    ∀ t ∈ bodyToks v, wfTok t = true :=
  (wf_toks (msizeV v)).1 v (Nat.le_refl _) hv

/-- Tokens of a good field list are well formed. -/
theorem fieldToks_wf {fs : List (String × JVal)} (hg : goodFields fs = true) :
    ∀ t ∈ fieldToks fs, wfTok t = true :=
  (wf_toks (msizeF fs)).2.1 fs (Nat.le_refl _) hg

/-- Closing tags inside a value's body are among its close names. -/
theorem closeT_bodyToks {v : JVal} {m : String} (h : XTok.closeT m ∈ bodyToks v) :
    m ∈ closeNamesV v :=
  (closers_in (msizeV v)).1 v (Nat.le_refl _) m h

/-- The characters of the built XML are exactly the flattened token
rendering, for good input. -/
theorem build_toks : ∀ N : Nat,
    (∀ v, msizeV v ≤ N → goodVal v = true → ∀ k,
      (buildNode v k).data = flatToks (valToks k v)) ∧
    (∀ fs, msizeF fs ≤ N → goodFields fs = true →
      (buildFields fs).data = flatToks (fieldToks fs)) ∧
    (∀ l, msizeE l ≤ N → goodElems l = true → ∀ k,
      (buildArr l k).data = flatToks (arrToks k l)) := by
  intro N
  induction N with
  | zero =>
    refine ⟨?_, ?_, ?_⟩
    · intro v hv
      have := msizeV_pos v
      omega
    · intro fs hf hg
      cases fs with
      | nil => simp [buildFields, fieldToks, flatToks]
      | cons p rest =>
        obtain ⟨k0, v0⟩ := p
        have := msizeV_pos v0
        simp only [msizeF] at hf
        omega
    · intro l hl hg k
      cases l with
      | nil => simp [buildArr, arrToks, flatToks]
      | cons e l' =>
        have := msizeV_pos e
        simp only [msizeE] at hl
        omega
  | succ N ih =>
    obtain ⟨ihV, ihF, ihE⟩ := ih
    refine ⟨?_, ?_, ?_⟩
    · intro v hv hgv k
      cases v with
      | null => simp [goodVal] at hgv
      | arr l => simp [goodVal] at hgv
      | str s =>
        have d1 : "<".data = ['<'] := rfl
        have d2 : ">".data = ['>'] := rfl
        have d3 : "</".data = ['<', '/'] := rfl
        simp [buildNode, valToks, bodyToks, flatToks, flatTok, String.data_append,
          d1, d2, d3, List.append_assoc]
      | obj fs =>
        have hgf : goodFields fs = true := by
          simp only [goodVal, Bool.and_eq_true] at hgv
          exact hgv.2
        have hsz : msizeF fs ≤ N := by
          simp only [msizeV] at hv
          omega
        have hrec := ihF fs hsz hgf
        have d1 : "<".data = ['<'] := rfl
        have d2 : ">".data = ['>'] := rfl
        have d3 : "</".data = ['<', '/'] := rfl
        simp [buildNode, valToks, bodyToks, flatToks, flatTok, String.data_append,
          d1, d2, d3, List.append_assoc, hrec]
    · intro fs hf hg
      cases fs with
      | nil => simp [buildFields, fieldToks, flatToks]
      | cons p rest =>
        obtain ⟨k0, v0⟩ := p
        obtain ⟨h1, h2, h3, h4, h5⟩ := goodFields_cons hg
        have hat := validTag_not_at h1
        have hszv : msizeV v0 ≤ N := by
          simp only [msizeF] at hf
          omega
        have hszr : msizeF rest ≤ N := by
          have := msizeV_pos v0
          simp only [msizeF] at hf
          omega
        have hb : buildFields ((k0, v0) :: rest) = buildNode v0 k0 ++ buildFields rest := by
          simp [buildFields, hat]
        have hft : fieldToks ((k0, v0) :: rest) = valToks k0 v0 ++ fieldToks rest := by
          simp [fieldToks, hat]
        rw [hb, hft, String.data_append]
        have hrest := ihF rest hszr h5
        rw [hrest]
        have hhead : (buildNode v0 k0).data = flatToks (valToks k0 v0) := by
          by_cases hvarr : ∃ l, v0 = JVal.arr l
          · obtain ⟨l, rfl⟩ := hvarr
            have hge : goodElems l = true := by
              simp only [goodFieldVal, Bool.and_eq_true] at h4
              exact h4.2
            have hsz : msizeE l ≤ N := by
              simp only [msizeV] at hszv
              omega
            have hb2 : buildNode (JVal.arr l) k0 = buildArr l k0 := by
              simp [buildNode]
            have hva : valToks k0 (JVal.arr l) = arrToks k0 l := by simp [valToks]
            rw [hb2, hva]
            exact ihE l hsz hge k0
          · push_neg at hvarr
            have hgv : goodVal v0 = true := by
              rw [← goodFieldVal_nonarr (fun l => hvarr l)]
              exact h4
            exact ihV v0 hszv hgv k0
        rw [hhead]
        simp [flatToks]
    · intro l hl hg k
      cases l with
      | nil => simp [buildArr, arrToks, flatToks]
      | cons e l' =>
        have hsze : msizeV e ≤ N := by
          simp only [msizeE] at hl
          omega
        have hszl : msizeE l' ≤ N := by
          have := msizeV_pos e
          simp only [msizeE] at hl
          omega
        obtain ⟨hge, hgl⟩ : goodVal e = true ∧ goodElems l' = true := by
          simpa [goodElems, Bool.and_eq_true] using hg
        have hb : buildArr (e :: l') k = buildNode e k ++ buildArr l' k := by
          simp [buildArr]
        rw [hb, String.data_append, ihV e hsze hge k, ihE l' hszl hgl k]
        have hva : valToks k e = XTok.openT k :: (bodyToks e ++ [XTok.closeT k]) :=
          valToks_nonarr k (goodVal_not_arr hge)
        rw [hva, show arrToks k (e :: l') =
            (XTok.openT k :: (bodyToks e ++ [XTok.closeT k])) ++ arrToks k l' from by
          simp [arrToks]]
        simp [flatToks]

/-- Bridge at the field level, with the sizes fixed. -/
theorem buildFields_data {fs : List (String × JVal)} (hg : goodFields fs = true) :
    (buildFields fs).data = flatToks (fieldToks fs) :=
  (build_toks (msizeF fs)).2.1 fs (Nat.le_refl _) hg

/-- A `contains` check that fails refutes membership. -/
theorem not_mem_of_contains_false {l : List String} {k : String}
    (h : l.contains k = false) : ¬k ∈ l := by
  intro hm
  have hc := List.elem_iff.mpr hm
  rw [show l.elem k = l.contains k from rfl, h] at hc
  cases hc

/-- Close names of an element are close names of its list. -/
theorem mem_closeNamesV_elems : ∀ (l : List JVal) (e : JVal) (x : String), e ∈ l →
    x ∈ closeNamesV e → x ∈ closeNamesElems l := by
  intro l
  induction l with
  | nil => intro e x h; simp at h
  | cons e0 l' ih =>
    intro e x hm hx
    rcases List.mem_cons.mp hm with rfl | hm
    · simp only [closeNamesElems, List.mem_append]
      left
      exact hx
    · simp only [closeNamesElems, List.mem_append]
      right
      exact ih e x hm hx

/-- Members of a good element list are good values. -/
theorem goodElems_mem : ∀ (l : List JVal) (e : JVal), goodElems l = true → e ∈ l →
    goodVal e = true := by
  intro l
  induction l with
  | nil => intro e _ h; simp at h
  | cons e0 l' ih =>
    intro e hg hm
    obtain ⟨hge, hgl⟩ : goodVal e0 = true ∧ goodElems l' = true := by
      simpa [goodElems, Bool.and_eq_true] using hg
    rcases List.mem_cons.mp hm with rfl | hm
    · exact hge
    · exact ih e hgl hm

/-- Each rendered element of a good field list carries a valid fresh tag
and a good value. -/
theorem elemVals_good : ∀ (fs : List (String × JVal)) (k : String) (e : JVal),
    goodFields fs = true → (k, e) ∈ elemVals fs →
    validTag k = true ∧ goodVal e = true ∧ ¬k ∈ closeNamesV e := by
  intro fs
  induction fs with
  | nil => intro k e _ h; simp [elemVals] at h
  | cons p rest ih =>
    obtain ⟨k0, v0⟩ := p
    intro k e hg hm
    obtain ⟨h1, h2, h3, h4, h5⟩ := goodFields_cons hg
    by_cases hvarr : ∃ l, v0 = JVal.arr l
    · obtain ⟨l, rfl⟩ := hvarr
      simp only [elemVals] at hm
      rcases List.mem_append.mp hm with hm | hm
      · rcases List.mem_map.mp hm with ⟨w, hw, hweq⟩
        have hkk : k0 = k := congrArg Prod.fst hweq
        have hww : w = e := congrArg Prod.snd hweq
        subst hkk
        subst hww
        have hge : goodElems l = true := by
          simp only [goodFieldVal, Bool.and_eq_true] at h4
          exact h4.2
        refine ⟨h1, goodElems_mem l w hge hw, ?_⟩
        intro hmem
        exact not_mem_of_contains_false (by simpa [closeNamesV] using h3)
          (mem_closeNamesV_elems l w k0 hw hmem)
      · exact ih k e h5 hm
    · push_neg at hvarr
      rw [elemVals_cons_nonarr k0 rest (fun l => hvarr l)] at hm
      rcases List.mem_cons.mp hm with heq | hm
      · have hkk : k0 = k := (congrArg Prod.fst heq).symm
        have hvv : v0 = e := (congrArg Prod.snd heq).symm
        subst hkk
        subst hvv
        have hgv : goodVal v0 = true := by
          rw [← goodFieldVal_nonarr (fun l => hvarr l)]
          exact h4
        exact ⟨h1, hgv, not_mem_of_contains_false h3⟩
      · exact ih k e h5 hm

/-- Elements rendered from good fields are scannable. -/
theorem elemBodies_wf {fs : List (String × JVal)} (hg : goodFields fs = true) :
    ∀ e ∈ elemBodies fs, elemWf e := by
  intro e he
  obtain ⟨p, hp, hpe⟩ := List.mem_map.mp he
  obtain ⟨hk, hv, hfresh⟩ := elemVals_good fs p.1 p.2 hg (by
    have : (p.1, p.2) = p := rfl
    rw [this]
    exact hp)
  rw [← hpe]
  refine ⟨hk, bodyToks_wf hv, ?_⟩
  intro m hm heq
  rw [heq] at hm
  exact hfresh (closeT_bodyToks hm)

/-- The token stream of an element stream is fully well formed. -/
theorem flatElems_wf : ∀ (es : List (String × List XTok)), (∀ e ∈ es, elemWf e) →
    ∀ t ∈ flatElems es, wfTok t = true := by
  intro es
  induction es with
  | nil => intro _ t ht; simp [flatElems] at ht
  | cons e es' ih =>
    intro hwf t ht
    obtain ⟨hk, hb, -⟩ := hwf e (by simp)
    rw [show flatElems (e :: es') =
        (XTok.openT e.1 :: (e.2 ++ [XTok.closeT e.1])) ++ flatElems es' from by
      simp [flatElems]] at ht
    rcases List.mem_append.mp ht with ht | ht
    · rcases List.mem_cons.mp ht with rfl | ht
      · exact (wfTok_tag hk).1
      · rcases List.mem_append.mp ht with ht | ht
        · exact hb t ht
        · have : t = XTok.closeT e.1 := by simpa using ht
          rw [this]
          exact (wfTok_tag hk).2
    · exact ih (fun x hx => hwf x (by simp [hx])) t ht

/-- The flattened characters of a nonempty element stream, head
exposed. -/
theorem flatElems_cons_shape (k : String) (b : List XTok)
    (es : List (String × List XTok)) :
    flatToks (flatElems ((k, b) :: es)) =
      '<' :: (k.data ++ '>' :: (flatToks b ++
        (('<' :: '/' :: (k.data ++ ['>'])) ++ flatToks (flatElems es)))) := by
  simp [flatElems, flatToks, flatTok, List.append_assoc]

/-- A nonempty element stream flattens to `<` … `>`. -/
theorem flatElems_sandwich : ∀ (es : List (String × List XTok)), ¬es = [] →
    ∃ mid, flatToks (flatElems es) = '<' :: (mid ++ ['>']) := by
  intro es
  induction es with
  | nil => intro h; exact absurd rfl h
  | cons e es' ih =>
    intro _
    obtain ⟨k, b⟩ := e
    by_cases hes : es' = []
    · subst hes
      refine ⟨k.data ++ '>' :: (flatToks b ++ ('<' :: '/' :: k.data)), ?_⟩
      rw [flatElems_cons_shape]
      simp [flatElems, flatToks, List.append_assoc]
    · obtain ⟨mid', hmid⟩ := ih hes
      refine ⟨k.data ++ '>' :: (flatToks b ++
        ('<' :: '/' :: (k.data ++ '>' :: '<' :: mid'))), ?_⟩
      rw [flatElems_cons_shape, hmid]
      simp [List.append_assoc]

/-- Folding the per-element pairs of a good field list through the
decoder's collapse rebuilds exactly the field list: distinct keys append
in order, and an array field's consecutive same-key elements regroup into
the original array. -/
theorem fold_elemVals : ∀ (fs : List (String × JVal)) (acc : List (String × JVal)),
    goodFields fs = true → (∀ k ∈ fs.map Prod.fst, ¬k ∈ acc.map Prod.fst) →
    List.foldl (fun r nc => addTagValue r nc.1 nc.2) acc (elemVals fs) = acc ++ fs := by
  intro fs
  induction fs with
  | nil => intro acc _ _; simp [elemVals]
  | cons p rest ih =>
    obtain ⟨k, v⟩ := p
    intro acc hg hdisj
    obtain ⟨h1, h2, h3, h4, h5⟩ := goodFields_cons hg
    have hkacc : ¬k ∈ acc.map Prod.fst := hdisj k (by simp)
    have hknotrest : ¬k ∈ rest.map Prod.fst := not_mem_of_contains_false h2
    by_cases hvarr : ∃ l, v = JVal.arr l
    · obtain ⟨l, rfl⟩ := hvarr
      obtain ⟨hlen, hge⟩ : 2 ≤ l.length ∧ goodElems l = true := by
        simpa [goodFieldVal, Bool.and_eq_true] using h4
      obtain ⟨e1, l1, rfl⟩ : ∃ e1 l1, l = e1 :: l1 := by
        cases l with
        | nil => simp at hlen
        | cons a b => exact ⟨a, b, rfl⟩
      obtain ⟨e2, l2, rfl⟩ : ∃ e2 l2, l1 = e2 :: l2 := by
        cases l1 with
        | nil => simp at hlen
        | cons a b => exact ⟨a, b, rfl⟩
      have hge1 : goodVal e1 = true := goodElems_mem _ e1 hge (by simp)
      simp only [elemVals]
      rw [List.foldl_append]
      have hstep : List.foldl (fun r nc => addTagValue r nc.1 nc.2) acc
          ((e1 :: e2 :: l2).map (fun v => (k, v))) =
          acc ++ [(k, JVal.arr (e1 :: e2 :: l2))] := by
        rw [List.map_cons, List.map_cons, List.foldl_cons, List.foldl_cons]
        have h1s : addTagValue acc k e1 = acc ++ [(k, e1)] :=
          addTagValue_notmem acc k e1 hkacc
        show List.foldl _ (addTagValue (addTagValue acc k e1) k e2) _ = _
        rw [h1s]
        have h2s : addTagValue (acc ++ [(k, e1)]) k e2 =
            acc ++ [(k, JVal.arr [e1, e2])] :=
          addTagValue_last_new acc k e1 e2 hkacc (goodVal_not_arr hge1)
        rw [h2s, fold_append_arr l2 acc k [e1, e2] hkacc]
        simp
      rw [hstep]
      have hdisj' : ∀ k' ∈ rest.map Prod.fst,
          ¬k' ∈ (acc ++ [(k, JVal.arr (e1 :: e2 :: l2))]).map Prod.fst := by
        intro k' hk' hmem
        rw [List.map_append] at hmem
        rcases List.mem_append.mp hmem with hmem | hmem
        · exact hdisj k' (by simp [hk']) hmem
        · have : k' = k := by simpa using hmem
          rw [this] at hk'
          exact hknotrest hk'
      rw [ih (acc ++ [(k, JVal.arr (e1 :: e2 :: l2))]) h5 hdisj']
      simp
    · push_neg at hvarr
      rw [elemVals_cons_nonarr k rest (fun l => hvarr l), List.foldl_cons]
      show List.foldl _ (addTagValue acc k v) _ = _
      rw [addTagValue_notmem acc k v hkacc]
      have hdisj' : ∀ k' ∈ rest.map Prod.fst,
          ¬k' ∈ (acc ++ [(k, v)]).map Prod.fst := by
        intro k' hk' hmem
        rw [List.map_append] at hmem
        rcases List.mem_append.mp hmem with hmem | hmem
        · exact hdisj k' (by simp [hk']) hmem
        · have : k' = k := by simpa using hmem
          rw [this] at hk'
          exact hknotrest hk'
      rw [ih (acc ++ [(k, v)]) h5 hdisj']
      simp

/-- The parser inverts the rendered tokens: a good value's body parses
back to the value, and a good nonempty field list parses back to its
object. -/
theorem parse_main : ∀ N : Nat,
    (∀ v, msizeV v ≤ N → goodVal v = true →
      parseContent (flatToks (bodyToks v)) = v) ∧
    (∀ fs, msizeF fs ≤ N → goodFields fs = true → ¬fs = [] →
      parseNode (flatToks (fieldToks fs)) = JVal.obj fs) := by
  intro N
  induction N with
  | zero =>
    refine ⟨?_, ?_⟩
    · intro v hv
      have := msizeV_pos v
      omega
    · intro fs hf hg hne
      cases fs with
      | nil => exact absurd rfl hne
      | cons p rest =>
        obtain ⟨k0, v0⟩ := p
        have := msizeV_pos v0
        simp only [msizeF] at hf
        omega
  | succ N ih =>
    obtain ⟨ihV, ihF⟩ := ih
    refine ⟨?_, ?_⟩
    · intro v hv hgv
      cases v with
      | null => simp [goodVal] at hgv
      | arr l => simp [goodVal] at hgv
      | str s =>
        have hb : flatToks (bodyToks (JVal.str s)) = escapeXmlList s.data := by
          simp [bodyToks, flatToks, flatTok, escapeXml]
        rw [hb]
        obtain ⟨ht, hd⟩ : jsTrimList (escapeXmlList s.data) = escapeXmlList s.data ∧
            decodeXmlEntitiesList (escapeXmlList s.data) = s.data := by
          simpa [goodVal, goodLeaf, Bool.and_eq_true] using hgv
        have hnn : hasNestedTags (escapeXmlList s.data) = false := by
          apply hasNestedTags_no_lt
          intro c hc hlt
          exact escape_no_angle c hc (Or.inl hlt)
        simp only [parseContent]
        rw [ht, if_neg (by simp [hnn])]
        rw [hd]
      | obj fs =>
        obtain ⟨hne, hgf⟩ : ¬fs = [] ∧ goodFields fs = true := by
          simp only [goodVal, Bool.and_eq_true, Bool.not_eq_true'] at hgv
          refine ⟨?_, hgv.2⟩
          intro h
          rw [h] at hgv
          simp at hgv
        have hsz : msizeF fs ≤ N := by
          simp only [msizeV] at hv
          omega
        have hbody : bodyToks (JVal.obj fs) = fieldToks fs := by simp [bodyToks]
        rw [hbody, fieldToks_elems fs hgf]
        have hne' : ¬elemVals fs = [] := elemVals_ne_nil fs hgf hne
        cases hE : elemVals fs with
        | nil => exact absurd hE hne'
        | cons p rest' =>
          have hEB : elemBodies fs =
              (p.1, bodyToks p.2) :: rest'.map (fun q => (q.1, bodyToks q.2)) := by
            simp [elemBodies, hE]
          obtain ⟨mid, hmid⟩ := flatElems_sandwich (elemBodies fs) (by simp [hEB])
          have htrim : jsTrimList (flatToks (flatElems (elemBodies fs))) =
              flatToks (flatElems (elemBodies fs)) := by
            rw [hmid]
            exact jsTrimList_sandwich '<' '>' mid (by decide) (by decide)
          obtain ⟨hk, -, -⟩ := elemVals_good fs p.1 p.2 hgf (by
            rw [hE]
            show (p.1, p.2) ∈ p :: rest'
            have : (p.1, p.2) = p := rfl
            rw [this]
            simp)
          have hkd : p.1.data ≠ [] ∧ ∀ c ∈ p.1.data, isNameChar c = true := by
            simp only [validTag, Bool.and_eq_true, Bool.not_eq_true'] at hk
            exact ⟨by simpa using hk.1.2, List.all_eq_true.mp hk.2⟩
          obtain ⟨c0, kd', hkdeq⟩ := List.exists_cons_of_ne_nil hkd.1
          have hnest : hasNestedTags (flatToks (flatElems (elemBodies fs))) = true := by
            rw [hEB, flatElems_cons_shape, hkdeq]
            rw [show ('<' :: ((c0 :: kd') ++ '>' :: (flatToks (bodyToks p.2) ++
                (('<' :: '/' :: ((c0 :: kd') ++ ['>'])) ++
                  flatToks (flatElems (rest'.map (fun q => (q.1, bodyToks q.2)))))))) =
              '<' :: c0 :: (kd' ++ '>' :: (flatToks (bodyToks p.2) ++
                (('<' :: '/' :: ((c0 :: kd') ++ ['>'])) ++
                  flatToks (flatElems (rest'.map (fun q => (q.1, bodyToks q.2))))))) from rfl]
            apply hasNestedTags_front
            · exact hkd.2 c0 (by rw [hkdeq]; simp)
            · simp
          simp only [parseContent]
          rw [htrim, if_pos hnest, ← fieldToks_elems fs hgf]
          exact ihF fs hsz hgf hne
    · intro fs hf hg hne
      rw [fieldToks_elems fs hg]
      have hwfe := elemBodies_wf hg
      have hself : selfScan (flatToks (flatElems (elemBodies fs))) = [] :=
        selfScan_toks _ (flatElems_wf _ hwfe)
      have htags := tagScan_elems (elemBodies fs) hwfe
      rw [parseNode_eq, hself, htags]
      have hne' : ¬elemBodies fs = [] := by
        intro hE
        exact elemVals_ne_nil fs hg hne (by simpa [elemBodies] using hE)
      rw [if_neg (by
        intro hE
        rw [List.isEmpty_nil, Bool.true_and, List.isEmpty_iff] at hE
        exact hne' (List.map_eq_nil_iff.mp hE))]
      simp only [List.foldl_nil]
      rw [show (elemBodies fs).map (fun e => (e.1, flatToks e.2)) =
          (elemVals fs).map (fun q => (q.1, flatToks (bodyToks q.2))) from by
        simp [elemBodies, List.map_map]]
      rw [List.foldl_map]
      rw [foldl_congr_mem (elemVals fs) _
        (fun r nc => addTagValue r nc.1 nc.2) [] (by
          intro acc q hq
          obtain ⟨-, hqv, -⟩ := elemVals_good fs q.1 q.2 hg (by
            have : (q.1, q.2) = q := rfl
            rw [this]
            exact hq)
          have hqsz : msizeV q.2 ≤ N := by
            have := elemVals_size fs q.1 q.2 (by
              have : (q.1, q.2) = q := rfl
              rw [this]
              exact hq)
            omega
          have hpc := ihV q.2 hqsz hqv
          show addTagValue acc q.1 (parseContent (flatToks (bodyToks q.2))) = _
          rw [hpc])]
      rw [fold_elemVals fs [] hg (by simp)]
      rw [List.nil_append]

/-- The field-level round trip, with the measure fixed. -/
theorem parse_fields {fs : List (String × JVal)} (hg : goodFields fs = true)
    (hne : ¬fs = []) : parseNode (flatToks (fieldToks fs)) = JVal.obj fs :=
  (parse_main (msizeF fs)).2 fs (Nat.le_refl _) hg hne

/-- Reads the scalar leaf two keys deep, for separating structures. -/
def leafAt (j : JVal) (k1 k2 : String) : String :=
  match jvalField j k1 with
  | some (JVal.obj fs) =>
    match jvalField (JVal.obj fs) k2 with
    | some (JVal.str s) => s
    | _ => ""
  | _ => ""

/-- C8 (amended): building a structure to XML under a root tag and parsing
the result reproduces the structure under the root key, for every good
input: the root is a valid tag name not recurring as a tag inside the
value, and the value is recursively good — leaves survive trim and entity
decoding, objects are nonempty with distinct keys that are valid, fresh
tag names, arrays sit only directly under a field, hold at least two
elements and no nested array, and `null` does not occur. -/
theorem C8_xml_roundtrip_good (root : String) (v : JVal)
    (h : goodFields [(root, v)] = true) :
    parseXmlToObject (buildXmlFromObject v root) = JVal.obj [(root, v)] := by
  obtain ⟨h1, -, -, -, -⟩ := goodFields_cons h
  have hat := validTag_not_at h1
  have hbf : (buildNode v root).data = flatToks (fieldToks [(root, v)]) := by
    have e1 : buildFields [(root, v)] = buildNode v root ++ "" := by
      simp [buildFields, hat]
    have e2 := buildFields_data h
    rw [e1] at e2
    simpa using e2
  have hxml : (buildXmlFromObject v root).data =
      "<?xml version=\"1.0\" encoding=\"UTF-8\"?>".data ++
        flatToks (fieldToks [(root, v)]) := by
    show ("<?xml version=\"1.0\" encoding=\"UTF-8\"?>" ++ buildNode v root).data = _
    rw [String.data_append, hbf]
  have hnoq : noLtQ (flatToks (fieldToks [(root, v)])) = true :=
    noLtQ_flat _ (fieldToks_wf h)
  have hstrip : stripXmlDeclF (buildXmlFromObject v root).data.length
      (buildXmlFromObject v root).data = flatToks (fieldToks [(root, v)]) := by
    rw [hxml]
    rw [show ("<?xml version=\"1.0\" encoding=\"UTF-8\"?>".data ++
        flatToks (fieldToks [(root, v)])).length =
        (37 + (flatToks (fieldToks [(root, v)])).length) + 1 from by
      rw [List.length_append]
      have hdl : "<?xml version=\"1.0\" encoding=\"UTF-8\"?>".data.length = 38 := rfl
      omega]
    rw [stripDecl_step]
    exact stripXmlDeclF_id _ _ hnoq
  have htrimB : jsTrimList (flatToks (fieldToks [(root, v)])) =
      flatToks (fieldToks [(root, v)]) := by
    rw [fieldToks_elems _ h]
    obtain ⟨mid, hmid⟩ := flatElems_sandwich (elemBodies [(root, v)]) (by
      intro hE
      exact elemVals_ne_nil [(root, v)] h (by simp)
        (by simpa [elemBodies] using hE))
    rw [hmid]
    exact jsTrimList_sandwich '<' '>' mid (by decide) (by decide)
  have hfs : parseNode (flatToks (fieldToks [(root, v)])) = JVal.obj [(root, v)] :=
    parse_fields h (by simp)
  unfold parseXmlToObject
  rw [if_neg ?hcond]
  case hcond =>
    rintro (h0 | h0)
    · have hd := congrArg String.data h0
      rw [hxml] at hd
      have hlenx := congrArg List.length hd
      rw [List.length_append] at hlenx
      have hdl : "<?xml version=\"1.0\" encoding=\"UTF-8\"?>".data.length = 38 := rfl
      simp only [hdl] at hlenx
      simp at hlenx
    · have hd := congrArg String.data h0
      have hd' : jsTrimList (buildXmlFromObject v root).data = [] := hd
      have hmem : '<' ∈ (buildXmlFromObject v root).data := by
        rw [hxml]
        apply List.mem_append_left
        decide
      exact jsTrimList_ne_nil hmem (by decide) hd'
  rw [hstrip, htrimB]
  exact hfs

/-- C8, counterexample to the unamended claim: the structure
`{Item: " a "}` has no attributes and no scalar/array ambiguity, yet the
decoder trims element content, so the round trip returns `{Root: {Item:
"a"}}` instead of `{Root: {Item: " a "}}`. -/
theorem C8_counterexample_whitespace :
    ¬parseXmlToObject (buildXmlFromObject
        (JVal.obj [("Item", JVal.str " a ")]) "Root") =
      JVal.obj [("Root", JVal.obj [("Item", JVal.str " a ")])] := by
  have hbuild : buildXmlFromObject (JVal.obj [("Item", JVal.str " a ")]) "Root" =
      "<?xml version=\"1.0\" encoding=\"UTF-8\"?><Root><Item> a </Item></Root>" := by
    simp only [buildXmlFromObject, buildNode, buildFields, startsWithAtSign, escapeXml]
    decide
  rw [hbuild]
  intro h
  have h2 := congrArg (fun j => leafAt j "Root" "Item") h
  exact absurd h2 (by decide)

/-- C8, witness: the amended round trip at the concrete structure
`{Name: "mega", Count: ["1", "2"]}` under root `Root`. -/
theorem C8_xml_roundtrip_good_witness :
    goodFields [("Root", JVal.obj [("Name", JVal.str "mega"),
      ("Count", JVal.arr [JVal.str "1", JVal.str "2"])])] = true ∧
    parseXmlToObject (buildXmlFromObject (JVal.obj [("Name", JVal.str "mega"),
      ("Count", JVal.arr [JVal.str "1", JVal.str "2"])]) "Root") =
      JVal.obj [("Root", JVal.obj [("Name", JVal.str "mega"),
        ("Count", JVal.arr [JVal.str "1", JVal.str "2"])])] := by
  constructor
  · simp only [goodFields, goodFieldVal, goodVal, goodElems, goodLeaf, validTag,
      startsWithAtSign, closeNamesV, closeNamesFields, closeNamesElems]
    decide
  · exact C8_xml_roundtrip_good "Root" _ (by
      simp only [goodFields, goodFieldVal, goodVal, goodElems, goodLeaf, validTag,
        startsWithAtSign, closeNamesV, closeNamesFields, closeNamesElems]
      decide)

end MegaS4
